import Mathlib

/-!
The s3-aws-artifactory storage driver: path translation and the walk engine.

A shallow embedding of `registry/storage/driver/s3-aws-artifactory/s3.go`.

* A Go `string` is its sequence of bytes; a byte is written as a `Char`, so a
  string is a `List Char`.  Every library function used by the driver
  (`strings.HasPrefix`, `strings.TrimPrefix`, `filepath.Dir`, slicing, ...) works
  byte by byte, and `<` on `List Char` is the byte-wise lexicographic order in
  which the store lists its keys.
* `filepath.Dir` and `filepath.Clean` are the Go standard library's functions for
  a Unix target (separator `/`, no volume name), transcribed loop by loop.
* A loop that the source does not bound (`directoryDiff`) takes fuel and answers
  `none` when the fuel runs out.
* A Go `error` is a value of `GoError`; a run-time panic is `Outcome.panicked`.
-/

namespace S3Driver

/-- A Go string, as its list of bytes. -/
abbrev Str := List Char

/-! ## The `strings` package -/

/-- Go `strings.HasPrefix(s, pre)`. -/
def hasPrefix (s pre : Str) : Bool := pre.isPrefixOf s

/-- Go `strings.HasSuffix(s, suf)`. -/
def hasSuffix (s suf : Str) : Bool := suf.isSuffixOf s

/-- Go `strings.TrimPrefix(s, pre)`. -/
def trimPrefix (s pre : Str) : Str :=
  if hasPrefix s pre then s.drop pre.length else s

/-- Go `strings.TrimRight(s, cutset)`. -/
def trimRight (s cutset : Str) : Str := s.rdropWhile (fun c => decide (c ∈ cutset))

/-- Go `strings.TrimLeft(s, cutset)`. -/
def trimLeft (s cutset : Str) : Str := s.dropWhile (fun c => decide (c ∈ cutset))

/-- Go `strings.Replace(s, old, new, 1)`: the first occurrence of `old` in `s` is
replaced by `new`; an empty `old` matches at the beginning of `s`. -/
def replaceFirst : Str → Str → Str → Str
  | [], old, new => if old = [] then new else []
  | c :: cs, old, new =>
    if hasPrefix (c :: cs) old then new ++ (c :: cs).drop old.length
    else c :: replaceFirst cs old new

/-- Go `strings.Split(s, "/")`. -/
def splitSlash (s : Str) : List Str := s.splitOn '/'

/-! ## The `path/filepath` package (Unix) -/

/-- The backtracking of `filepath.Clean` on a `..` element,
`out.w--; for out.w > dotdot && !os.IsPathSeparator(out.index(out.w)) { out.w-- }`:
the argument is `out.w` after the first decrement, the result the final `out.w`. -/
def cleanBacktrack (out : Str) (dotdot : Nat) : Nat → Nat
  | 0 => 0
  | w + 1 =>
    if dotdot < w + 1 ∧ out[w + 1]? ≠ some '/' then cleanBacktrack out dotdot w else w + 1

/-- The main loop `for r < n { switch { ... } }` of `filepath.Clean`: the
arguments are the fuel, the unread input `path[r:]`, the buffer written so far
and the index `dotdot`.  Every round reads at least one byte. -/
def cleanLoop (rooted : Bool) : Nat → Str → Str → Nat → Str
  | 0, _, out, _ => out
  | _ + 1, [], out, _ => out
  | fuel + 1, c :: cs, out, dotdot =>
    if c = '/' then
      -- empty path element
      cleanLoop rooted fuel cs out dotdot
    else if c = '.' ∧ (cs = [] ∨ cs.head? = some '/') then
      -- . element
      cleanLoop rooted fuel cs out dotdot
    else if c = '.' ∧ cs.head? = some '.' ∧ (cs.tail = [] ∨ cs.tail.head? = some '/') then
      -- .. element: remove to last separator
      if dotdot < out.length then
        cleanLoop rooted fuel cs.tail
          (out.take (cleanBacktrack out dotdot (out.length - 1))) dotdot
      else if !rooted then
        let out2 := (if 0 < out.length then out ++ ['/'] else out) ++ ['.', '.']
        cleanLoop rooted fuel cs.tail out2 out2.length
      else
        cleanLoop rooted fuel cs.tail out dotdot
    else
      -- real path element: add slash if needed, copy element
      let out1 :=
        if (rooted && out.length != 1) || (!rooted && out.length != 0) then out ++ ['/']
        else out
      cleanLoop rooted fuel ((c :: cs).dropWhile (fun x => x != '/'))
        (out1 ++ (c :: cs).takeWhile (fun x => x != '/')) dotdot

/-- Go `filepath.Clean(path)`. -/
def filepathClean (path : Str) : Str :=
  match path with
  | [] => ['.']
  | c :: cs =>
    let out :=
      if c = '/' then cleanLoop true (c :: cs).length cs ['/'] 1
      else cleanLoop false (c :: cs).length (c :: cs) [] 0
    if out.length = 0 then ['.'] else out

/-- Go `filepath.Dir(path)`: everything up to and including the last separator,
cleaned.  `i := len(path) - 1; for i >= 0 && path[i] != '/' { i-- }` leaves
`path[:i+1]`, the path without its last element. -/
def filepathDir (path : Str) : Str :=
  filepathClean (path.rdropWhile (fun x => x != '/'))

/-! ## `directoryDiff` -/

/-- The `for { ... }` loop of `directoryDiff`; `none` when the fuel runs out. -/
def directoryDiffLoop (prev : Str) : Nat → Str → List Str → Option (List Str)
  | 0, _, _ => none
  | fuel + 1, parent, paths =>
    let parent := filepathDir parent
    if parent = ['/'] ∨ parent = prev ∨ hasPrefix (prev ++ ['/']) (parent ++ ['/']) = true then
      some paths
    else
      directoryDiffLoop prev fuel parent (paths ++ [parent])

/-- The function `directoryDiff(prev, current)`.  The loop is given
`len(current) + 2` rounds: `filepath.Dir` shortens every path but `/`, `.` and a
one-byte name, so a loop that has not stopped by then never stops. -/
def directoryDiff (prev current : Str) : Option (List Str) :=
  if prev = [] ∨ current = [] then some []
  else (directoryDiffLoop prev (current.length + 2) current []).map List.reverse

/-! ## Errors, panics, and the data handed to the visitor -/

/-- A Go `error` value of the kinds the driver produces or compares against. -/
inductive GoError where
  /-- The value `storagedriver.PathNotFoundError{Path: path}`. -/
  | PathNotFoundError (path : Str)
  /-- The sentinel `storagedriver.ErrSkipDir`. -/
  | ErrSkipDir
  /-- The sentinel `storagedriver.ErrFilledBuffer`. -/
  | ErrFilledBuffer
  /-- An `awserr.Error` with its `Code()` and message. -/
  | awsError (code message : Str)
  /-- Any other error, `errors.New(text)`. -/
  | errorString (text : Str)
  /-- The value `storagedriver.ErrUnsupportedMethod{DriverName: driverName}`. -/
  | ErrUnsupportedMethod (driverName : Str)
  deriving DecidableEq, Repr

/-- What a call of a Go function comes to: it returns, or it panics at run time. -/
inductive Outcome (α : Type) where
  | returned (v : α)
  | panicked
  deriving DecidableEq, Repr

/-- The fields of `storagedriver.FileInfoFields`; `ModTime` counts from Go's zero time. -/
structure FileInfo where
  Path : Str
  Size : Int
  ModTime : Int
  IsDir : Bool
  deriving DecidableEq, Repr

/-- One element of `ListObjectsV2Output.Contents`. -/
structure S3Object where
  Key : Str
  Size : Int
  LastModified : Int
  deriving DecidableEq, Repr

/-- The input of `S3.GetObjectWithContext`; `Range` is `"bytes=<offset>-"`, kept
as its offset. -/
structure GetObjectInput where
  Bucket : Str
  Key : Str
  RangeOffset : Int
  deriving DecidableEq, Repr

/-- The fields of `driver` that path translation, reading and walking use. -/
structure Driver where
  Bucket : Str
  RootDirectory : Str
  /-- The Go map `ArtifactoryMetadata`, as its list of entries. -/
  ArtifactoryMetadata : List (Str × Str)
  /-- The answer of `S3.GetObjectWithContext`: an error, or the response whose
  body `io.ReadAll` reads to the given bytes or fails on. -/
  GetObject : GetObjectInput → Except GoError (Except GoError Str)

/-- Indexing a Go `map[string]string`: a missing key yields the empty string. -/
def mapIndex (m : List (Str × Str)) (k : Str) : Str := (m.lookup k).getD []

/-- The method `(d *driver) s3Path(path)`. -/
def Driver.s3Path (d : Driver) (path : Str) : Str :=
  trimLeft (trimRight d.RootDirectory ['/'] ++ path) ['/']

/-! ## Path translation -/

/-- The function `sha1path(s)`; the slice `s[0:2]` panics on fewer than two bytes. -/
def sha1path (s : Str) : Outcome Str :=
  if 2 ≤ s.length then .returned (s.take 2 ++ ['/'] ++ s) else .panicked

/-- The literal `"/docker/registry"` that `ConvertPath` tests for. -/
def managedPrefix : Str := "/docker/registry".toList

/-- The literal `"/docker/registry/v2"` that `ConvertPath` trims. -/
def trimmedPrefix : Str := "/docker/registry/v2".toList

/-- The method `(d *driver) ConvertPath(p)`, returning the pair `(string, error)`. -/
def Driver.ConvertPath (d : Driver) (p : Str) : Outcome (Str × Option GoError) :=
  if !hasPrefix p managedPrefix then .returned (p, none)
  else
    -- artifactory doesn't have docker/registry/v2/repositories path
    let sPath := trimPrefix p trimmedPrefix
    match sha1path (mapIndex d.ArtifactoryMetadata sPath) with
    | .panicked => .panicked
    | .returned k => .returned ('/' :: k, none)

/-- Go `parseError(path, err)`. -/
def parseError (path : Str) (err : GoError) : GoError :=
  match err with
  | .awsError code _ => if code = "NoSuchKey".toList then .PathNotFoundError path else err
  | _ => err

/-- The method `(d *driver) Reader(ctx, path, offset)`: the store requests it
issues, and the pair `(io.ReadCloser, error)` it returns; a reader is what
`io.ReadAll` gets from it. -/
def Driver.Reader (d : Driver) (path : Str) (offset : Int) :
    List GetObjectInput × Outcome (Except GoError (Except GoError Str)) :=
  match d.ConvertPath path with
  | .panicked => ([], .panicked)
  | .returned (_, some err) => ([], .returned (.error err))
  | .returned (path, none) =>
    let input : GetObjectInput := ⟨d.Bucket, d.s3Path path, offset⟩
    match d.GetObject input with
    | .error err =>
      match err with
      | .awsError code _ =>
        if code = "InvalidRange".toList then ([input], .returned (.ok (.ok [])))
        else ([input], .returned (.error (parseError path err)))
      | _ => ([input], .returned (.error (parseError path err)))
    | .ok body => ([input], .returned (.ok body))

/-- The method `(d *driver) GetContent(ctx, path)`: the store requests it issues,
and the pair `([]byte, error)` it returns. -/
def Driver.GetContent (d : Driver) (path : Str) :
    List GetObjectInput × Outcome (Except GoError Str) :=
  match d.ConvertPath path with
  | .panicked => ([], .panicked)
  | .returned (nPath, err) =>
    if hasSuffix path "link".toList then
      -- return digest for manifest "sha256:xxxxxx"
      match (splitSlash nPath)[2]? with
      | none => ([], .panicked)
      | some frag => ([], .returned (.ok ("sha256:".toList ++ frag)))
    else
      match err with
      | some e => ([], .returned (.error e))
      | none =>
        match d.Reader nPath 0 with
        | (reqs, .panicked) => (reqs, .panicked)
        | (reqs, .returned (.error e)) => (reqs, .returned (.error e))
        | (reqs, .returned (.ok reader)) => (reqs, .returned reader)

/-! ## The walk engine -/

/-- The visitor `storagedriver.WalkFn`: a Go closure, as a function of its own
state and the entry it is passed; `none` is the `nil` error. -/
abbrev WalkFn (σ : Type) := σ → FileInfo → σ × Option GoError

/-- The variables of `doWalk` that its page callback reads and writes, the
visitor's state, and the visitor calls made so far with their answers. -/
structure WalkState (σ : Type) where
  retError : Option GoError
  prevDir : Str
  prevSkipDir : Str
  objectCount : Int
  visitor : σ
  calls : List (FileInfo × Option GoError)

/-- The `FileInfoInternal` that `doWalk` builds for an inferred directory. -/
def dirInfo (dir : Str) : FileInfo := { Path := dir, Size := 0, ModTime := 0, IsDir := true }

/-- The `FileInfoInternal` that `doWalk` builds for a listed object. -/
def fileInfo (filePath : Str) (file : S3Object) : FileInfo :=
  { Path := filePath, Size := file.Size, ModTime := file.LastModified, IsDir := false }

/-- The conversion of a listed key to a virtual path in `doWalk` and `List`:
`strings.Replace(*file.Key, d.s3Path(""), prefix, 1)`, where `prefix` is `"/"`
when `d.s3Path("")` is empty and `""` otherwise. -/
def Driver.keyToPath (d : Driver) (key : Str) : Str :=
  replaceFirst key (d.s3Path []) (if d.s3Path [] = [] then ['/'] else [])

/-- The first loop of the page callback, `for _, file := range objects.Contents`:
from `prevDir`, the objects still to read and the `walkInfos` built so far, the
final `walkInfos` and `prevDir`; `none` when `directoryDiff` does not return. -/
def pageWalkInfos (d : Driver) : Str → List S3Object → List FileInfo → Option (List FileInfo × Str)
  | prevDir, [], walkInfos => some (walkInfos, prevDir)
  | prevDir, file :: rest, walkInfos =>
    let filePath := d.keyToPath file.Key
    match directoryDiff prevDir filePath with
    | none => none
    | some dirs =>
      let (walkInfos, prevDir) :=
        dirs.foldl (fun (acc : List FileInfo × Str) dir => (acc.1 ++ [dirInfo dir], dir))
          (walkInfos, prevDir)
      pageWalkInfos d prevDir rest (walkInfos ++ [fileInfo filePath file])

/-- The second loop of the page callback, `for _, walkInfo := range walkInfos`:
the state it leaves and the callback's return value (`true` to go on to the next
page). -/
def visitWalkInfos {σ : Type} (f : WalkFn σ) : WalkState σ → List FileInfo → WalkState σ × Bool
  | st, [] => (st, true)
  | st, walkInfo :: rest =>
    -- skip any results under the last skip directory
    if st.prevSkipDir ≠ [] ∧ hasPrefix walkInfo.Path st.prevSkipDir = true then
      visitWalkInfos f st rest
    else
      let r := f st.visitor walkInfo
      let st := { st with visitor := r.1, objectCount := st.objectCount + 1,
                          calls := st.calls ++ [(walkInfo, r.2)] }
      match r.2 with
      | none => visitWalkInfos f st rest
      | some err =>
        if err = .ErrSkipDir then
          visitWalkInfos f { st with prevSkipDir := walkInfo.Path } rest
        else if err = .ErrFilledBuffer then (st, false)
        else ({ st with retError := some err }, false)

/-- The page callback handed to `ListObjectsV2PagesWithContext`. -/
def walkPage {σ : Type} (d : Driver) (f : WalkFn σ) (st : WalkState σ) (objects : List S3Object) :
    Option (WalkState σ × Bool) :=
  match pageWalkInfos d st.prevDir objects [] with
  | none => none
  | some (walkInfos, prevDir) => some (visitWalkInfos f { st with prevDir := prevDir } walkInfos)

/-- The pager `S3.ListObjectsV2PagesWithContext(ctx, input, fn)`: the store answers
the successive list requests with `pages` and then, when `storeErr` is an error,
fails the next request.  The pager calls `fn` on each page until `fn` returns
false.  The result is the final state, the number of list requests issued, and
the error the pager returns (`none` when it does not return). -/
def listPages {σ : Type} (d : Driver) (f : WalkFn σ) (storeErr : Option GoError) :
    WalkState σ → List (List S3Object) → Nat → WalkState σ × Nat × Option (Option GoError)
  | st, [], n => (st, if storeErr.isSome then n + 1 else n, some storeErr)
  | st, page :: more, n =>
    match walkPage d f st page with
    | none => (st, n + 1, none)
    | some (st, true) => listPages d f storeErr st more (n + 1)
    | some (st, false) => (st, n + 1, some none)

/-- A run of a walk: the visitor calls it makes, in order, each with the visitor's
answer; the visitor's last state; the number of list requests it issues; and the
error it returns (`none` when the walk does not return, `some none` for `nil`). -/
structure WalkRun (σ : Type) where
  calls : List (FileInfo × Option GoError)
  visitor : σ
  requests : Nat
  result : Option (Option GoError)

/-- The method `(d *driver) doWalk(ctx, objectCount, from, startAfter, f)` against
a store that answers the list requests for `from` with `pages` and `storeErr`. -/
def Driver.doWalk {σ : Type} (d : Driver) (pages : List (List S3Object))
    (storeErr : Option GoError) (frm : Str) (f : WalkFn σ) (v : σ) : WalkRun σ :=
  let st : WalkState σ :=
    { retError := none, prevDir := frm, prevSkipDir := [], objectCount := 0,
      visitor := v, calls := [] }
  match listPages d f storeErr st pages 0 with
  | (st, n, none) => ⟨st.calls, st.visitor, n, none⟩
  | (st, n, some listObjectErr) =>
    if st.retError.isSome then ⟨st.calls, st.visitor, n, some st.retError⟩
    else if listObjectErr.isSome then ⟨st.calls, st.visitor, n, some listObjectErr⟩
    else ⟨st.calls, st.visitor, n, some none⟩

/-- The method `(d *driver) Walk(ctx, from, f)`:
`if err := d.doWalk(...); err != nil { return err }; return nil`. -/
def Driver.Walk {σ : Type} (d : Driver) (pages : List (List S3Object))
    (storeErr : Option GoError) (frm : Str) (f : WalkFn σ) (v : σ) : WalkRun σ :=
  d.doWalk pages storeErr frm f v

/-! ## Vocabulary of the specification -/

/-- A path segment that is kept as it stands: not empty, without a separator,
and neither `.` nor `..`. -/
def cleanSeg (s : Str) : Bool := decide (s ≠ [] ∧ '/' ∉ s ∧ s ≠ ['.'] ∧ s ≠ ['.', '.'])

/-- A clean absolute path: it begins with `/`, and what follows is empty (the
root) or splits at `/` into clean segments. -/
def isCleanAbs (p : Str) : Bool :=
  match p with
  | '/' :: rest => rest.isEmpty || (rest.splitOn '/').all cleanSeg
  | _ => false

/-- The absolute path with the given segments; the root `/` when there are none. -/
def absPath (segs : List Str) : Str :=
  if segs = [] then ['/'] else segs.flatMap (fun s => '/' :: s)

/-- The directory `a`, other than the root, has `p` inside its subtree: `p` begins
with `a` followed by `/`. -/
def isAncestorOf (a p : Str) : Bool := a ≠ [] && (a ++ ['/']).isPrefixOf p

/-- The proper ancestor directories of `p` other than the root, outermost first. -/
def ancestorDirs (p : Str) : List Str := p.inits.filter (fun a => isAncestorOf a p)

/-! ## Vocabulary of the walk -/

/-- The byte-wise lexicographic order `a < b` of Go strings, the order in which
the store lists its keys. -/
def strLt : Str → Str → Bool
  | _, [] => false
  | [], _ :: _ => true
  | a :: as, b :: bs => decide (a < b) || (a == b && strLt as bs)

/-- The virtual paths of the listed objects, in listing order. -/
def Driver.walkPaths (d : Driver) (pages : List (List S3Object)) : List Str :=
  pages.flatten.map (fun o => d.keyToPath o.Key)

/-- The variable `path` of `doWalk`: `from`, with a `/` added unless it ends in one.
The listed keys are those under it. -/
def listPrefix (frm : Str) : Str := if hasSuffix frm ['/'] then frm else frm ++ ['/']

/-- The directories that `doWalk` infers for the path `k` after `prevDir`. -/
def dirsOf (prevDir k : Str) : List Str := (directoryDiff prevDir k).getD []

/-- The variable `prevDir` after the object with path `k` has been read. -/
def nextPrevDir (prevDir k : Str) : Str := (dirsOf prevDir k).getLastD prevDir

/-- The variable `prevDir` after the given objects have been read. -/
def Driver.prevDirAfter (d : Driver) : Str → List S3Object → Str
  | p, [] => p
  | p, o :: os => d.prevDirAfter (nextPrevDir p (d.keyToPath o.Key)) os

/-- The entries that `doWalk` builds for the given objects: for each object its
inferred directories and then the object itself. -/
def Driver.entriesFrom (d : Driver) : Str → List S3Object → List FileInfo
  | _, [] => []
  | p, o :: os =>
    (dirsOf p (d.keyToPath o.Key)).map dirInfo ++
      fileInfo (d.keyToPath o.Key) o :: d.entriesFrom (nextPrevDir p (d.keyToPath o.Key)) os

/-! ## Vocabulary of the proofs -/

/-- The segments of a path, innermost first, to the path. -/
def revPath (rs : List Str) : Str := absPath rs.reverse

/-- The proper ancestors, other than the root, of the path whose segments are
`rs` (innermost first), from the parent outwards. -/
def upDirs : List Str → List Str
  | [] => []
  | _ :: rs => if rs = [] then [] else revPath rs :: upDirs rs

/-- The test that ends the loop of `directoryDiff`, apart from `parent == "/"`. -/
def stopAt (prev parent : Str) : Bool :=
  decide (parent = prev ∨ hasPrefix (prev ++ ['/']) (parent ++ ['/']) = true)

/-- A visitor answer after which the walk goes on: `nil` or `ErrSkipDir`. -/
def goesOn (c : FileInfo × Option GoError) : Prop := c.2 = none ∨ c.2 = some .ErrSkipDir

/-- The state in which `doWalk` starts. -/
def initState {σ : Type} (frm : Str) (v : σ) : WalkState σ :=
  { retError := none, prevDir := frm, prevSkipDir := [], objectCount := 0,
    visitor := v, calls := [] }

/-- The state after the visitor has been called on `e`: `err := f(walkInfo)` and
`*objectCount++`. -/
def WalkState.called {σ : Type} (st : WalkState σ) (f : WalkFn σ) (e : FileInfo) : WalkState σ :=
  ⟨st.retError, st.prevDir, st.prevSkipDir, st.objectCount + 1, (f st.visitor e).1,
    st.calls ++ [(e, (f st.visitor e).2)]⟩

/-- The state with `prevSkipDir` set. -/
def WalkState.skipping {σ : Type} (st : WalkState σ) (dir : Str) : WalkState σ :=
  ⟨st.retError, st.prevDir, dir, st.objectCount, st.visitor, st.calls⟩

/-- The state with `retError` set. -/
def WalkState.failed {σ : Type} (st : WalkState σ) (err : GoError) : WalkState σ :=
  ⟨some err, st.prevDir, st.prevSkipDir, st.objectCount, st.visitor, st.calls⟩

/-- The state with `prevDir` set. -/
def WalkState.withPrevDir {σ : Type} (st : WalkState σ) (dir : Str) : WalkState σ :=
  ⟨st.retError, dir, st.prevSkipDir, st.objectCount, st.visitor, st.calls⟩

/-! ## Concrete drivers and visitors for the examples -/

/-- A driver with an empty root directory and the given metadata map, over a
store without objects. -/
def exampleDriver (m : List (Str × Str)) : Driver :=
  { Bucket := "b".toList, RootDirectory := [], ArtifactoryMetadata := m,
    GetObject := fun _ => .error (.awsError "NoSuchKey".toList []) }

/-- A visitor without state that answers `ErrSkipDir` on the entries whose path is
in `skip`, `ErrFilledBuffer` on those in `stop`, fails on those in `fail`, and
answers `nil` otherwise. -/
def scriptedVisitor (skip stop fail : List Str) : WalkFn Unit :=
  fun _ e => ((), if e.Path ∈ skip then some .ErrSkipDir
                  else if e.Path ∈ stop then some .ErrFilledBuffer
                  else if e.Path ∈ fail then some (.errorString "boom".toList) else none)

/-! ## The list requests of the store -/

/-- The input of `S3.ListObjectsV2WithContext`. -/
structure ListObjectsV2Input where
  Bucket : Str
  Prefix : Str
  Delimiter : Option Str
  MaxKeys : Int
  ContinuationToken : Option Str
  deriving DecidableEq, Repr

/-- The fields of `s3.ListObjectsV2Output` that `List` reads. -/
structure ListObjectsV2Output where
  Contents : List S3Object
  CommonPrefixes : List Str
  IsTruncated : Bool
  NextContinuationToken : Option Str
  deriving DecidableEq, Repr

/-- The constant `listMax`. -/
def listMax : Int := 1000

/-! ## The operations that are not implemented -/

/-- A request against the store. -/
inductive S3Request where
  | getObject (input : GetObjectInput)
  | listObjectsV2 (input : ListObjectsV2Input)
  deriving DecidableEq, Repr

/-- A `storagedriver.FileWriter`; the driver never builds one. -/
structure FileWriter where
  key : Str
  deriving DecidableEq, Repr

/-- The error `errors.New("not implemented")`. -/
def notImplemented : GoError := .errorString "not implemented".toList

/-- The method `(d *driver) PutContent(ctx, path, contents)`: the store requests
it issues, the driver it leaves, and the error it returns. -/
def Driver.PutContent (d : Driver) (_path : Str) (_contents : Str) :
    List S3Request × Driver × Option GoError :=
  ([], d, some notImplemented)

/-- The method `(d *driver) Writer(ctx, path, appendParam)`: the store requests it
issues, the driver it leaves, and the pair `(FileWriter, error)` it returns. -/
def Driver.Writer (d : Driver) (_path : Str) (_appendParam : Bool) :
    List S3Request × Driver × Option FileWriter × Option GoError :=
  ([], d, none, some notImplemented)

/-- The method `(d *driver) Move(ctx, sourcePath, destPath)`. -/
def Driver.Move (d : Driver) (_sourcePath _destPath : Str) :
    List S3Request × Driver × Option GoError :=
  ([], d, some notImplemented)

/-- The method `(d *driver) Delete(ctx, path)`. -/
def Driver.Delete (d : Driver) (_path : Str) : List S3Request × Driver × Option GoError :=
  ([], d, some notImplemented)

/-! ## `Stat` -/

/-- The method `(d *driver) Stat(ctx, path)` against a store that answers the list
request with `answer`: the list requests issued, and the pair
`(storagedriver.FileInfo, error)` returned. -/
def Driver.Stat (d : Driver) (answer : Except GoError ListObjectsV2Output) (path : Str) :
    List ListObjectsV2Input × Outcome (Except GoError FileInfo) :=
  match d.ConvertPath path with
  | .panicked => ([], .panicked)
  | .returned (_, some err) => ([], .returned (.error err))
  | .returned (path, none) =>
    let input : ListObjectsV2Input := ⟨d.Bucket, d.s3Path path, none, 1, none⟩
    match answer with
    | .error err => ([input], .returned (.error err))
    | .ok resp =>
      match resp.Contents with
      | [object] =>
        if object.Key ≠ d.s3Path path then
          ([input], .returned (.ok { Path := path, Size := 0, ModTime := 0, IsDir := true }))
        else
          ([input], .returned (.ok
            { Path := path, Size := object.Size, ModTime := object.LastModified, IsDir := false }))
      | _ =>
        if resp.CommonPrefixes.length = 1 then
          ([input], .returned (.ok { Path := path, Size := 0, ModTime := 0, IsDir := true }))
        else ([input], .returned (.error (.PathNotFoundError path)))

/-! ## `URLFor` -/

/-- The slice `commonPrefix[0:len(commonPrefix)-1]`, which panics on the empty
string. -/
def dropLastByte (s : Str) : Outcome Str :=
  if s = [] then .panicked else .returned s.dropLast

/-- The loop `for _, commonPrefix := range resp.CommonPrefixes` of `List`, from the
common prefixes still to read and the `directories` so far. -/
def Driver.appendDirectories (d : Driver) : List Str → List Str → Outcome (List Str)
  | [], directories => .returned directories
  | commonPrefix :: rest, directories =>
    match dropLastByte commonPrefix with
    | .panicked => .panicked
    | .returned s => d.appendDirectories rest (directories ++ [d.keyToPath s])

/-- The loop `for { ... }` of `List`: from the response at hand, the answers of the
store to the list requests still to come, `files`, `directories` and the
requests issued so far, the requests issued and what the loop comes to (`none`
when the store does not answer a request; otherwise a panic, the error returned
from inside the loop, or `files` and `directories` at the `break`). -/
def Driver.listLoop (d : Driver) (path : Str) :
    ListObjectsV2Output → List (Except GoError ListObjectsV2Output) → List Str → List Str →
    List ListObjectsV2Input →
    List ListObjectsV2Input × Option (Outcome (Except GoError (List Str × List Str)))
  | resp, answers, files, directories, reqs =>
    let files := files ++ resp.Contents.map (fun key => d.keyToPath key.Key)
    let input : ListObjectsV2Input :=
      ⟨d.Bucket, d.s3Path path, some ['/'], listMax, resp.NextContinuationToken⟩
    match d.appendDirectories resp.CommonPrefixes directories, resp.IsTruncated, answers with
    | .panicked, _, _ => (reqs, some .panicked)
    | .returned directories, false, _ => (reqs, some (.returned (.ok (files, directories))))
    | .returned _, true, [] => (reqs ++ [input], none)
    | .returned _, true, .error err :: _ => (reqs ++ [input], some (.returned (.error err)))
    | .returned directories, true, .ok next :: more =>
      d.listLoop path next more files directories (reqs ++ [input])

/-- The method `(d *driver) List(ctx, opath)` against a store that answers the
successive list requests with `answers`: the requests issued, and the pair
`([]string, error)` returned (`none` when the store does not answer a request). -/
def Driver.List (d : Driver) (answers : List (Except GoError ListObjectsV2Output))
    (opath : Str) :
    List ListObjectsV2Input × Option (Outcome (Except GoError (List Str))) :=
  -- `path[len(path)-1]` panics on the empty path
  if opath = [] then ([], some .panicked)
  else
    let path := if opath ≠ ['/'] ∧ opath.getLast? ≠ some '/' then opath ++ ['/'] else opath
    let input : ListObjectsV2Input := ⟨d.Bucket, d.s3Path path, some ['/'], listMax, none⟩
    match answers with
    | [] => ([input], none)
    | .error err :: _ => ([input], some (.returned (.error (parseError opath err))))
    | .ok resp :: more =>
      match d.listLoop path resp more [] [] [input] with
      | (reqs, none) => (reqs, none)
      | (reqs, some .panicked) => (reqs, some .panicked)
      | (reqs, some (.returned (.error err))) => (reqs, some (.returned (.error err)))
      | (reqs, some (.returned (.ok (files, directories)))) =>
        if opath ≠ ['/'] ∧ files.length = 0 ∧ directories.length = 0 then
          -- Treat empty response as missing directory
          (reqs, some (.returned (.error (.PathNotFoundError opath))))
        else (reqs, some (.returned (.ok (files ++ directories))))

/-! ## Vocabulary of the claims on errors -/

/-- The error is an `awserr.Error` whose `Code()` is `code`. -/
def GoError.hasCode (err : GoError) (code : Str) : Bool :=
  match err with
  | .awsError c _ => c == code
  | _ => false

/-- The path that an error value carries: the `Path` field of a
`PathNotFoundError`; the other errors have none. -/
def GoError.pathOf (err : GoError) : Option Str :=
  match err with
  | .PathNotFoundError path => some path
  | _ => none

/-- The code `"InvalidRange"`. -/
def invalidRange : Str := "InvalidRange".toList

/-- The code `"NoSuchKey"`. -/
def noSuchKey : Str := "NoSuchKey".toList

/-- A driver with the given root directory and an empty metadata map, over a
store that answers every read with the given answer. -/
def rootDriver (root : Str) (answer : Except GoError (Except GoError Str)) : Driver :=
  { Bucket := "b".toList, RootDirectory := root, ArtifactoryMetadata := [],
    GetObject := fun _ => answer }

/-! ## Vocabulary of the claims on listings -/

/-- A sequence of listing pages as the store returns it to one `List`: there is a
page, every page but the last is truncated, and the last is not. -/
def pageSequence : List ListObjectsV2Output → Bool
  | [] => false
  | [p] => !p.IsTruncated
  | p :: q :: rest => p.IsTruncated && pageSequence (q :: rest)

/-- The object keys of the pages, in page order. -/
def pageKeys (pages : List ListObjectsV2Output) : List Str :=
  pages.flatMap (fun p => p.Contents.map (fun o => o.Key))

/-- The common prefixes of the pages, in page order. -/
def pageCommonPrefixes (pages : List ListObjectsV2Output) : List Str :=
  pages.flatMap (fun p => p.CommonPrefixes)

/-- A common prefix with its single trailing `/` removed. -/
def withoutTrailingSlash (commonPrefix : Str) : Str :=
  if hasSuffix commonPrefix ['/'] then commonPrefix.dropLast else commonPrefix

/-- A listing page for the examples. -/
def examplePage (keys commonPrefixes : List Str) (truncated : Bool) : ListObjectsV2Output :=
  ⟨keys.map (fun k => ⟨k, 1, 1⟩), commonPrefixes, truncated, none⟩

/-! ## The calls of a walk, as the specification words them -/

/-- The sequence of entries the visitor is to be passed, as the specification
words it: for each listed object in listing order, one directory entry for each
element of `directoryDiff(prevDir, path)` in order, `prevDir` being set to each
emitted directory in turn, and then the file entry of the object.  The sequence
is `none` when a call of `directoryDiff` does not return. -/
def walkCallsSpec (d : Driver) : Str → List S3Object → Option (List FileInfo)
  | _, [] => some []
  | prevDir, o :: os =>
    match directoryDiff prevDir (d.keyToPath o.Key) with
    | none => none
    | some dirs =>
      match walkCallsSpec d (dirs.getLastD prevDir) os with
      | none => none
      | some rest =>
        some (dirs.map dirInfo ++
          ⟨d.keyToPath o.Key, o.Size, o.LastModified, false⟩ :: rest)

/-! ## `FromParameters` -/

/-- A non-nil value of the map `parameters map[string]interface{}`: a `string`, a
`bool`, an `int64`, a value of one of the types `int`, `uint`, `int32`, `uint32`,
`uint64`, or a value of any other type, given by what `fmt.Sprint` and
`fmt.Sprintf("%s", _)` print for it.  A key that is absent, or present with the
value `nil`, is a key that `List.lookup` does not find. -/
inductive Param where
  | str (s : Str)
  | bool (b : Bool)
  | int64 (n : Int)
  | integer (typeName : Str) (n : Int)
  | other (sprint sprintfS : Str)
  deriving DecidableEq, Repr

/-- An argument of `fmt.Errorf`. -/
inductive FmtArg where
  | str (s : Str)
  | int (n : Int)
  | strs (l : List Str)
  | value (v : Option Param)
  deriving DecidableEq, Repr

/-- The error `fmt.Errorf(format, args...)`, kept as its format and arguments. -/
structure Errorf where
  format : Str
  args : List FmtArg
  deriving DecidableEq, Repr

/-- What `FromParameters` takes from outside the package: the keys of the map
`validRegions`, which `init` fills from `endpoints.DefaultPartitions()`;
`strconv.ParseInt(s, 0, 64)`, `none` when it returns an error; and
`strings.ToUpper`. -/
structure Runtime where
  validRegions : List Str
  ParseInt : Str → Option Int
  ToUpper : Str → Str

/-- The struct `DriverParameters`. -/
structure DriverParameters where
  AccessKey : Str
  SecretKey : Str
  Bucket : Str
  Region : Str
  RegionEndpoint : Str
  ForcePathStyle : Bool
  Encrypt : Bool
  KeyID : Str
  Secure : Bool
  SkipVerify : Bool
  V4Auth : Bool
  ChunkSize : Int
  MultipartCopyChunkSize : Int
  MultipartCopyMaxConcurrency : Int
  MultipartCopyThresholdSize : Int
  MultipartCombineSmallPart : Bool
  RootDirectory : Str
  StorageClass : Str
  UserAgent : Str
  ObjectACL : Str
  SessionToken : Str
  UseDualStack : Bool
  Accelerate : Bool
  MetadataPath : Str
  deriving DecidableEq, Repr

/-- The decimal digits of an integer, as `fmt` prints them. -/
def decimal (n : Int) : Str := (toString n).toList

/-- Go `fmt.Sprint(v)` on a value of the parameter map; `none` is `nil`. -/
def sprint : Option Param → Str
  | none => "<nil>".toList
  | some (.str s) => s
  | some (.bool b) => if b then "true".toList else "false".toList
  | some (.int64 n) => decimal n
  | some (.integer _ n) => decimal n
  | some (.other s _) => s

/-- Go `fmt.Sprintf("%s", v)` on a value of the parameter map; `none` is `nil`. -/
def sprintfS : Option Param → Str
  | none => "%!s(<nil>)".toList
  | some (.str s) => s
  | some (.bool b) => "%!s(bool=".toList ++ (if b then "true".toList else "false".toList) ++ [')']
  | some (.int64 n) => "%!s(int64=".toList ++ decimal n ++ [')']
  | some (.integer typeName n) => "%!s(".toList ++ typeName ++ ['='] ++ decimal n ++ [')']
  | some (.other _ s) => s

/-- Go `strconv.ParseBool(str)`; `none` when it returns an error. -/
def parseBool (str : Str) : Option Bool :=
  if str ∈ ["1".toList, "t".toList, "T".toList, "TRUE".toList, "true".toList, "True".toList] then
    some true
  else if str ∈ ["0".toList, "f".toList, "F".toList, "FALSE".toList, "false".toList,
      "False".toList] then
    some false
  else none

/-- The type switch that `FromParameters` runs on each of its boolean parameters:
`case string` parses the value, `case bool` takes it, `case nil` keeps the
default, and any other type is refused with the message of that parameter. -/
def boolParameter (parameters : List (Str × Param)) (name : Str) (default : Bool)
    (message : Str) : Except Errorf Bool :=
  match parameters.lookup name with
  | some (.str s) =>
    match parseBool s with
    | none => .error ⟨message, []⟩
    | some b => .ok b
  | some (.bool b) => .ok b
  | none => .ok default
  | some _ => .error ⟨message, []⟩

/-- The conversion `reflect.ValueOf(v).Convert(reflect.TypeOf(rv)).Int()` of an
integer to `int64`, which wraps around. -/
def toInt64 (n : Int) : Int := (n + 2 ^ 63) % 2 ^ 64 - 2 ^ 63

/-- The function `getParameterAsInt64(parameters, name, defaultt, min, max)`. -/
def getParameterAsInt64 (rt : Runtime) (parameters : List (Str × Param)) (name : Str)
    (defaultt min max : Int) : Except Errorf Int := do
  let param := parameters.lookup name
  let rv ←
    match param with
    | some (.str v) =>
      match rt.ParseInt v with
      | none =>
        throw ⟨"%s parameter must be an integer, %v invalid".toList, [.str name, .value param]⟩
      | some vv => pure vv
    | some (.int64 v) => pure v
    | some (.integer _ v) => pure (toInt64 v)
    | none => pure defaultt
    | some _ => throw ⟨"invalid value for %s: %#v".toList, [.str name, .value param]⟩
  if rv < min ∨ rv > max then
    throw ⟨"the %s %#v parameter should be a number between %d and %d (inclusive)".toList,
      [.str name, .int rv, .int min, .int max]⟩
  pure rv

/-- The constant `minChunkSize`, `5 << 20`. -/
def minChunkSize : Int := 5 * 2 ^ 20

/-- The constant `maxChunkSize`, `5 << 30`. -/
def maxChunkSize : Int := 5 * 2 ^ 30

/-- The constant `defaultChunkSize`. -/
def defaultChunkSize : Int := 2 * minChunkSize

/-- The constant `defaultMultipartCopyChunkSize`, `32 << 20`. -/
def defaultMultipartCopyChunkSize : Int := 32 * 2 ^ 20

/-- The constant `defaultMultipartCopyMaxConcurrency`. -/
def defaultMultipartCopyMaxConcurrency : Int := 100

/-- The constant `defaultMultipartCopyThresholdSize`, `32 << 20`. -/
def defaultMultipartCopyThresholdSize : Int := 32 * 2 ^ 20

/-- The constant `noStorageClass`. -/
def noStorageClass : Str := "NONE".toList

/-- The constant `s3.StorageClassStandard`. -/
def storageClassStandard : Str := "STANDARD".toList

/-- The variable `s3StorageClasses`. -/
def s3StorageClasses : List Str :=
  [noStorageClass, storageClassStandard, "REDUCED_REDUNDANCY".toList, "STANDARD_IA".toList,
    "ONEZONE_IA".toList, "INTELLIGENT_TIERING".toList, "OUTPOSTS".toList, "GLACIER_IR".toList]

/-- The keys of the map `validObjectACLs`, which `init` fills with the canned ACLs
of the store; the first is `s3.ObjectCannedACLPrivate`. -/
def validObjectACLs : List Str :=
  ["private".toList, "public-read".toList, "public-read-write".toList,
    "authenticated-read".toList, "aws-exec-read".toList, "bucket-owner-read".toList,
    "bucket-owner-full-control".toList]

/-- The message of the error on a relative metadata path. -/
def relativeMetadataPath : Str :=
  "metadata path cant have relative path if rootdirectory is not set".toList

/-- The function `FromParameters(parameters)` up to its last statement
`return New(params)`: the error it returns before that statement, or the
`params` that it hands to `New`. -/
def FromParameters (rt : Runtime) (parameters : List (Str × Param)) :
    Except Errorf DriverParameters := do
  let accessKey := (parameters.lookup "accesskey".toList).getD (.str [])
  let secretKey := (parameters.lookup "secretkey".toList).getD (.str [])
  let regionEndpoint := (parameters.lookup "regionendpoint".toList).getD (.str [])
  let forcePathStyleBool ← boolParameter parameters "forcepathstyle".toList true
    "the forcePathStyle parameter should be a boolean".toList
  let regionName := parameters.lookup "region".toList
  if regionName = none ∨ sprint regionName = [] then
    throw ⟨"no region parameter provided".toList, []⟩
  let region := sprint regionName
  -- Don't check the region value if a custom endpoint is provided.
  if regionEndpoint = .str [] ∧ region ∉ rt.validRegions then
    throw ⟨"invalid region provided: %v".toList, [.str region]⟩
  let bucket := parameters.lookup "bucket".toList
  if bucket = none ∨ sprint bucket = [] then
    throw ⟨"no bucket parameter provided".toList, []⟩
  let encryptBool ← boolParameter parameters "encrypt".toList false
    "the encrypt parameter should be a boolean".toList
  let secureBool ← boolParameter parameters "secure".toList true
    "the secure parameter should be a boolean".toList
  let skipVerifyBool ← boolParameter parameters "skipverify".toList false
    "the skipVerify parameter should be a boolean".toList
  let v4Bool ← boolParameter parameters "v4auth".toList true
    "the v4auth parameter should be a boolean".toList
  let keyID := (parameters.lookup "keyid".toList).getD (.str [])
  let chunkSize ← getParameterAsInt64 rt parameters "chunksize".toList defaultChunkSize
    minChunkSize maxChunkSize
  let multipartCopyChunkSize ← getParameterAsInt64 rt parameters "multipartcopychunksize".toList
    defaultMultipartCopyChunkSize minChunkSize maxChunkSize
  let multipartCopyMaxConcurrency ← getParameterAsInt64 rt parameters
    "multipartcopymaxconcurrency".toList defaultMultipartCopyMaxConcurrency 1 (2 ^ 63 - 1)
  let multipartCopyThresholdSize ← getParameterAsInt64 rt parameters
    "multipartcopythresholdsize".toList defaultMultipartCopyThresholdSize 0 maxChunkSize
  let rootDirectory := (parameters.lookup "rootdirectory".toList).getD (.str [])
  let storageClassParam := parameters.lookup "storageclass".toList
  let storageClass ←
    match storageClassParam with
    | none => pure storageClassStandard
    | some (.str storageClassString) =>
      -- All valid storage class parameters are UPPERCASE, so be a bit more flexible here
      if rt.ToUpper storageClassString ∉ s3StorageClasses then
        throw ⟨"the storageclass parameter must be one of %v, %v invalid".toList,
          [.strs s3StorageClasses, .value storageClassParam]⟩
      else pure (rt.ToUpper storageClassString)
    | some _ =>
      throw ⟨"the storageclass parameter must be one of %v, %v invalid".toList,
        [.strs s3StorageClasses, .value storageClassParam]⟩
  let userAgent := (parameters.lookup "useragent".toList).getD (.str [])
  let objectACLParam := parameters.lookup "objectacl".toList
  let objectACL ←
    match objectACLParam with
    | none => pure "private".toList
    | some (.str objectACLString) =>
      if objectACLString ∉ validObjectACLs then
        throw ⟨"invalid value for objectacl parameter: %v".toList, [.value objectACLParam]⟩
      else pure objectACLString
    | some _ =>
      throw ⟨"invalid value for objectacl parameter: %v".toList, [.value objectACLParam]⟩
  let useDualStackBool ← boolParameter parameters "usedualstack".toList false
    "the useDualStack parameter should be a boolean".toList
  let mutlipartCombineSmallPart ← boolParameter parameters "multipartcombinesmallpart".toList
    true "the multipartcombinesmallpart parameter should be a boolean".toList
  let sessionToken := parameters.lookup "sessiontoken".toList
  let accelerateBool ← boolParameter parameters "accelerate".toList false
    "the accelerate parameter should be a boolean".toList
  let artyMeta := sprintfS (parameters.lookup "metadatapath".toList)
  if parameters.lookup "rootdirectory".toList = some (.str []) ∧
      hasPrefix artyMeta "../".toList = true then
    throw ⟨relativeMetadataPath, []⟩
  pure
    { AccessKey := sprint (some accessKey), SecretKey := sprint (some secretKey),
      Bucket := sprint bucket, Region := region, RegionEndpoint := sprint (some regionEndpoint),
      ForcePathStyle := forcePathStyleBool, Encrypt := encryptBool,
      KeyID := sprint (some keyID), Secure := secureBool, SkipVerify := skipVerifyBool,
      V4Auth := v4Bool, ChunkSize := chunkSize,
      MultipartCopyChunkSize := multipartCopyChunkSize,
      MultipartCopyMaxConcurrency := multipartCopyMaxConcurrency,
      MultipartCopyThresholdSize := multipartCopyThresholdSize,
      MultipartCombineSmallPart := mutlipartCombineSmallPart,
      RootDirectory := sprint (some rootDirectory), StorageClass := storageClass,
      UserAgent := sprint (some userAgent), ObjectACL := objectACL,
      SessionToken := sprint sessionToken, UseDualStack := useDualStackBool,
      Accelerate := accelerateBool, MetadataPath := artyMeta }

/-- A parameter map without the key `rootdirectory`, for the examples: a region
with a custom endpoint, a bucket, and a relative metadata path. -/
def exampleParameters : List (Str × Param) :=
  [("region".toList, .str "us-east-1".toList),
   ("regionendpoint".toList, .str "http://store:9000".toList),
   ("bucket".toList, .str "b".toList),
   ("metadatapath".toList, .str "../meta.json".toList)]

/-! ## Clean absolute paths and their segments -/

theorem hasPrefix_iff (s pre : Str) : hasPrefix s pre = true ↔ pre <+: s := by
  unfold hasPrefix
  exact List.isPrefixOf_iff_prefix

theorem cleanSeg_iff (s : Str) :
    cleanSeg s = true ↔ s ≠ [] ∧ '/' ∉ s ∧ s ≠ ['.'] ∧ s ≠ ['.', '.'] := by
  simp [cleanSeg]

theorem absPath_nil : absPath [] = ['/'] := rfl

theorem absPath_concat (segs : List Str) (s : Str) :
    absPath (segs ++ [s]) = (if segs = [] then [] else absPath segs) ++ '/' :: s := by
  by_cases h : segs = []
  · subst h; simp [absPath]
  · simp [absPath, h, List.flatMap_append]

theorem slash_intercalate (ls : List Str) (h : ls ≠ []) :
    '/' :: ['/'].intercalate ls = ls.flatMap (fun s => '/' :: s) := by
  induction ls with
  | nil => exact absurd rfl h
  | cons a t ih =>
    cases t with
    | nil => simp [List.intercalate, List.intersperse]
    | cons b t =>
      have := ih (by simp)
      simp only [List.intercalate, List.intersperse, List.flatMap_cons, List.flatten_cons] at this ⊢
      simp only [List.cons_append, List.singleton_append, List.nil_append, List.append_assoc]
      have h2 := List.cons_injective this
      rw [h2]
      rfl

theorem splitOn_ne_nil (l : Str) : l.splitOn '/' ≠ [] := by
  simp [List.splitOn, List.splitOnP_ne_nil]

theorem isCleanAbs_iff_absPath (p : Str) :
    isCleanAbs p = true ↔ ∃ segs : List Str, (∀ s ∈ segs, cleanSeg s = true) ∧ p = absPath segs := by
  constructor
  · intro h
    unfold isCleanAbs at h
    split at h
    · rename_i rest
      by_cases hr : rest = []
      · subst hr; exact ⟨[], by simp, rfl⟩
      · refine ⟨rest.splitOn '/', ?_, ?_⟩
        · simp [hr] at h
          intro s hs; exact h s hs
        · simp only [absPath, splitOn_ne_nil, if_false]
          rw [← slash_intercalate _ (splitOn_ne_nil rest), List.intercalate_splitOn]
    · exact absurd h (by simp)
  · rintro ⟨segs, hs, rfl⟩
    by_cases h : segs = []
    · subst h; simp [absPath, isCleanAbs]
    · have h1 : absPath segs = '/' :: ['/'].intercalate segs := by
        simp only [absPath, h, if_false]; exact (slash_intercalate segs h).symm
      rw [h1]
      have h2 : (['/'].intercalate segs).splitOn '/' = segs := by
        apply List.splitOn_intercalate _ _ _ h
        intro l hl
        exact ((cleanSeg_iff l).1 (hs l hl)).2.1
      simp only [isCleanAbs, h2, Bool.or_eq_true, List.all_eq_true]
      exact Or.inr hs

/-! ## `filepath.Dir` on a clean absolute path -/

theorem takeWhile_seg (s R : Str) (hs : '/' ∉ s) :
    (s ++ '/' :: R).takeWhile (fun x => x != '/') = s := by
  induction s with
  | nil => simp
  | cons c t ih =>
    have hc : c ≠ '/' := fun h => hs (by simp [h])
    have ht : '/' ∉ t := fun h => hs (by simp [h])
    simp [List.takeWhile_cons, hc, ih ht]

theorem dropWhile_seg (s R : Str) (hs : '/' ∉ s) :
    (s ++ '/' :: R).dropWhile (fun x => x != '/') = '/' :: R := by
  induction s with
  | nil => simp
  | cons c t ih =>
    have hc : c ≠ '/' := fun h => hs (by simp [h])
    have ht : '/' ∉ t := fun h => hs (by simp [h])
    simp [List.dropWhile_cons, hc, ih ht]

theorem rdropWhile_seg (X s : Str) (hs : '/' ∉ s) :
    (X ++ '/' :: s).rdropWhile (fun x => x != '/') = X ++ ['/'] := by
  induction s using List.reverseRecOn with
  | nil => simp [List.rdropWhile_concat]
  | append_singleton t x ih =>
    have hx : x ≠ '/' := fun h => hs (by simp [h])
    have ht : '/' ∉ t := fun h => hs (by simp [h])
    have e : X ++ '/' :: (t ++ [x]) = (X ++ '/' :: t) ++ [x] := by simp
    rw [e, List.rdropWhile_concat]
    simp [hx, ih ht]

/-- One clean segment followed by a separator takes `filepath.Clean` two rounds:
the segment is copied to the buffer and the separator is read. -/
theorem cleanLoop_seg (fuel : Nat) (s R out : Str) (d : Nat) (hs : cleanSeg s = true) :
    cleanLoop true (fuel + 2) (s ++ '/' :: R) out d =
      cleanLoop true fuel R ((if out.length ≠ 1 then out ++ ['/'] else out) ++ s) d := by
  obtain ⟨hne, hsl, hdot, hdd⟩ := (cleanSeg_iff s).1 hs
  cases s with
  | nil => exact absurd rfl hne
  | cons c t =>
    have hc : c ≠ '/' := fun h => hsl (by simp [h])
    have ht : '/' ∉ t := fun h => hsl (by simp [h])
    have h1 : ¬ (c = '.' ∧ (t ++ '/' :: R = [] ∨ (t ++ '/' :: R).head? = some '/')) := by
      rintro ⟨rfl, h | h⟩
      · simp at h
      · cases t with
        | nil => exact hdot rfl
        | cons x t' =>
          simp at h
          exact ht (by simp [h])
    have h2 : ¬ (c = '.' ∧ (t ++ '/' :: R).head? = some '.' ∧
        ((t ++ '/' :: R).tail = [] ∨ (t ++ '/' :: R).tail.head? = some '/')) := by
      rintro ⟨rfl, h, h'⟩
      cases t with
      | nil => simp at h
      | cons x t' =>
        simp at h
        subst h
        cases t' with
        | nil => exact hdd rfl
        | cons y t'' =>
          rcases h' with h' | h'
          · simp at h'
          · simp at h'
            exact ht (by simp [h'])
    have e : (c :: t) ++ '/' :: R = c :: (t ++ '/' :: R) := rfl
    rw [e]
    conv_lhs => unfold cleanLoop
    simp only [hc, if_false, h1, h2]
    rw [← e, takeWhile_seg _ _ hsl, dropWhile_seg _ _ hsl]
    conv_lhs => unfold cleanLoop
    simp

theorem absPath_length_ne_one (done : List Str) (hd : ∀ s ∈ done, cleanSeg s = true)
    (hne : done ≠ []) : (absPath done).length ≠ 1 := by
  cases done with
  | nil => exact absurd rfl hne
  | cons a t =>
    have ha := ((cleanSeg_iff a).1 (hd a (by simp))).1
    cases a with
    | nil => exact absurd rfl ha
    | cons c a' => simp [absPath]

theorem cleanLoop_segs (segs : List Str) (hs : ∀ s ∈ segs, cleanSeg s = true) :
    ∀ (done : List Str) (fuel : Nat), (∀ s ∈ done, cleanSeg s = true) →
      (segs.flatMap (fun s => s ++ ['/'])).length ≤ fuel →
      cleanLoop true fuel (segs.flatMap (fun s => s ++ ['/'])) (absPath done) 1 =
        absPath (done ++ segs) := by
  induction segs with
  | nil =>
    intro done fuel _ _
    cases fuel <;> simp [cleanLoop]
  | cons s ss ih =>
    intro done fuel hd hf
    have hsc := hs s (by simp)
    have hsne := ((cleanSeg_iff s).1 hsc).1
    have hlen : 1 ≤ s.length := by
      cases s with
      | nil => exact absurd rfl hsne
      | cons _ _ => simp
    simp only [List.flatMap_cons, List.length_append, List.length_singleton] at hf
    obtain ⟨f, rfl⟩ : ∃ f, fuel = f + 2 := ⟨fuel - 2, by omega⟩
    have e : (s :: ss).flatMap (fun s => s ++ ['/']) =
        s ++ '/' :: ss.flatMap (fun s => s ++ ['/']) := by simp
    rw [e, cleanLoop_seg _ _ _ _ _ hsc]
    have e2 : (if (absPath done).length ≠ 1 then absPath done ++ ['/'] else absPath done) ++ s =
        absPath (done ++ [s]) := by
      rw [absPath_concat]
      by_cases h : done = []
      · subst h; simp [absPath]
      · simp [h, absPath_length_ne_one done hd h]
    rw [e2, ih (fun x hx => hs x (by simp [hx])) (done ++ [s]) f
      (by intro x hx; simp at hx; rcases hx with hx | rfl; exact hd x hx; exact hsc)
      (by omega)]
    simp

theorem absPath_ne_nil (segs : List Str) : absPath segs ≠ [] := by
  unfold absPath
  split
  · simp
  · rename_i h
    cases segs with
    | nil => exact absurd rfl h
    | cons a t => simp

theorem filepathClean_slash (segs : List Str) (hs : ∀ s ∈ segs, cleanSeg s = true) :
    filepathClean ('/' :: segs.flatMap (fun s => s ++ ['/'])) = absPath segs := by
  unfold filepathClean
  simp only [if_true]
  have h := cleanLoop_segs segs hs [] ('/' :: segs.flatMap (fun s => s ++ ['/'])).length
    (by simp) (by simp)
  rw [absPath_nil] at h
  rw [h]
  simp [absPath_ne_nil]

theorem absPath_slash (segs : List Str) :
    (if segs = [] then [] else absPath segs) ++ ['/'] =
      '/' :: segs.flatMap (fun s => s ++ ['/']) := by
  induction segs using List.reverseRecOn with
  | nil => simp
  | append_singleton t x ih =>
    rw [absPath_concat]
    simp only [List.append_eq_nil, List.cons_ne_self, and_false, if_false, List.append_assoc,
      List.cons_append]
    rw [show (if t = [] then [] else absPath t) ++ '/' :: (x ++ ['/'])
      = ((if t = [] then [] else absPath t) ++ ['/']) ++ (x ++ ['/']) by simp, ih]
    simp [List.flatMap_append]

/-- On a clean absolute path `filepath.Dir` drops the last segment. -/
theorem filepathDir_absPath (segs : List Str) (s : Str) (hs : ∀ x ∈ segs, cleanSeg x = true)
    (h : cleanSeg s = true) : filepathDir (absPath (segs ++ [s])) = absPath segs := by
  unfold filepathDir
  rw [absPath_concat, rdropWhile_seg _ _ ((cleanSeg_iff s).1 h).2.1, absPath_slash,
    filepathClean_slash segs hs]

theorem filepathDir_root : filepathDir ['/'] = ['/'] := by decide

/-! ## `directoryDiff` on a clean absolute path -/

theorem revPath_cons (s : Str) (rs : List Str) :
    revPath (s :: rs) = (if rs = [] then [] else revPath rs) ++ '/' :: s := by
  unfold revPath
  rw [List.reverse_cons, absPath_concat]
  simp

theorem revPath_ne_nil (rs : List Str) : revPath rs ≠ [] := absPath_ne_nil _

theorem revPath_ne_root (rs : List Str) (h : rs ≠ []) (hs : ∀ x ∈ rs, cleanSeg x = true) :
    revPath rs ≠ ['/'] := by
  intro e
  have := absPath_length_ne_one rs.reverse (by simpa using hs) (by simpa using h)
  unfold revPath at e
  rw [e] at this
  exact this rfl

theorem filepathDir_revPath (s : Str) (rs : List Str) (hs : ∀ x ∈ s :: rs, cleanSeg x = true) :
    filepathDir (revPath (s :: rs)) = revPath rs := by
  unfold revPath
  rw [List.reverse_cons]
  exact filepathDir_absPath _ _ (by intro x hx; exact hs x (by simp at hx; simp [hx]))
    (hs s (by simp))

theorem directoryDiffLoop_revPath (prev : Str) (rs : List Str)
    (hs : ∀ x ∈ rs, cleanSeg x = true) :
    ∀ (fuel : Nat) (acc : List Str), rs.length < fuel →
      directoryDiffLoop prev fuel (revPath rs) acc =
        some (acc ++ (upDirs rs).takeWhile (fun a => !stopAt prev a)) := by
  induction rs with
  | nil =>
    intro fuel acc hf
    obtain ⟨f, rfl⟩ : ∃ f, fuel = f + 1 := ⟨fuel - 1, by simp at hf; omega⟩
    simp [directoryDiffLoop, revPath, absPath_nil, filepathDir_root, upDirs]
  | cons s rs ih =>
    intro fuel acc hf
    obtain ⟨f, rfl⟩ : ∃ f, fuel = f + 1 := ⟨fuel - 1, by simp at hf; omega⟩
    have hrs : ∀ x ∈ rs, cleanSeg x = true := fun x hx => hs x (by simp [hx])
    unfold directoryDiffLoop
    simp only [filepathDir_revPath s rs hs]
    by_cases hnil : rs = []
    · subst hnil
      simp [revPath, absPath_nil, upDirs]
    · have hroot := revPath_ne_root rs hnil hrs
      by_cases hstop : stopAt prev (revPath rs) = true
      · have h' := hstop
        simp only [stopAt, decide_eq_true_eq] at h'
        simp [upDirs, hnil, hstop, h', hroot]
      · have h' := hstop
        simp only [stopAt, decide_eq_true_eq] at h'
        rw [if_neg (by simpa [hroot] using h'), ih hrs f _ (by simp at hf; omega)]
        simp [upDirs, hnil, hstop]

theorem length_le_flatMap (segs : List Str) :
    segs.length ≤ (segs.flatMap (fun s => '/' :: s)).length := by
  induction segs with
  | nil => simp
  | cons a t ih => simp only [List.flatMap_cons, List.length_append, List.length_cons]; omega

theorem length_le_absPath (segs : List Str) : segs.length ≤ (absPath segs).length := by
  unfold absPath
  split
  · rename_i h; subst h; simp
  · exact length_le_flatMap segs

theorem directoryDiff_revPath (prev : Str) (rs : List Str) (hprev : prev ≠ [])
    (hs : ∀ x ∈ rs, cleanSeg x = true) :
    directoryDiff prev (revPath rs) =
      some (((upDirs rs).takeWhile (fun a => !stopAt prev a)).reverse) := by
  unfold directoryDiff
  rw [if_neg (by simp [hprev, revPath_ne_nil])]
  rw [directoryDiffLoop_revPath prev rs hs _ []
    (by have := length_le_absPath rs.reverse; simp [revPath] at this ⊢; omega)]
  simp

/-! ## The ancestors of a clean absolute path, read off the string -/

theorem isAncestorOf_iff (a p : Str) :
    isAncestorOf a p = true ↔ a ≠ [] ∧ a ++ ['/'] <+: p := by
  simp [isAncestorOf, List.isPrefixOf_iff_prefix]

theorem filter_eq_self_inits (s : Str) : s.inits.filter (fun t => decide (t = s)) = [s] := by
  induction s with
  | nil => simp
  | cons c s ih =>
    rw [List.inits_cons, List.filter_cons]
    simp only [List.nil_eq, reduceCtorEq, decide_False, Bool.false_eq_true, if_false]
    rw [List.filter_map]
    have : ((fun t => decide (t = c :: s)) ∘ fun t => c :: t) = fun t => decide (t = s) := by
      funext t; simp
    rw [this, ih]
    rfl

theorem not_prefix_slash_of_seg (t s R : Str) (hs : '/' ∉ s) (ht : t <+: s) :
    t ++ ['/'] <+: s ++ R ↔ t = s ∧ ['/'] <+: R := by
  constructor
  · intro h
    by_cases hl : t.length < s.length
    · exfalso
      have h1 : t ++ ['/'] <+: s :=
        List.prefix_of_prefix_length_le h (List.prefix_append s R) (by simp; omega)
      obtain ⟨u, hu⟩ := h1
      exact hs (by rw [← hu]; simp)
    · have e : t = s := ht.eq_of_length (by have := ht.length_le; omega)
      subst e
      exact ⟨rfl, (List.prefix_append_right_inj t).1 h⟩
  · rintro ⟨rfl, h⟩
    exact (List.prefix_append_right_inj t).2 h

theorem filter_eq_and_inits (s : Str) (b : Bool) :
    s.inits.filter (fun t => decide (t = s) && b) = if b = true then [s] else [] := by
  cases b with
  | true => simpa using filter_eq_self_inits s
  | false => simp

/-- The prefixes of a clean path that are followed by a separator in the path
continued by `R`: its ancestors, and the path itself when `R` begins with a
separator. -/
theorem filter_inits_revPath (rs : List Str) (hs : ∀ x ∈ rs, cleanSeg x = true) (hne : rs ≠ []) :
    ∀ R : Str, (revPath rs).inits.filter (fun a => isAncestorOf a (revPath rs ++ R)) =
      (upDirs rs).reverse ++ (if ['/'] <+: R then [revPath rs] else []) := by
  induction rs with
  | nil => exact absurd rfl hne
  | cons s rs ih =>
    intro R
    have hsc := (cleanSeg_iff s).1 (hs s (by simp))
    have hrs : ∀ x ∈ rs, cleanSeg x = true := fun x hx => hs x (by simp [hx])
    generalize hX : (if rs = [] then [] else revPath rs) = X
    have e1 : revPath (s :: rs) = X ++ '/' :: s := by rw [revPath_cons, hX]
    rw [e1, List.inits_append, List.filter_append, List.inits_cons, List.tail_cons,
      List.map_map, List.filter_map]
    have h2 : s.inits.filter ((fun a => isAncestorOf a (X ++ '/' :: s ++ R)) ∘
        ((fun l => X ++ l) ∘ fun t => '/' :: t)) =
        s.inits.filter (fun t => decide (t = s) && decide (['/'] <+: R)) := by
      apply List.filter_congr
      intro t ht
      have ht' : t <+: s := (List.mem_inits t s).1 ht
      have := not_prefix_slash_of_seg t s R hsc.2.1 ht'
      rw [Bool.eq_iff_iff]
      simp only [Function.comp, isAncestorOf_iff, Bool.and_eq_true, decide_eq_true_eq]
      rw [← this]
      constructor
      · rintro ⟨_, h⟩
        have h' : X ++ ('/' :: (t ++ ['/'])) <+: X ++ ('/' :: (s ++ R)) := by
          simpa [List.append_assoc] using h
        exact (List.prefix_cons_inj '/').1 ((List.prefix_append_right_inj X).1 h')
      · intro h
        refine ⟨by simp, ?_⟩
        have h' : X ++ ('/' :: (t ++ ['/'])) <+: X ++ ('/' :: (s ++ R)) :=
          (List.prefix_append_right_inj X).2 ((List.prefix_cons_inj '/').2 h)
        simpa [List.append_assoc] using h'
    rw [h2, filter_eq_and_inits]
    have h1 : X.inits.filter (fun a => isAncestorOf a (X ++ '/' :: s ++ R)) =
        (upDirs (s :: rs)).reverse := by
      by_cases hnil : rs = []
      · subst hnil
        simp only [if_true] at hX
        subst hX
        simp [upDirs, isAncestorOf]
      · simp only [hnil, if_false] at hX
        subst hX
        have := ih hrs hnil ('/' :: s ++ R)
        simp only [List.append_assoc, List.cons_append] at this ⊢
        rw [this]
        simp [upDirs, hnil]
    rw [h1]
    by_cases hR : ['/'] <+: R <;> simp [hR]

theorem ancestorDirs_revPath (rs : List Str) (hs : ∀ x ∈ rs, cleanSeg x = true) :
    ancestorDirs (revPath rs) = (upDirs rs).reverse := by
  by_cases hne : rs = []
  · subst hne; decide
  · have := filter_inits_revPath rs hs hne []
    simpa [ancestorDirs] using this

theorem takeWhile_eq_filter_of_pairwise {α : Type} (p : α → Bool) (l : List α)
    (h : l.Pairwise (fun a b => p b = true → p a = true)) : l.takeWhile p = l.filter p := by
  induction l with
  | nil => rfl
  | cons a t ih =>
    rw [List.pairwise_cons] at h
    by_cases ha : p a = true
    · simp [List.takeWhile_cons, List.filter_cons, ha, ih h.2]
    · have : ∀ b ∈ t, p b ≠ true := fun b hb hpb => ha (h.1 b hb hpb)
      simp only [List.takeWhile_cons, List.filter_cons, ha, Bool.false_eq_true, if_false]
      symm
      rw [List.filter_eq_nil_iff]
      exact this

theorem mem_upDirs (rs : List Str) :
    ∀ b ∈ upDirs rs, b ≠ [] ∧ b ++ ['/'] <+: revPath rs := by
  induction rs with
  | nil => simp [upDirs]
  | cons s rs ih =>
    intro b hb
    by_cases hnil : rs = []
    · simp [upDirs, hnil] at hb
    · simp only [upDirs, hnil, if_false, List.mem_cons] at hb
      have e : revPath (s :: rs) = revPath rs ++ '/' :: s := by simp [revPath_cons, hnil]
      rcases hb with rfl | hb
      · refine ⟨revPath_ne_nil rs, ?_⟩
        rw [e]
        exact ⟨s, by simp⟩
      · refine ⟨(ih b hb).1, (ih b hb).2.trans ?_⟩
        rw [e]
        exact List.prefix_append _ _

theorem pairwise_upDirs (rs : List Str) :
    (upDirs rs).Pairwise (fun a b => b ++ ['/'] <+: a) := by
  induction rs with
  | nil => simp [upDirs]
  | cons s rs ih =>
    by_cases hnil : rs = []
    · simp [upDirs, hnil]
    · simp only [upDirs, hnil, if_false, List.pairwise_cons]
      exact ⟨fun b hb => (mem_upDirs rs b hb).2, ih⟩

theorem chain_upDirs (rs : List Str) (hs : ∀ x ∈ rs, cleanSeg x = true) :
    (upDirs rs).Chain' (fun a b => filepathDir a = b) := by
  induction rs with
  | nil => simp [upDirs]
  | cons s rs ih =>
    have hrs : ∀ x ∈ rs, cleanSeg x = true := fun x hx => hs x (by simp [hx])
    by_cases hnil : rs = []
    · simp [upDirs, hnil]
    · simp only [upDirs, hnil, if_false]
      rw [List.chain'_cons']
      refine ⟨?_, ih hrs⟩
      intro b hb
      cases rs with
      | nil => exact absurd rfl hnil
      | cons r rs' =>
        rw [filepathDir_revPath r rs' hrs]
        by_cases h2 : rs' = []
        · simp [upDirs, h2] at hb
        · simp [upDirs, h2] at hb
          exact hb

/-- The test that ends the loop, in the words of the specification: the parent
is `prev` or an ancestor of `prev`. -/
theorem stopAt_iff (prev a : Str) (ha : a ≠ []) :
    stopAt prev a = true ↔ (a = prev ∨ isAncestorOf a prev = true) := by
  simp only [stopAt, decide_eq_true_eq, hasPrefix_iff, isAncestorOf_iff]
  constructor
  · rintro (h | h)
    · exact Or.inl h
    · rcases List.prefix_concat_iff.1 h with h | h
      · exact Or.inl (List.append_cancel_right h)
      · exact Or.inr ⟨ha, h⟩
  · rintro (h | ⟨_, h⟩)
    · exact Or.inl h
    · exact Or.inr (h.trans (List.prefix_append _ _))

theorem stopAt_mono (prev a b : Str) (hb : b ≠ []) (hab : b ++ ['/'] <+: a)
    (h : stopAt prev a = true) : stopAt prev b = true := by
  have ha : a ≠ [] := by
    rintro rfl
    have := hab.length_le
    simp at this
  rw [stopAt_iff prev a ha] at h
  rw [stopAt_iff prev b hb, isAncestorOf_iff]
  rcases h with rfl | h
  · exact Or.inr ⟨hb, hab⟩
  · exact Or.inr ⟨hb, hab.trans ((List.prefix_append a ['/']).trans ((isAncestorOf_iff a prev).1 h).2)⟩

theorem directoryDiff_revPath_filter (prev : Str) (rs : List Str) (hprev : prev ≠ [])
    (hs : ∀ x ∈ rs, cleanSeg x = true) :
    directoryDiff prev (revPath rs) =
      some ((ancestorDirs (revPath rs)).filter
        (fun a => decide (a ≠ prev) && !isAncestorOf a prev)) := by
  rw [directoryDiff_revPath prev rs hprev hs, ancestorDirs_revPath rs hs, List.filter_reverse]
  congr 2
  rw [takeWhile_eq_filter_of_pairwise]
  · apply List.filter_congr
    intro a ha
    have hne := (mem_upDirs rs a ha).1
    have := stopAt_iff prev a hne
    rw [Bool.eq_iff_iff]
    simp only [Bool.not_eq_true', Bool.and_eq_true, decide_eq_true_eq, ne_eq]
    rw [← Bool.not_eq_true, this]
    simp [not_or]
  · refine (pairwise_upDirs rs).imp_of_mem ?_
    intro a b _ hb hab h
    by_contra hcon
    have h1 : stopAt prev a = true := by simpa using hcon
    have h2 := stopAt_mono prev a b (mem_upDirs rs b hb).1 hab h1
    simp [h2] at h

end S3Driver

namespace S3Driver

/-- On a clean absolute path `directoryDiff` returns the ancestors of the path
that are neither `prev` nor an ancestor of `prev`, outermost first. -/
theorem directoryDiff_ancestors (prev current : Str) (hprev : prev ≠ [])
    (hcur : isCleanAbs current = true) :
    ∃ dirs, directoryDiff prev current = some dirs ∧
      dirs = (ancestorDirs current).filter (fun a => decide (a ≠ prev) && !isAncestorOf a prev) ∧
      dirs.Chain' (fun a b => a = filepathDir b) := by
  obtain ⟨segs, hs, rfl⟩ := (isCleanAbs_iff_absPath current).1 hcur
  have hrs : ∀ x ∈ segs.reverse, cleanSeg x = true := by simpa using hs
  have e : absPath segs = revPath segs.reverse := by simp [revPath]
  rw [e]
  have h1 := directoryDiff_revPath prev _ hprev hrs
  have h2 := directoryDiff_revPath_filter prev _ hprev hrs
  refine ⟨_, h1, Option.some_inj.1 (h1.symm.trans h2), ?_⟩
  rw [List.chain'_reverse]
  have := List.Chain'.prefix (chain_upDirs segs.reverse hrs)
    (List.takeWhile_prefix (fun a => !stopAt prev a))
  exact this.imp (fun _ _ h => h.symm)

/-- C1: for a non-empty `prev` and a clean absolute path `current`,
`directoryDiff(prev, current)` returns exactly the proper ancestor directories of
`current` other than the root that are neither `prev` nor an ancestor of `prev`,
outermost first, and each element of the result is the parent (`filepath.Dir`)
of the next. -/
theorem directoryDiff_clean (prev current : Str) (hprev : prev ≠ [])
    (hcur : isCleanAbs current = true) :
    ∃ dirs, directoryDiff prev current = some dirs ∧
      dirs = (ancestorDirs current).filter (fun a => decide (a ≠ prev) && !isAncestorOf a prev) ∧
      dirs.Chain' (fun a b => a = filepathDir b) :=
  directoryDiff_ancestors prev current hprev hcur

theorem directoryDiff_clean_witness :
    ∃ dirs, directoryDiff "/a/x1".toList "/a/x2/y/file".toList = some dirs ∧
      dirs = (ancestorDirs "/a/x2/y/file".toList).filter
        (fun a => decide (a ≠ "/a/x1".toList) && !isAncestorOf a "/a/x1".toList) ∧
      dirs.Chain' (fun a b => a = filepathDir b) :=
  directoryDiff_clean "/a/x1".toList "/a/x2/y/file".toList (by decide) (by decide)

/-! ## Strings: order and prefixes -/

theorem strLt_asymm : ∀ a b : Str, strLt a b = true → strLt b a = false := by
  intro a
  induction a with
  | nil => intro b _; cases b <;> simp [strLt]
  | cons x a ih =>
    intro b h
    cases b with
    | nil => simp [strLt] at h
    | cons y b =>
      simp only [strLt, Bool.or_eq_true, decide_eq_true_eq, Bool.and_eq_true, beq_iff_eq] at h
      simp only [strLt, Bool.or_eq_false_iff, decide_eq_false_iff_not, Bool.and_eq_false_iff,
        beq_eq_false_iff_ne, ne_eq]
      rcases h with h | ⟨rfl, h⟩
      · exact ⟨not_lt.2 (le_of_lt h), Or.inl (ne_of_gt h)⟩
      · exact ⟨lt_irrefl _, Or.inr (ih b h)⟩

/-- A string that lies between two strings with a common prefix has that prefix. -/
theorem prefix_of_between : ∀ (D a b c : Str), strLt b a = false → strLt c b = false →
    D <+: a → D <+: c → D <+: b := by
  intro D
  induction D with
  | nil => intro a b c _ _ _ _; exact List.nil_prefix
  | cons x D ih =>
    intro a b c hab hbc ha hc
    obtain ⟨a', rfl⟩ : ∃ a', a = x :: a' := by
      obtain ⟨t, rfl⟩ := ha; exact ⟨D ++ t, rfl⟩
    obtain ⟨c', rfl⟩ : ∃ c', c = x :: c' := by
      obtain ⟨t, rfl⟩ := hc; exact ⟨D ++ t, rfl⟩
    cases b with
    | nil => simp [strLt] at hab
    | cons y b =>
      simp only [strLt, Bool.or_eq_false_iff, decide_eq_false_iff_not, Bool.and_eq_false_iff,
        beq_eq_false_iff_ne, ne_eq] at hab hbc
      have hxy : x = y := le_antisymm (not_lt.1 hab.1) (not_lt.1 hbc.1)
      subst hxy
      have h1 : strLt b a' = false := by rcases hab.2 with h | h; exact absurd rfl h; exact h
      have h2 : strLt c' b = false := by rcases hbc.2 with h | h; exact absurd rfl h; exact h
      exact (List.prefix_cons_inj x).2
        (ih a' b c' h1 h2 ((List.prefix_cons_inj x).1 ha) ((List.prefix_cons_inj x).1 hc))

/-- Two directories with the same path in their subtrees are equal or one is an
ancestor of the other. -/
theorem ancestors_comparable (A B k : Str) (hA : A ++ ['/'] <+: k) (hB : B ++ ['/'] <+: k) :
    A = B ∨ A ++ ['/'] <+: B ∨ B ++ ['/'] <+: A := by
  have hA' : A <+: k := (List.prefix_append A ['/']).trans hA
  have hB' : B <+: k := (List.prefix_append B ['/']).trans hB
  rcases Nat.lt_trichotomy A.length B.length with h | h | h
  · exact Or.inr (Or.inl (List.prefix_of_prefix_length_le hA hB' (by simp; omega)))
  · exact Or.inl ((List.prefix_of_prefix_length_le hA' hB' (le_of_eq h)).eq_of_length h)
  · exact Or.inr (Or.inr (List.prefix_of_prefix_length_le hB hA' (by simp; omega)))

/-- A prefix of a path and a directory with the path in its subtree: the prefix
reaches the directory, or the directory is an ancestor of the prefix. -/
theorem prefix_or_ancestor (A D k : Str) (hA : A ++ ['/'] <+: k) (hD : D <+: k) :
    D <+: A ∨ A ++ ['/'] <+: D := by
  have hA' : A <+: k := (List.prefix_append A ['/']).trans hA
  by_cases h : D.length ≤ A.length
  · exact Or.inl (List.prefix_of_prefix_length_le hD hA' h)
  · exact Or.inr (List.prefix_of_prefix_length_le hA hD (by simp; omega))

theorem not_slash_prefix_self (A : Str) : ¬ A ++ ['/'] <+: A := by
  intro h
  have := h.length_le
  simp at this

theorem isAncestorOf_trans (A B C : Str) (h1 : isAncestorOf A B = true)
    (h2 : isAncestorOf B C = true) : isAncestorOf A C = true := by
  rw [isAncestorOf_iff] at *
  exact ⟨h1.1, h1.2.trans ((List.prefix_append B ['/']).trans h2.2)⟩

/-! ## Path translation -/

theorem hasPrefix_eq_false_iff (s pre : Str) : hasPrefix s pre = false ↔ ¬ pre <+: s := by
  rw [← hasPrefix_iff, Bool.not_eq_true]

theorem splitSlash_key (F : Str) (hno : '/' ∉ F.take 2) :
    splitSlash ('/' :: (F.take 2 ++ '/' :: F)) = [] :: F.take 2 :: splitSlash F := by
  unfold splitSlash
  rw [List.splitOn, List.splitOnP_cons]
  simp only [beq_self_eq_true, if_true]
  have h2 : List.splitOnP (fun x => x == '/') (F.take 2 ++ '/' :: F) =
      F.take 2 :: List.splitOnP (fun x => x == '/') F := by
    apply List.splitOnP_first
    · intro x hx
      simp only [beq_iff_eq]
      rintro rfl
      exact hno hx
    · simp
  rw [h2]
  rfl

/-- A path under the managed prefix whose stripped suffix is mapped to a fragment
of at least two bytes is translated to the sharded key of the fragment. -/
theorem ConvertPath_fragment (d : Driver) (p F : Str)
    (hp : hasPrefix p managedPrefix = true)
    (hF : d.ArtifactoryMetadata.lookup (trimPrefix p trimmedPrefix) = some F)
    (hlen : 2 ≤ F.length) :
    d.ConvertPath p = .returned ('/' :: (F.take 2 ++ '/' :: F), none) := by
  simp [Driver.ConvertPath, hp, mapIndex, hF, sha1path, hlen]

/-- C5: on a path under the managed prefix whose stripped suffix is not a key of
the metadata map, `ConvertPath` does not return a `PathNotFoundError`: the map
yields the empty string and the slice `s[0:2]` in `sha1path` panics. -/
theorem ConvertPath_missing_key_panics (d : Driver) (p : Str)
    (hp : hasPrefix p managedPrefix = true)
    (hmiss : d.ArtifactoryMetadata.lookup (trimPrefix p trimmedPrefix) = none) :
    d.ConvertPath p = .panicked := by
  simp [Driver.ConvertPath, hp, mapIndex, hmiss, sha1path]

theorem ConvertPath_missing_key_panics_witness :
    (exampleDriver []).ConvertPath "/docker/registry/v2/repositories/app/_layers".toList
      = .panicked :=
  ConvertPath_missing_key_panics (exampleDriver [])
    "/docker/registry/v2/repositories/app/_layers".toList (by decide) (by decide)

/-- C6: a path that does not begin with `/docker/registry` is returned as it is,
with no error, whatever the metadata map. -/
theorem ConvertPath_outside_prefix (d : Driver) (p : Str)
    (hp : hasPrefix p managedPrefix = false) :
    d.ConvertPath p = .returned (p, none) := by
  simp [Driver.ConvertPath, hp]

theorem ConvertPath_outside_prefix_witness :
    (exampleDriver [("/x".toList, "ab".toList)]).ConvertPath "/metadata/index.json".toList
      = .returned ("/metadata/index.json".toList, none) :=
  ConvertPath_outside_prefix _ _ (by decide)

/-- C7, as the claim states it, fails: a path under the managed prefix is present
in the metadata map with the one-byte fragment `a`, and `ConvertPath` panics
instead of returning a key. -/
theorem ConvertPath_short_fragment_panics :
    hasPrefix "/docker/registry/v2/x".toList managedPrefix = true ∧
    (exampleDriver [("/x".toList, "a".toList)]).ArtifactoryMetadata.lookup
      (trimPrefix "/docker/registry/v2/x".toList trimmedPrefix) = some "a".toList ∧
    (exampleDriver [("/x".toList, "a".toList)]).ConvertPath "/docker/registry/v2/x".toList
      = .panicked := by
  decide

/-- C7, amended: for a path under the managed prefix whose stripped suffix is
mapped to a fragment `F` of at least two bytes, `ConvertPath` returns
`/` + `F[0:2]` + `/` + `F` and no error; and when `F[0:2]` holds no separator, that
key splits at `/` into an empty segment, the segment `F[0:2]`, and the segments
of `F`. -/
theorem ConvertPath_mapped (d : Driver) (p F : Str)
    (hp : hasPrefix p managedPrefix = true)
    (hF : d.ArtifactoryMetadata.lookup (trimPrefix p trimmedPrefix) = some F)
    (hlen : 2 ≤ F.length) :
    d.ConvertPath p = .returned ('/' :: (F.take 2 ++ '/' :: F), none) ∧
    ('/' ∉ F.take 2 →
      splitSlash ('/' :: (F.take 2 ++ '/' :: F)) = [] :: F.take 2 :: splitSlash F) := by
  exact ⟨ConvertPath_fragment d p F hp hF hlen, fun hno => splitSlash_key F hno⟩

theorem ConvertPath_mapped_witness :
    (exampleDriver [("/repositories/app/_layers/x".toList, "3f9ac0".toList)]).ConvertPath
        "/docker/registry/v2/repositories/app/_layers/x".toList
      = .returned ('/' :: ("3f9ac0".toList.take 2 ++ '/' :: "3f9ac0".toList), none) ∧
    ('/' ∉ "3f9ac0".toList.take 2 →
      splitSlash ('/' :: ("3f9ac0".toList.take 2 ++ '/' :: "3f9ac0".toList))
        = [] :: "3f9ac0".toList.take 2 :: splitSlash "3f9ac0".toList) :=
  ConvertPath_mapped _ _ _ (by decide) (by decide) (by decide)

/-- C8: for a path under the managed prefix that ends in the component `link` and
whose stripped suffix is mapped to a fragment `F` of at least two bytes without a
separator, `GetContent` returns the bytes of `sha256:` followed by `F` and no
error, and issues no request against the store. -/
theorem GetContent_link (d : Driver) (p F : Str)
    (hp : hasPrefix p managedPrefix = true)
    (hlink : hasSuffix p "/link".toList = true)
    (hF : d.ArtifactoryMetadata.lookup (trimPrefix p trimmedPrefix) = some F)
    (hlen : 2 ≤ F.length) (hno : '/' ∉ F) :
    d.GetContent p = ([], .returned (.ok ("sha256:".toList ++ F))) := by
  have h1 := ConvertPath_fragment d p F hp hF hlen
  have hno2 : '/' ∉ F.take 2 := fun h => hno (List.mem_of_mem_take h)
  have h2 := splitSlash_key F hno2
  have h3 : splitSlash F = [F] := by
    unfold splitSlash
    have := List.splitOn_intercalate [F] '/' (by simpa using hno) (by simp)
    simpa [List.intercalate] using this
  have h4 : hasSuffix p "link".toList = true := by
    unfold hasSuffix at hlink ⊢
    rw [List.isSuffixOf_iff_suffix] at hlink ⊢
    exact (show "link".toList <:+ "/link".toList from ⟨['/'], rfl⟩).trans hlink
  unfold Driver.GetContent
  rw [h1]
  simp only [h4, if_true, h2, h3]
  rfl

theorem GetContent_link_witness :
    (exampleDriver [("/repositories/app/_manifests/tags/v1/current/link".toList,
        "3f9ac0".toList)]).GetContent
        "/docker/registry/v2/repositories/app/_manifests/tags/v1/current/link".toList
      = ([], .returned (.ok ("sha256:".toList ++ "3f9ac0".toList))) :=
  GetContent_link _ _ _ (by decide) (by decide) (by decide) (by decide) (by decide)

/-! ## The visitor's control signals -/

theorem visit_nil {σ : Type} (f : WalkFn σ) (st : WalkState σ) :
    visitWalkInfos f st [] = (st, true) := rfl

theorem visit_cons_skipped {σ : Type} (f : WalkFn σ) (st : WalkState σ) (e : FileInfo)
    (L : List FileInfo) (h : st.prevSkipDir ≠ [] ∧ hasPrefix e.Path st.prevSkipDir = true) :
    visitWalkInfos f st (e :: L) = visitWalkInfos f st L := by
  rw [visitWalkInfos, if_pos h]

theorem visit_cons_nil {σ : Type} (f : WalkFn σ) (st : WalkState σ) (e : FileInfo)
    (L : List FileInfo) (h : ¬ (st.prevSkipDir ≠ [] ∧ hasPrefix e.Path st.prevSkipDir = true))
    (hr : (f st.visitor e).2 = none) :
    visitWalkInfos f st (e :: L) = visitWalkInfos f (st.called f e) L := by
  rw [visitWalkInfos, if_neg h]
  simp [hr, WalkState.called]

theorem visit_cons_skipDir {σ : Type} (f : WalkFn σ) (st : WalkState σ) (e : FileInfo)
    (L : List FileInfo) (h : ¬ (st.prevSkipDir ≠ [] ∧ hasPrefix e.Path st.prevSkipDir = true))
    (hr : (f st.visitor e).2 = some .ErrSkipDir) :
    visitWalkInfos f st (e :: L) = visitWalkInfos f ((st.called f e).skipping e.Path) L := by
  rw [visitWalkInfos, if_neg h]
  simp [hr, WalkState.called, WalkState.skipping]

theorem visit_cons_stop {σ : Type} (f : WalkFn σ) (st : WalkState σ) (e : FileInfo)
    (L : List FileInfo) (h : ¬ (st.prevSkipDir ≠ [] ∧ hasPrefix e.Path st.prevSkipDir = true))
    (hr : (f st.visitor e).2 = some .ErrFilledBuffer) :
    visitWalkInfos f st (e :: L) = (st.called f e, false) := by
  rw [visitWalkInfos, if_neg h]
  simp [hr, WalkState.called]

theorem visit_cons_fail {σ : Type} (f : WalkFn σ) (st : WalkState σ) (e : FileInfo)
    (L : List FileInfo) (h : ¬ (st.prevSkipDir ≠ [] ∧ hasPrefix e.Path st.prevSkipDir = true))
    (err : GoError) (hr : (f st.visitor e).2 = some err) (h1 : err ≠ .ErrSkipDir)
    (h2 : err ≠ .ErrFilledBuffer) :
    visitWalkInfos f st (e :: L) = ((st.called f e).failed err, false) := by
  rw [visitWalkInfos, if_neg h]
  simp [hr, h1, h2, WalkState.called, WalkState.failed]

/-- What the second loop of the page callback does to the trace and to
`retError`: it goes through the page (`true`) after answers that all let it go
on, or it returns `false` right after the first answer that does not. -/
theorem visitWalkInfos_spec {σ : Type} (f : WalkFn σ) :
    ∀ (L : List FileInfo) (st : WalkState σ),
      ∃ new, (visitWalkInfos f st L).1.calls = st.calls ++ new ∧
        (((visitWalkInfos f st L).2 = true ∧ (∀ c ∈ new, goesOn c) ∧
            (visitWalkInfos f st L).1.retError = st.retError) ∨
         ((visitWalkInfos f st L).2 = false ∧ ∃ init last, new = init ++ [last] ∧
            (∀ c ∈ init, goesOn c) ∧ ¬ goesOn last ∧
            (last.2 = some .ErrFilledBuffer → (visitWalkInfos f st L).1.retError = st.retError) ∧
            (last.2 ≠ some .ErrFilledBuffer → (visitWalkInfos f st L).1.retError = last.2))) := by
  intro L
  induction L with
  | nil => intro st; exact ⟨[], by simp [visitWalkInfos]⟩
  | cons e L ih =>
    intro st
    by_cases hsk : st.prevSkipDir ≠ [] ∧ hasPrefix e.Path st.prevSkipDir = true
    · rw [visit_cons_skipped f st e L hsk]
      exact ih st
    · have step : ∀ st' : WalkState σ, st'.calls = st.calls ++ [(e, (f st.visitor e).2)] →
          st'.retError = st.retError → goesOn (e, (f st.visitor e).2) →
          ∃ new, (visitWalkInfos f st' L).1.calls = st.calls ++ new ∧
          (((visitWalkInfos f st' L).2 = true ∧ (∀ c ∈ new, goesOn c) ∧
              (visitWalkInfos f st' L).1.retError = st.retError) ∨
           ((visitWalkInfos f st' L).2 = false ∧ ∃ init last, new = init ++ [last] ∧
              (∀ c ∈ init, goesOn c) ∧ ¬ goesOn last ∧
              (last.2 = some .ErrFilledBuffer →
                (visitWalkInfos f st' L).1.retError = st.retError) ∧
              (last.2 ≠ some .ErrFilledBuffer →
                (visitWalkInfos f st' L).1.retError = last.2))) := by
        intro st' hc hre hgo
        obtain ⟨new, h1, h2⟩ := ih st'
        refine ⟨(e, (f st.visitor e).2) :: new, by rw [h1, hc]; simp, ?_⟩
        rw [hre] at h2
        rcases h2 with ⟨ha, hb, hc⟩ | ⟨ha, init, last, hn, hi, hl, h3, h4⟩
        · left
          refine ⟨ha, ?_, hc⟩
          intro c hc'
          rcases List.mem_cons.1 hc' with rfl | h
          · exact hgo
          · exact hb c h
        · right
          refine ⟨ha, (e, (f st.visitor e).2) :: init, last, by simp [hn], ?_, hl, h3, h4⟩
          intro c hc'
          rcases List.mem_cons.1 hc' with rfl | h
          · exact hgo
          · exact hi c h
      cases hr : (f st.visitor e).2 with
      | none =>
        rw [visit_cons_nil f st e L hsk hr]
        exact step (st.called f e) rfl rfl (Or.inl hr)
      | some err =>
        by_cases hskip : err = .ErrSkipDir
        · subst hskip
          rw [visit_cons_skipDir f st e L hsk hr]
          exact step ((st.called f e).skipping e.Path) rfl rfl (Or.inr hr)
        · by_cases hstop : err = .ErrFilledBuffer
          · subst hstop
            rw [visit_cons_stop f st e L hsk hr]
            refine ⟨[(e, some .ErrFilledBuffer)], by simp [WalkState.called, hr],
              Or.inr ⟨rfl, [], _, rfl, by simp, ?_, ?_, ?_⟩⟩
            · rintro (h | h) <;> simp at h
            · intro _; rfl
            · intro h; exact absurd rfl h
          · rw [visit_cons_fail f st e L hsk err hr hskip hstop]
            refine ⟨[(e, some err)], by simp [WalkState.called, WalkState.failed, hr],
              Or.inr ⟨rfl, [], _, rfl, by simp, ?_, ?_, ?_⟩⟩
            · rintro (h | h)
              · simp at h
              · exact hskip (by simpa using h)
            · intro h; exact absurd (by simpa using h) hstop
            · intro _; rfl

theorem walkPage_eq {σ : Type} (d : Driver) (f : WalkFn σ) (st : WalkState σ)
    (objects : List S3Object) :
    walkPage d f st objects =
      (pageWalkInfos d st.prevDir objects []).map
        (fun r => visitWalkInfos f (st.withPrevDir r.2) r.1) := by
  unfold walkPage
  cases pageWalkInfos d st.prevDir objects [] with
  | none => rfl
  | some r => rfl

/-- What the pager does to the trace, to `retError` and to the request count. -/
theorem listPages_spec {σ : Type} (d : Driver) (f : WalkFn σ) (storeErr : Option GoError) :
    ∀ (pages : List (List S3Object)) (st : WalkState σ) (n : Nat),
      ∃ new, (listPages d f storeErr st pages n).1.calls = st.calls ++ new ∧
        (((∀ c ∈ new, goesOn c) ∧ (listPages d f storeErr st pages n).1.retError = st.retError) ∨
         (∃ init last, new = init ++ [last] ∧ (∀ c ∈ init, goesOn c) ∧ ¬ goesOn last ∧
            (listPages d f storeErr st pages n).2.2 = some none ∧
            (last.2 = some .ErrFilledBuffer →
              (listPages d f storeErr st pages n).1.retError = st.retError) ∧
            (last.2 ≠ some .ErrFilledBuffer →
              (listPages d f storeErr st pages n).1.retError = last.2) ∧
            ∃ before page after, pages = before ++ page :: after ∧
              (listPages d f storeErr st pages n).2.1 = n + before.length + 1 ∧
              ∃ new0, (listPages d f none st before n).1.calls = st.calls ++ new0 ∧
                new0 <+: init)) := by
  intro pages
  induction pages with
  | nil =>
    intro st n
    exact ⟨[], by simp [listPages], Or.inl ⟨by simp, by simp [listPages]⟩⟩
  | cons page more ih =>
    intro st n
    cases hw : walkPage d f st page with
    | none =>
      refine ⟨[], by simp [listPages, hw], Or.inl ⟨by simp, by simp [listPages, hw]⟩⟩
    | some r =>
      obtain ⟨st', b⟩ := r
      rw [walkPage_eq] at hw
      obtain ⟨w, _, hv⟩ := Option.map_eq_some'.1 hw
      obtain ⟨new1, hc1, hs1⟩ := visitWalkInfos_spec f w.1 (st.withPrevDir w.2)
      rw [hv] at hc1 hs1
      simp only [WalkState.withPrevDir] at hc1 hs1
      rw [← walkPage_eq] at hw
      cases b with
      | true =>
        have hl : ∀ se rest,
            listPages d f se st (page :: rest) n = listPages d f se st' rest (n + 1) := by
          intro se rest; simp [listPages, hw]
        rcases hs1 with ⟨_, hgo1, hre1⟩ | ⟨hf, _⟩
        · obtain ⟨new2, hc2, hs2⟩ := ih st' (n + 1)
          rw [hl]
          refine ⟨new1 ++ new2, by rw [hc2, hc1, List.append_assoc], ?_⟩
          rcases hs2 with ⟨hgo2, hre2⟩ | ⟨init, last, hn, hi, hlast, hres, h3, h4, before, pg, after,
            hp, hreq, new0, hc0, hpre⟩
          · left
            refine ⟨?_, by rw [hre2, hre1]⟩
            intro c hc
            rcases List.mem_append.1 hc with h | h
            · exact hgo1 c h
            · exact hgo2 c h
          · right
            refine ⟨new1 ++ init, last, by rw [hn, List.append_assoc], ?_, hlast, hres,
              fun h => by rw [h3 h, hre1], h4, page :: before, pg, after, by rw [hp]; rfl,
              by rw [hreq]; simp; omega, new1 ++ new0, ?_, ?_⟩
            · intro c hc
              rcases List.mem_append.1 hc with h | h
              · exact hgo1 c h
              · exact hi c h
            · rw [hl, hc0, hc1, List.append_assoc]
            · exact (List.prefix_append_right_inj new1).2 hpre
        · simp at hf
      | false =>
        have hl : listPages d f storeErr st (page :: more) n = (st', n + 1, some none) := by
          simp [listPages, hw]
        rw [hl]
        refine ⟨new1, hc1, ?_⟩
        rcases hs1 with ⟨hf, _⟩ | ⟨_, init, last, hn, hi, hlast, h3, h4⟩
        · simp at hf
        · right
          exact ⟨init, last, hn, hi, hlast, rfl, h3, h4, [], page, more, rfl, by simp, [],
            by simp [listPages], List.nil_prefix⟩

theorem doWalk_eq {σ : Type} (d : Driver) (pages : List (List S3Object))
    (storeErr : Option GoError) (frm : Str) (f : WalkFn σ) (v : σ) :
    d.doWalk pages storeErr frm f v =
      match listPages d f storeErr (initState frm v) pages 0 with
      | (st, n, none) => ⟨st.calls, st.visitor, n, none⟩
      | (st, n, some listObjectErr) =>
        if st.retError.isSome then ⟨st.calls, st.visitor, n, some st.retError⟩
        else if listObjectErr.isSome then ⟨st.calls, st.visitor, n, some listObjectErr⟩
        else ⟨st.calls, st.visitor, n, some none⟩ := rfl

theorem doWalk_calls {σ : Type} (d : Driver) (pages : List (List S3Object))
    (storeErr : Option GoError) (frm : Str) (f : WalkFn σ) (v : σ) :
    (d.doWalk pages storeErr frm f v).calls =
      (listPages d f storeErr (initState frm v) pages 0).1.calls := by
  rw [doWalk_eq]
  obtain ⟨st, n, le⟩ := listPages d f storeErr (initState frm v) pages 0
  cases le with
  | none => rfl
  | some e => simp only; split <;> [rfl; (split <;> rfl)]

theorem doWalk_requests {σ : Type} (d : Driver) (pages : List (List S3Object))
    (storeErr : Option GoError) (frm : Str) (f : WalkFn σ) (v : σ) :
    (d.doWalk pages storeErr frm f v).requests =
      (listPages d f storeErr (initState frm v) pages 0).2.1 := by
  rw [doWalk_eq]
  obtain ⟨st, n, le⟩ := listPages d f storeErr (initState frm v) pages 0
  cases le with
  | none => rfl
  | some e => simp only; split <;> [rfl; (split <;> rfl)]

theorem doWalk_result {σ : Type} (d : Driver) (pages : List (List S3Object))
    (storeErr : Option GoError) (frm : Str) (f : WalkFn σ) (v : σ) (err : Option GoError)
    (h : (listPages d f storeErr (initState frm v) pages 0).2.2 = some err) :
    (d.doWalk pages storeErr frm f v).result =
      some (if (listPages d f storeErr (initState frm v) pages 0).1.retError.isSome then
        (listPages d f storeErr (initState frm v) pages 0).1.retError else err) := by
  rw [doWalk_eq]
  generalize listPages d f storeErr (initState frm v) pages 0 = x at h ⊢
  obtain ⟨st, n, le⟩ := x
  change le = some err at h
  subst h
  by_cases h1 : st.retError.isSome = true
  · simp [h1]
  · by_cases h2 : err.isSome = true
    · simp [h1, h2]
    · simp only [h1, h2, if_false, Bool.false_eq_true]
      simp at h2
      simp [h2]

theorem last_of_split {α : Type} (P : α → Prop) (A B init : List α) (c last : α)
    (h : A ++ c :: B = init ++ [last]) (hi : ∀ x ∈ init, P x) (hc : ¬ P c) :
    B = [] ∧ A = init ∧ c = last := by
  by_cases hB : B = []
  · subst hB
    have := List.append_inj' h rfl
    exact ⟨rfl, this.1, by simpa using this.2⟩
  · exfalso
    obtain ⟨B', b, rfl⟩ : ∃ B' b, B = B' ++ [b] :=
      ⟨B.dropLast, B.getLast hB, (List.dropLast_append_getLast hB).symm⟩
    have e : A ++ c :: (B' ++ [b]) = (A ++ c :: B') ++ [b] := by simp
    rw [e] at h
    have := (List.append_inj' h rfl).1
    exact hc (hi c (by rw [← this]; simp))

/-- C9: when the visitor answers `ErrFilledBuffer` on an entry, that call is the
last one the walk makes, the walk returns `nil`, and the page during which the
answer was given is the last page requested: the pages before it were walked to
their end with calls that all precede the answer, and the number of list
requests is their number plus one. -/
theorem Walk_stop {σ : Type} (d : Driver) (pages : List (List S3Object))
    (storeErr : Option GoError) (frm : Str) (f : WalkFn σ) (v : σ)
    (A B : List (FileInfo × Option GoError)) (e : FileInfo)
    (h : (d.Walk pages storeErr frm f v).calls = A ++ (e, some .ErrFilledBuffer) :: B) :
    B = [] ∧ (d.Walk pages storeErr frm f v).result = some none ∧
    ∃ before page after, pages = before ++ page :: after ∧
      (d.Walk pages storeErr frm f v).requests = before.length + 1 ∧
      (d.Walk before none frm f v).calls <+: A := by
  unfold Driver.Walk at h ⊢
  rw [doWalk_calls] at h
  obtain ⟨new, hc, hs⟩ := listPages_spec d f storeErr pages (initState frm v) 0
  have hnew : new = A ++ (e, some .ErrFilledBuffer) :: B := by
    rw [h] at hc; simpa [initState] using hc.symm
  have hngo : ¬ goesOn (e, some GoError.ErrFilledBuffer) := by
    rintro (h | h) <;> simp at h
  rcases hs with ⟨hgo, _⟩ | ⟨init, last, hn, hi, hlast, hres, h3, _, before, page, after, hp,
    hreq, new0, hc0, hpre⟩
  · exact absurd (hgo _ (by rw [hnew]; simp)) hngo
  · obtain ⟨hB, hA, hl⟩ := last_of_split goesOn A B init _ last (hnew.symm.trans hn) hi hngo
    refine ⟨hB, ?_, before, page, after, hp, ?_, ?_⟩
    · rw [doWalk_result d pages storeErr frm f v none hres, h3 (by rw [← hl])]
      simp [initState]
    · rw [doWalk_requests, hreq]; omega
    · rw [doWalk_calls, hc0, hA]
      simpa [initState] using hpre

theorem Walk_stop_witness :
    ([] : List (FileInfo × Option GoError)) = [] ∧
    ((exampleDriver []).Walk
      [[⟨"a/b/x".toList, 3, 7⟩, ⟨"a/c/y".toList, 4, 8⟩], [⟨"a/d/z".toList, 5, 9⟩]]
      (some (.errorString "down".toList)) "/".toList
      (scriptedVisitor [] ["/a/b".toList] []) ()).result = some none ∧
    ∃ before page after,
      [[⟨"a/b/x".toList, 3, 7⟩, ⟨"a/c/y".toList, 4, 8⟩], [⟨"a/d/z".toList, 5, 9⟩]]
        = before ++ page :: after ∧
      ((exampleDriver []).Walk
        [[⟨"a/b/x".toList, 3, 7⟩, ⟨"a/c/y".toList, 4, 8⟩], [⟨"a/d/z".toList, 5, 9⟩]]
        (some (.errorString "down".toList)) "/".toList
        (scriptedVisitor [] ["/a/b".toList] []) ()).requests = before.length + 1 ∧
      ((exampleDriver []).Walk before none "/".toList
        (scriptedVisitor [] ["/a/b".toList] []) ()).calls <+: [(dirInfo "/a".toList, none)] :=
  Walk_stop (exampleDriver [])
    [[⟨"a/b/x".toList, 3, 7⟩, ⟨"a/c/y".toList, 4, 8⟩], [⟨"a/d/z".toList, 5, 9⟩]]
    (some (.errorString "down".toList)) "/".toList (scriptedVisitor [] ["/a/b".toList] []) ()
    [(dirInfo "/a".toList, none)] [] (dirInfo "/a/b".toList) (by decide)

/-- C10: when the visitor answers an error other than `ErrSkipDir` and
`ErrFilledBuffer` on an entry, that call is the last one the walk makes and the
walk returns that very error. -/
theorem Walk_fail {σ : Type} (d : Driver) (pages : List (List S3Object))
    (storeErr : Option GoError) (frm : Str) (f : WalkFn σ) (v : σ)
    (A B : List (FileInfo × Option GoError)) (e : FileInfo) (err : GoError)
    (hskip : err ≠ .ErrSkipDir) (hstop : err ≠ .ErrFilledBuffer)
    (h : (d.Walk pages storeErr frm f v).calls = A ++ (e, some err) :: B) :
    B = [] ∧ (d.Walk pages storeErr frm f v).result = some (some err) := by
  unfold Driver.Walk at h ⊢
  rw [doWalk_calls] at h
  obtain ⟨new, hc, hs⟩ := listPages_spec d f storeErr pages (initState frm v) 0
  have hnew : new = A ++ (e, some err) :: B := by
    rw [h] at hc; simpa [initState] using hc.symm
  have hngo : ¬ goesOn (e, some err) := by
    rintro (h | h)
    · simp at h
    · exact hskip (by simpa using h)
  rcases hs with ⟨hgo, _⟩ | ⟨init, last, hn, hi, hlast, hres, _, h4, _⟩
  · exact absurd (hgo _ (by rw [hnew]; simp)) hngo
  · obtain ⟨hB, _, hl⟩ := last_of_split goesOn A B init _ last (hnew.symm.trans hn) hi hngo
    refine ⟨hB, ?_⟩
    rw [doWalk_result d pages storeErr frm f v none hres,
      h4 (by rw [← hl]; simpa using hstop), ← hl]
    simp

theorem Walk_fail_witness :
    ([] : List (FileInfo × Option GoError)) = [] ∧
    ((exampleDriver []).Walk
      [[⟨"a/b/x".toList, 3, 7⟩], [⟨"a/d/z".toList, 5, 9⟩]] none "/".toList
      (scriptedVisitor [] [] ["/a/b/x".toList]) ()).result
        = some (some (.errorString "boom".toList)) :=
  Walk_fail (exampleDriver []) [[⟨"a/b/x".toList, 3, 7⟩], [⟨"a/d/z".toList, 5, 9⟩]] none
    "/".toList (scriptedVisitor [] [] ["/a/b/x".toList]) ()
    [(dirInfo "/a".toList, none), (dirInfo "/a/b".toList, none)] []
    (fileInfo "/a/b/x".toList ⟨"a/b/x".toList, 3, 7⟩) (.errorString "boom".toList)
    (by decide) (by decide) (by decide)

/-! ## The directories inferred for one listed path -/

theorem pairwise_inits_length (k : Str) :
    k.inits.Pairwise (fun a b => a.length < b.length) := by
  induction k with
  | nil => simp
  | cons c k ih =>
    rw [List.inits_cons, List.pairwise_cons]
    refine ⟨?_, ?_⟩
    · intro b hb
      obtain ⟨t, _, rfl⟩ := List.mem_map.1 hb
      simp
    · rw [List.pairwise_map]
      exact ih.imp (by intro a b h; simpa using h)

theorem mem_ancestorDirs (D k : Str) : D ∈ ancestorDirs k ↔ isAncestorOf D k = true := by
  unfold ancestorDirs
  rw [List.mem_filter, List.mem_inits]
  constructor
  · exact fun h => h.2
  · intro h
    exact ⟨(List.prefix_append D ['/']).trans ((isAncestorOf_iff D k).1 h).2, h⟩

theorem pairwise_ancestorDirs (k : Str) :
    (ancestorDirs k).Pairwise (fun a b => a ++ ['/'] <+: b) := by
  unfold ancestorDirs
  have h := (pairwise_inits_length k).filter (fun a => isAncestorOf a k)
  refine h.imp_of_mem ?_
  intro a b ha hb hlt
  have ha' := (List.mem_filter.1 ha).2
  have hb' := (List.mem_filter.1 hb).2
  rw [isAncestorOf_iff] at ha' hb'
  exact List.prefix_of_prefix_length_le ha'.2 ((List.prefix_append b ['/']).trans hb'.2)
    (by simp; omega)

theorem dirsOf_nil_prev (k : Str) : dirsOf [] k = [] := by
  simp [dirsOf, directoryDiff]

theorem dirsOf_clean (p k : Str) (hp : p ≠ []) (hk : isCleanAbs k = true) :
    directoryDiff p k = some (dirsOf p k) ∧
    dirsOf p k = (ancestorDirs k).filter (fun a => decide (a ≠ p) && !isAncestorOf a p) := by
  obtain ⟨dirs, h1, h2, _⟩ := directoryDiff_ancestors p k hp hk
  have : dirsOf p k = dirs := by simp [dirsOf, h1]
  rw [this]
  exact ⟨h1, h2⟩

/-- On a clean path `directoryDiff` returns, whatever `prev` is. -/
theorem directoryDiff_total (p k : Str) (hk : isCleanAbs k = true) :
    directoryDiff p k = some (dirsOf p k) := by
  by_cases hp : p = []
  · subst hp; simp [dirsOf, directoryDiff]
  · exact (dirsOf_clean p k hp hk).1

theorem mem_dirsOf (p k D : Str) (hk : isCleanAbs k = true) (h : D ∈ dirsOf p k) :
    isAncestorOf D k = true ∧ D ≠ p ∧ isAncestorOf D p = false := by
  by_cases hp : p = []
  · subst hp; simp [dirsOf_nil_prev] at h
  · rw [(dirsOf_clean p k hp hk).2, List.mem_filter, mem_ancestorDirs] at h
    simpa using h

theorem mem_dirsOf_of (p k D : Str) (hp : p ≠ []) (hk : isCleanAbs k = true)
    (h1 : isAncestorOf D k = true) (h2 : D ≠ p) (h3 : isAncestorOf D p = false) :
    D ∈ dirsOf p k := by
  rw [(dirsOf_clean p k hp hk).2, List.mem_filter, mem_ancestorDirs]
  simp [h1, h2, h3]

theorem pairwise_dirsOf (p k : Str) (hk : isCleanAbs k = true) :
    (dirsOf p k).Pairwise (fun a b => a ++ ['/'] <+: b) := by
  by_cases hp : p = []
  · subst hp; simp [dirsOf_nil_prev]
  · rw [(dirsOf_clean p k hp hk).2]
    exact (pairwise_ancestorDirs k).filter _

theorem nextPrevDir_cases (p k : Str) :
    (dirsOf p k = [] ∧ nextPrevDir p k = p) ∨
    (∃ init, dirsOf p k = init ++ [nextPrevDir p k]) := by
  unfold nextPrevDir
  by_cases h : dirsOf p k = []
  · left; simp [h]
  · right
    refine ⟨(dirsOf p k).dropLast, ?_⟩
    rw [List.getLastD_eq_getLast?, List.getLast?_eq_getLast _ h]
    simpa using (List.dropLast_append_getLast h).symm

/-- After a path has been read, `prevDir` is the old one or an ancestor of the
path. -/
theorem nextPrevDir_eq_or_ancestor (p k : Str) (hk : isCleanAbs k = true) :
    nextPrevDir p k = p ∨
      (isAncestorOf (nextPrevDir p k) k = true ∧ isAncestorOf (nextPrevDir p k) p = false ∧
        nextPrevDir p k ∈ dirsOf p k) := by
  rcases nextPrevDir_cases p k with ⟨_, h⟩ | ⟨init, h⟩
  · exact Or.inl h
  · right
    have hm : nextPrevDir p k ∈ dirsOf p k := by rw [h]; simp
    have := mem_dirsOf p k _ hk hm
    exact ⟨this.1, this.2.2, hm⟩

/-- After a path has been read, every ancestor of the path is `prevDir` or an
ancestor of `prevDir`. -/
theorem ancestor_of_nextPrevDir (p k A : Str) (hp : p ≠ []) (hk : isCleanAbs k = true)
    (hA : isAncestorOf A k = true) :
    A = nextPrevDir p k ∨ isAncestorOf A (nextPrevDir p k) = true := by
  have hA' := (isAncestorOf_iff A k).1 hA
  by_cases hmem : A ∈ dirsOf p k
  · rcases nextPrevDir_cases p k with ⟨h, _⟩ | ⟨init, h⟩
    · rw [h] at hmem; simp at hmem
    · rw [h, List.mem_append] at hmem
      rcases hmem with hm | hm
      · right
        have hpw := pairwise_dirsOf p k hk
        rw [h, List.pairwise_append] at hpw
        rw [isAncestorOf_iff]
        exact ⟨hA'.1, hpw.2.2 A hm _ (by simp)⟩
      · left; simpa using hm
  · have hstop : A = p ∨ isAncestorOf A p = true := by
      by_contra hcon
      rw [not_or] at hcon
      exact hmem (mem_dirsOf_of p k A hp hk hA hcon.1 (by simpa using hcon.2))
    rcases nextPrevDir_eq_or_ancestor p k hk with h | ⟨h1, h2, _⟩
    · rw [h]; exact hstop
    · have hL := (isAncestorOf_iff _ k).1 h1
      rcases ancestors_comparable A _ k hA'.2 hL.2 with he | hlt | hgt
      · exact Or.inl he
      · exact Or.inr ((isAncestorOf_iff _ _).2 ⟨hA'.1, hlt⟩)
      · exfalso
        have : isAncestorOf (nextPrevDir p k) p = true := by
          rw [isAncestorOf_iff]
          refine ⟨hL.1, ?_⟩
          rcases hstop with rfl | hs
          · exact hgt
          · exact hgt.trans ((List.prefix_append A ['/']).trans ((isAncestorOf_iff A p).1 hs).2)
        rw [h2] at this
        exact absurd this (by simp)

theorem nextPrevDir_ne_nil (p k : Str) (hp : p ≠ []) (hk : isCleanAbs k = true) :
    nextPrevDir p k ≠ [] := by
  rcases nextPrevDir_eq_or_ancestor p k hk with h | ⟨h, _⟩
  · rw [h]; exact hp
  · exact ((isAncestorOf_iff _ _).1 h).1

/-! ## The entries built for a listing of clean paths -/

theorem entriesFrom_append (d : Driver) (O1 O2 : List S3Object) :
    ∀ p, d.entriesFrom p (O1 ++ O2) =
      d.entriesFrom p O1 ++ d.entriesFrom (d.prevDirAfter p O1) O2 := by
  induction O1 with
  | nil => intro p; rfl
  | cons o O1 ih =>
    intro p
    rw [List.cons_append, Driver.entriesFrom, Driver.entriesFrom, Driver.prevDirAfter, ih]
    simp

theorem prevDirAfter_append (d : Driver) (O1 O2 : List S3Object) :
    ∀ p, d.prevDirAfter p (O1 ++ O2) = d.prevDirAfter (d.prevDirAfter p O1) O2 := by
  induction O1 with
  | nil => intro p; rfl
  | cons o O1 ih =>
    intro p
    rw [List.cons_append, Driver.prevDirAfter, Driver.prevDirAfter, ih]

theorem prevDirAfter_concat (d : Driver) (O : List S3Object) (o : S3Object) (p : Str) :
    d.prevDirAfter p (O ++ [o]) = nextPrevDir (d.prevDirAfter p O) (d.keyToPath o.Key) := by
  rw [prevDirAfter_append]; rfl

theorem prevDirAfter_ne_nil (d : Driver) (O : List S3Object)
    (hclean : ∀ o ∈ O, isCleanAbs (d.keyToPath o.Key) = true) :
    ∀ p, p ≠ [] → d.prevDirAfter p O ≠ [] := by
  induction O with
  | nil => intro p hp; exact hp
  | cons o O ih =>
    intro p hp
    exact ih (fun x hx => hclean x (by simp [hx])) _
      (nextPrevDir_ne_nil p _ hp (hclean o (by simp)))

/-- The variable `prevDir` is `from` or an ancestor of a path read before. -/
theorem prevDirAfter_eq_or_ancestor (d : Driver) (O : List S3Object)
    (hclean : ∀ o ∈ O, isCleanAbs (d.keyToPath o.Key) = true) :
    ∀ p, d.prevDirAfter p O = p ∨
      ∃ o ∈ O, isAncestorOf (d.prevDirAfter p O) (d.keyToPath o.Key) = true := by
  induction O using List.reverseRecOn with
  | nil => intro p; exact Or.inl rfl
  | append_singleton O o ih =>
    intro p
    rw [prevDirAfter_concat]
    have hO : ∀ x ∈ O, isCleanAbs (d.keyToPath x.Key) = true :=
      fun x hx => hclean x (by simp [hx])
    rcases nextPrevDir_eq_or_ancestor (d.prevDirAfter p O) (d.keyToPath o.Key)
      (hclean o (by simp)) with h | ⟨h, _⟩
    · rw [h]
      rcases ih hO p with h' | ⟨x, hx, h'⟩
      · exact Or.inl h'
      · exact Or.inr ⟨x, by simp [hx], h'⟩
    · exact Or.inr ⟨o, by simp, h⟩

/-- After a path has been read, each of its ancestors is `prevDir` or an ancestor
of `prevDir`. -/
theorem ancestor_of_prevDirAfter (d : Driver) (O : List S3Object) (o : S3Object) (p A : Str)
    (hp : p ≠ []) (hclean : ∀ x ∈ O ++ [o], isCleanAbs (d.keyToPath x.Key) = true)
    (hA : isAncestorOf A (d.keyToPath o.Key) = true) :
    A = d.prevDirAfter p (O ++ [o]) ∨ isAncestorOf A (d.prevDirAfter p (O ++ [o])) = true := by
  rw [prevDirAfter_concat]
  exact ancestor_of_nextPrevDir _ _ A
    (prevDirAfter_ne_nil d O (fun x hx => hclean x (by simp [hx])) p hp)
    (hclean o (by simp)) hA

/-- An entry is a listed object, or a directory that is an ancestor of a listed
path and was inferred when that path was read. -/
theorem mem_entriesFrom (d : Driver) (O : List S3Object) :
    ∀ p e, e ∈ d.entriesFrom p O →
      (∃ o ∈ O, e = fileInfo (d.keyToPath o.Key) o) ∨
      (∃ Oa o Ob D, O = Oa ++ o :: Ob ∧ e = dirInfo D ∧
        D ∈ dirsOf (d.prevDirAfter p Oa) (d.keyToPath o.Key)) := by
  induction O with
  | nil => intro p e h; simp [Driver.entriesFrom] at h
  | cons o O ih =>
    intro p e h
    simp only [Driver.entriesFrom, List.mem_append, List.mem_map, List.mem_cons] at h
    rcases h with ⟨D, hD, rfl⟩ | rfl | h
    · exact Or.inr ⟨[], o, O, D, rfl, rfl, hD⟩
    · exact Or.inl ⟨o, by simp, rfl⟩
    · rcases ih _ e h with ⟨x, hx, he⟩ | ⟨Oa, x, Ob, D, hO, he, hD⟩
      · exact Or.inl ⟨x, by simp [hx], he⟩
      · exact Or.inr ⟨o :: Oa, x, Ob, D, by rw [hO]; rfl, he, hD⟩

theorem fileInfo_ne_dirInfo (k D : Str) (o : S3Object) : fileInfo k o ≠ dirInfo D := by
  intro h
  have := congrArg FileInfo.IsDir h
  simp [fileInfo, dirInfo] at this

theorem dirInfo_injective (A B : Str) (h : dirInfo A = dirInfo B) : A = B := by
  have := congrArg FileInfo.Path h
  simpa [dirInfo] using this

/-- The path of an entry is a prefix of the path of a listed object. -/
theorem entry_path_pre (d : Driver) (O : List S3Object)
    (hclean : ∀ o ∈ O, isCleanAbs (d.keyToPath o.Key) = true) (p : Str) (e : FileInfo)
    (h : e ∈ d.entriesFrom p O) : ∃ o ∈ O, e.Path <+: d.keyToPath o.Key := by
  rcases mem_entriesFrom d O p e h with ⟨o, ho, rfl⟩ | ⟨Oa, o, Ob, D, rfl, rfl, hD⟩
  · exact ⟨o, ho, by simp [fileInfo]⟩
  · refine ⟨o, by simp, ?_⟩
    have := (mem_dirsOf _ _ D (hclean o (by simp)) hD).1
    exact (List.prefix_append D ['/']).trans ((isAncestorOf_iff D _).1 this).2

theorem exists_first {α : Type} (P : α → Prop) [DecidablePred P] :
    ∀ (l : List α), (∃ x ∈ l, P x) →
      ∃ l1 x l2, l = l1 ++ x :: l2 ∧ P x ∧ ∀ y ∈ l1, ¬ P y := by
  intro l
  induction l with
  | nil => rintro ⟨x, hx, _⟩; simp at hx
  | cons a l ih =>
    rintro ⟨x, hx, hP⟩
    by_cases ha : P a
    · exact ⟨[], a, l, rfl, ha, by simp⟩
    · have : ∃ x ∈ l, P x := by
        rcases List.mem_cons.1 hx with rfl | h
        · exact absurd hP ha
        · exact ⟨x, h, hP⟩
      obtain ⟨l1, y, l2, rfl, hy, hl1⟩ := ih this
      refine ⟨a :: l1, y, l2, rfl, hy, ?_⟩
      intro z hz
      rcases List.mem_cons.1 hz with rfl | h
      · exact ha
      · exact hl1 z h

/-- In a sorted listing, a directory with the first and the last of a run of
paths in its subtree has the last but one in its subtree too. -/
theorem ancestor_of_last_between (d : Driver) (o : S3Object) (Oa : List S3Object) (o2 : S3Object)
    (Ob : List S3Object) (D : Str)
    (hsorted : ((o :: Oa ++ o2 :: Ob).map (fun x => d.keyToPath x.Key)).Pairwise
      (fun a b => strLt b a = false))
    (h1 : isAncestorOf D (d.keyToPath o.Key) = true)
    (h2 : isAncestorOf D (d.keyToPath o2.Key) = true) :
    ∃ init last, o :: Oa = init ++ [last] ∧ isAncestorOf D (d.keyToPath last.Key) = true := by
  refine ⟨(o :: Oa).dropLast, (o :: Oa).getLast (by simp),
    (List.dropLast_append_getLast _).symm, ?_⟩
  have h1' := (isAncestorOf_iff _ _).1 h1
  have h2' := (isAncestorOf_iff _ _).1 h2
  rw [isAncestorOf_iff]
  refine ⟨h1'.1, ?_⟩
  have hlast : (o :: Oa).getLast (by simp) ∈ o :: Oa := List.getLast_mem _
  have e : o :: Oa ++ o2 :: Ob = (o :: Oa) ++ o2 :: Ob := rfl
  rw [e, List.map_append, List.pairwise_append] at hsorted
  have hle2 : strLt (d.keyToPath o2.Key) (d.keyToPath ((o :: Oa).getLast (by simp)).Key) = false :=
    hsorted.2.2 _ (List.mem_map_of_mem _ hlast) _ (by simp)
  rcases List.mem_cons.1 hlast with h | h
  · rw [h]; exact h1'.2
  · have hle1 : strLt (d.keyToPath ((o :: Oa).getLast (by simp)).Key) (d.keyToPath o.Key) = false := by
      have := hsorted.1
      rw [List.map_cons, List.pairwise_cons] at this
      exact this.1 _ (List.mem_map_of_mem _ h)
    exact prefix_of_between _ _ _ _ hle1 hle2 h1'.2 h2'.2

/-- A directory that is an ancestor of a listed path, and is
neither `from` nor an ancestor of `from`, is built exactly once, and no entry
built before it lies under it. -/
theorem entriesFrom_dir_once (d : Driver) (O : List S3Object) (frm D : Str) (hfrm : frm ≠ [])
    (hclean : ∀ o ∈ O, isCleanAbs (d.keyToPath o.Key) = true)
    (hsorted : (O.map (fun x => d.keyToPath x.Key)).Pairwise (fun a b => strLt b a = false))
    (hD : ∃ o ∈ O, isAncestorOf D (d.keyToPath o.Key) = true)
    (hne : D ≠ frm) (hnanc : isAncestorOf D frm = false) :
    ∃ X Y, d.entriesFrom frm O = X ++ dirInfo D :: Y ∧
      (∀ e ∈ X, e ≠ dirInfo D ∧ isAncestorOf D e.Path = false) ∧
      (∀ e ∈ Y, e ≠ dirInfo D) := by
  obtain ⟨O1, o, O2, rfl, ho, hfirst⟩ :=
    exists_first (fun o => isAncestorOf D (d.keyToPath o.Key) = true) O hD
  have hc1 : ∀ x ∈ O1, isCleanAbs (d.keyToPath x.Key) = true :=
    fun x hx => hclean x (by simp [hx])
  have hco : isCleanAbs (d.keyToPath o.Key) = true := hclean o (by simp)
  have hDne : D ≠ [] := ((isAncestorOf_iff _ _).1 ho).1
  -- the directory is inferred when the first path under it is read
  have hp' : d.prevDirAfter frm O1 ≠ [] := prevDirAfter_ne_nil d O1 hc1 frm hfrm
  have hmem : D ∈ dirsOf (d.prevDirAfter frm O1) (d.keyToPath o.Key) := by
    apply mem_dirsOf_of _ _ _ hp' hco ho
    · rcases prevDirAfter_eq_or_ancestor d O1 hc1 frm with h | ⟨x, hx, h⟩
      · rw [h]; exact hne
      · intro e
        rw [← e] at h
        exact hfirst x hx h
    · rcases prevDirAfter_eq_or_ancestor d O1 hc1 frm with h | ⟨x, hx, h⟩
      · rw [h]; exact hnanc
      · by_contra hcon
        exact hfirst x hx (isAncestorOf_trans _ _ _ (by simpa using hcon) h)
  obtain ⟨d1, d2, hsplit⟩ := List.append_of_mem hmem
  have hpw := pairwise_dirsOf (d.prevDirAfter frm O1) (d.keyToPath o.Key) hco
  rw [hsplit, List.pairwise_append, List.pairwise_cons] at hpw
  refine ⟨d.entriesFrom frm O1 ++ d1.map dirInfo,
    d2.map dirInfo ++ fileInfo (d.keyToPath o.Key) o ::
      d.entriesFrom (nextPrevDir (d.prevDirAfter frm O1) (d.keyToPath o.Key)) O2, ?_, ?_, ?_⟩
  · rw [entriesFrom_append, Driver.entriesFrom, hsplit]
    simp
  · intro e he
    rcases List.mem_append.1 he with he | he
    · rcases mem_entriesFrom d O1 frm e he with ⟨x, hx, rfl⟩ | ⟨Oa, x, Ob, A, hO, rfl, hA⟩
      · refine ⟨fileInfo_ne_dirInfo _ _ _, ?_⟩
        have := hfirst x hx
        simpa [fileInfo] using this
      · have hx : x ∈ O1 := by rw [hO]; simp
        have hAx := (mem_dirsOf _ _ A (hc1 x hx) hA).1
        constructor
        · intro e
          rw [dirInfo_injective _ _ e] at hAx
          exact hfirst x hx hAx
        · by_contra hcon
          exact hfirst x hx (isAncestorOf_trans _ _ _ (by simpa [dirInfo] using hcon) hAx)
    · obtain ⟨A, hA, rfl⟩ := List.mem_map.1 he
      have hAD : A ++ ['/'] <+: D := hpw.2.2 A hA D (by simp)
      constructor
      · intro e
        rw [dirInfo_injective _ _ e] at hAD
        exact not_slash_prefix_self D hAD
      · by_contra hcon
        have h2 := ((isAncestorOf_iff D A).1 (by simpa [dirInfo] using hcon)).2
        have := (hAD.trans ((List.prefix_append D ['/']).trans h2)).length_le
        simp at this
  · intro e he
    rcases List.mem_append.1 he with he | he
    · obtain ⟨A, hA, rfl⟩ := List.mem_map.1 he
      intro e
      have hDA : D ++ ['/'] <+: A := hpw.2.1.1 A hA
      rw [dirInfo_injective _ _ e] at hDA
      exact not_slash_prefix_self D hDA
    · rcases List.mem_cons.1 he with rfl | he
      · exact fileInfo_ne_dirInfo _ _ _
      · intro e'
        subst e'
        have hc2 : ∀ x ∈ O2, isCleanAbs (d.keyToPath x.Key) = true :=
          fun x hx => hclean x (by simp [hx])
        rcases mem_entriesFrom d O2 _ _ he with ⟨x, _, hx⟩ | ⟨Oa, o2, Ob, A, hO, hA', hA⟩
        · exact fileInfo_ne_dirInfo _ _ _ hx.symm
        · rw [← dirInfo_injective _ _ hA'] at hA
          have ho2 : o2 ∈ O2 := by rw [hO]; simp
          have hD2 := mem_dirsOf _ _ D (hc2 o2 ho2) hA
          have hs2 : ((o :: Oa ++ o2 :: Ob).map (fun x => d.keyToPath x.Key)).Pairwise
              (fun a b => strLt b a = false) := by
            rw [hO] at hsorted
            rw [List.map_append, List.pairwise_append] at hsorted
            exact hsorted.2.1
          obtain ⟨init, last, hl, hlast⟩ := ancestor_of_last_between d o Oa o2 Ob D hs2 ho hD2.1
          have hq : d.prevDirAfter (nextPrevDir (d.prevDirAfter frm O1) (d.keyToPath o.Key)) Oa
              = d.prevDirAfter (d.prevDirAfter frm O1) (init ++ [last]) := by
            rw [← hl]; rfl
          rw [hq] at hD2
          have hcl : ∀ x ∈ init ++ [last], isCleanAbs (d.keyToPath x.Key) = true := by
            intro x hx
            rw [← hl] at hx
            apply hclean
            rw [hO]
            rcases List.mem_cons.1 hx with rfl | h
            · simp
            · simp [h]
          rcases ancestor_of_prevDirAfter d init last _ D hp' hcl hlast with h | h
          · exact hD2.2.1 h
          · rw [hD2.2.2] at h; exact absurd h (by simp)

/-! ## The run of a walk over clean paths -/

theorem foldl_dirs (dirs : List Str) :
    ∀ (w : List FileInfo) (p : Str),
      dirs.foldl (fun (acc : List FileInfo × Str) dir => (acc.1 ++ [dirInfo dir], dir)) (w, p) =
        (w ++ dirs.map dirInfo, dirs.getLastD p) := by
  induction dirs with
  | nil => intro w p; simp
  | cons a dirs ih =>
    intro w p
    rw [List.foldl_cons, ih, List.getLastD_cons]
    simp

/-- The first loop of the page callback, on clean paths. -/
theorem pageWalkInfos_clean (d : Driver) (objs : List S3Object)
    (hclean : ∀ o ∈ objs, isCleanAbs (d.keyToPath o.Key) = true) :
    ∀ (p : Str) (acc : List FileInfo),
      pageWalkInfos d p objs acc = some (acc ++ d.entriesFrom p objs, d.prevDirAfter p objs) := by
  induction objs with
  | nil => intro p acc; simp [pageWalkInfos, Driver.entriesFrom, Driver.prevDirAfter]
  | cons o objs ih =>
    intro p acc
    rw [pageWalkInfos]
    simp only [directoryDiff_total p _ (hclean o (by simp)), foldl_dirs]
    rw [ih (fun x hx => hclean x (by simp [hx]))]
    simp [Driver.entriesFrom, Driver.prevDirAfter, nextPrevDir]

theorem visit_append {σ : Type} (f : WalkFn σ) (L1 L2 : List FileInfo) :
    ∀ st : WalkState σ, visitWalkInfos f st (L1 ++ L2) =
      if (visitWalkInfos f st L1).2 = true then visitWalkInfos f (visitWalkInfos f st L1).1 L2
      else visitWalkInfos f st L1 := by
  induction L1 with
  | nil => intro st; simp [visit_nil]
  | cons e L1 ih =>
    intro st
    rw [List.cons_append]
    by_cases hsk : st.prevSkipDir ≠ [] ∧ hasPrefix e.Path st.prevSkipDir = true
    · rw [visit_cons_skipped f st e _ hsk, visit_cons_skipped f st e _ hsk, ih]
    · cases hr : (f st.visitor e).2 with
      | none => rw [visit_cons_nil f st e _ hsk hr, visit_cons_nil f st e _ hsk hr, ih]
      | some err =>
        by_cases hskip : err = .ErrSkipDir
        · subst hskip
          rw [visit_cons_skipDir f st e _ hsk hr, visit_cons_skipDir f st e _ hsk hr, ih]
        · by_cases hstop : err = .ErrFilledBuffer
          · subst hstop
            rw [visit_cons_stop f st e _ hsk hr, visit_cons_stop f st e _ hsk hr]
            simp
          · rw [visit_cons_fail f st e _ hsk err hr hskip hstop,
              visit_cons_fail f st e _ hsk err hr hskip hstop]
            simp

/-- The second loop of the page callback does not read `prevDir`. -/
theorem visit_withPrevDir {σ : Type} (f : WalkFn σ) (q : Str) (L : List FileInfo) :
    ∀ st : WalkState σ, visitWalkInfos f (st.withPrevDir q) L =
      ((visitWalkInfos f st L).1.withPrevDir q, (visitWalkInfos f st L).2) := by
  induction L with
  | nil => intro st; simp [visit_nil]
  | cons e L ih =>
    intro st
    by_cases hsk : st.prevSkipDir ≠ [] ∧ hasPrefix e.Path st.prevSkipDir = true
    · rw [visit_cons_skipped f st e _ hsk, visit_cons_skipped f (st.withPrevDir q) e _ hsk, ih]
    · have hsk' : ¬ ((st.withPrevDir q).prevSkipDir ≠ [] ∧
          hasPrefix e.Path (st.withPrevDir q).prevSkipDir = true) := hsk
      cases hr : (f st.visitor e).2 with
      | none =>
        rw [visit_cons_nil f st e _ hsk hr, visit_cons_nil f (st.withPrevDir q) e _ hsk' hr, ← ih]
        rfl
      | some err =>
        by_cases hskip : err = .ErrSkipDir
        · subst hskip
          rw [visit_cons_skipDir f st e _ hsk hr,
            visit_cons_skipDir f (st.withPrevDir q) e _ hsk' hr, ← ih]
          rfl
        · by_cases hstop : err = .ErrFilledBuffer
          · subst hstop
            rw [visit_cons_stop f st e _ hsk hr, visit_cons_stop f (st.withPrevDir q) e _ hsk' hr]
            rfl
          · rw [visit_cons_fail f st e _ hsk err hr hskip hstop,
              visit_cons_fail f (st.withPrevDir q) e _ hsk' err hr hskip hstop]
            rfl

theorem walkPage_clean {σ : Type} (d : Driver) (f : WalkFn σ) (st : WalkState σ)
    (page : List S3Object) (hclean : ∀ o ∈ page, isCleanAbs (d.keyToPath o.Key) = true) :
    walkPage d f st page =
      some ((visitWalkInfos f st (d.entriesFrom st.prevDir page)).1.withPrevDir
          (d.prevDirAfter st.prevDir page),
        (visitWalkInfos f st (d.entriesFrom st.prevDir page)).2) := by
  rw [walkPage_eq, pageWalkInfos_clean d page hclean]
  simp [visit_withPrevDir]

/-- The visitor calls of a walk over clean paths are those of the second loop run
once over the entries of all pages. -/
theorem listPages_calls {σ : Type} (d : Driver) (f : WalkFn σ) (storeErr : Option GoError) :
    ∀ (pages : List (List S3Object)) (st : WalkState σ) (n : Nat),
      (∀ o ∈ pages.flatten, isCleanAbs (d.keyToPath o.Key) = true) →
      (listPages d f storeErr st pages n).1.calls =
        (visitWalkInfos f st (d.entriesFrom st.prevDir pages.flatten)).1.calls := by
  intro pages
  induction pages with
  | nil => intro st n _; simp [listPages, Driver.entriesFrom, visit_nil]
  | cons page more ih =>
    intro st n hclean
    have hc1 : ∀ o ∈ page, isCleanAbs (d.keyToPath o.Key) = true :=
      fun o ho => hclean o (by simp [ho])
    have hc2 : ∀ o ∈ more.flatten, isCleanAbs (d.keyToPath o.Key) = true :=
      fun o ho => hclean o (by rw [List.flatten_cons]; exact List.mem_append_right _ ho)
    rw [List.flatten_cons, entriesFrom_append, visit_append, listPages,
      walkPage_clean d f st page hc1]
    cases hb : (visitWalkInfos f st (d.entriesFrom st.prevDir page)).2 with
    | true =>
      simp only [if_true]
      rw [ih _ _ hc2, visit_withPrevDir]
      rfl
    | false => simp [WalkState.withPrevDir]

theorem visit_continue {σ : Type} (f : WalkFn σ) (hcont : ∀ s e, (f s e).2 = none) :
    ∀ (L : List FileInfo) (st : WalkState σ), st.prevSkipDir = [] →
      (visitWalkInfos f st L).2 = true ∧
      (visitWalkInfos f st L).1.calls = st.calls ++ L.map (fun e => (e, none)) ∧
      (visitWalkInfos f st L).1.retError = st.retError ∧
      (visitWalkInfos f st L).1.prevSkipDir = [] ∧
      (visitWalkInfos f st L).1.prevDir = st.prevDir := by
  intro L
  induction L with
  | nil => intro st h; simp [visit_nil, h]
  | cons e L ih =>
    intro st h
    have hsk : ¬ (st.prevSkipDir ≠ [] ∧ hasPrefix e.Path st.prevSkipDir = true) := by simp [h]
    rw [visit_cons_nil f st e L hsk (hcont _ _)]
    obtain ⟨h1, h2, h3, h4, h5⟩ := ih (st.called f e) h
    refine ⟨h1, ?_, h3, h4, h5⟩
    rw [h2]
    simp [WalkState.called, hcont]

theorem listPages_continue {σ : Type} (d : Driver) (f : WalkFn σ) (storeErr : Option GoError)
    (hcont : ∀ s e, (f s e).2 = none) :
    ∀ (pages : List (List S3Object)) (st : WalkState σ) (n : Nat),
      (∀ o ∈ pages.flatten, isCleanAbs (d.keyToPath o.Key) = true) → st.prevSkipDir = [] →
      (listPages d f storeErr st pages n).2.2 = some storeErr ∧
      (listPages d f storeErr st pages n).1.retError = st.retError := by
  intro pages
  induction pages with
  | nil => intro st n _ _; simp [listPages]
  | cons page more ih =>
    intro st n hclean hs
    have hc1 : ∀ o ∈ page, isCleanAbs (d.keyToPath o.Key) = true :=
      fun o ho => hclean o (by simp [ho])
    have hc2 : ∀ o ∈ more.flatten, isCleanAbs (d.keyToPath o.Key) = true :=
      fun o ho => hclean o (by rw [List.flatten_cons]; exact List.mem_append_right _ ho)
    obtain ⟨h1, _, h3, h4, _⟩ := visit_continue f hcont (d.entriesFrom st.prevDir page) st hs
    rw [listPages, walkPage_clean d f st page hc1, h1]
    simp only
    have := ih ((visitWalkInfos f st (d.entriesFrom st.prevDir page)).1.withPrevDir
      (d.prevDirAfter st.prevDir page)) (n + 1) hc2 h4
    rw [this.1, this.2]
    exact ⟨rfl, h3⟩

theorem entry_isDir (d : Driver) (O : List S3Object) (p : Str) (e : FileInfo)
    (h : e ∈ d.entriesFrom p O) (hdir : e.IsDir = true) : e = dirInfo e.Path := by
  rcases mem_entriesFrom d O p e h with ⟨o, _, rfl⟩ | ⟨_, _, _, D, _, rfl, _⟩
  · simp [fileInfo] at hdir
  · rfl

theorem file_mem_entriesFrom (d : Driver) (O : List S3Object) :
    ∀ p, ∀ o ∈ O, fileInfo (d.keyToPath o.Key) o ∈ d.entriesFrom p O := by
  induction O with
  | nil => intro p o h; simp at h
  | cons x O ih =>
    intro p o h
    rw [Driver.entriesFrom]
    rcases List.mem_cons.1 h with rfl | h
    · simp
    · exact List.mem_append_right _ (List.mem_cons_of_mem _ (ih _ o h))

/-- C2: over a sorted listing of distinct clean absolute paths, with a visitor
that always answers `nil`, the walk from a non-empty `from` returns, passes every
listed object, and passes every inferred directory that lies strictly below
`from` (every ancestor of a listed path that is not `from` and begins with the
listing prefix of `from`) exactly once, with no entry of its subtree passed
before it. -/
theorem Walk_directories_once {σ : Type} (d : Driver) (pages : List (List S3Object))
    (storeErr : Option GoError) (frm : Str) (f : WalkFn σ) (v : σ) (hfrm : frm ≠ [])
    (hclean : ∀ k ∈ d.walkPaths pages, isCleanAbs k = true)
    (hsorted : (d.walkPaths pages).Pairwise (fun a b => strLt a b = true))
    (hcont : ∀ s e, (f s e).2 = none) :
    (d.Walk pages storeErr frm f v).result = some storeErr ∧
    (∀ o ∈ pages.flatten,
      (fileInfo (d.keyToPath o.Key) o, none) ∈ (d.Walk pages storeErr frm f v).calls) ∧
    ∀ D, (∃ k ∈ d.walkPaths pages, isAncestorOf D k = true) →
      D ≠ frm → hasPrefix D (listPrefix frm) = true →
      ∃ X Y, (d.Walk pages storeErr frm f v).calls = X ++ (dirInfo D, none) :: Y ∧
        (∀ c ∈ X ++ Y, ¬ (c.1.IsDir = true ∧ c.1.Path = D)) ∧
        (∀ c ∈ X, isAncestorOf D c.1.Path = false) := by
  have hc : ∀ o ∈ pages.flatten, isCleanAbs (d.keyToPath o.Key) = true := by
    intro o ho
    exact hclean _ (List.mem_map_of_mem _ ho)
  have hcalls : (d.Walk pages storeErr frm f v).calls =
      (d.entriesFrom frm pages.flatten).map (fun e => (e, none)) := by
    unfold Driver.Walk
    rw [doWalk_calls, listPages_calls d f storeErr pages _ 0 hc]
    have := (visit_continue f hcont (d.entriesFrom frm pages.flatten) (initState frm v) rfl).2.1
    simpa [initState] using this
  refine ⟨?_, ?_, ?_⟩
  · have := listPages_continue d f storeErr hcont pages (initState frm v) 0 hc rfl
    unfold Driver.Walk
    rw [doWalk_result d pages storeErr frm f v storeErr this.1, this.2]
    simp [initState]
  · intro o ho
    rw [hcalls]
    exact List.mem_map_of_mem _ (file_mem_entriesFrom d _ frm o ho)
  · intro D hD hne hbelow
    have hs : ((pages.flatten).map (fun x => d.keyToPath x.Key)).Pairwise
        (fun a b => strLt b a = false) :=
      hsorted.imp (fun h => strLt_asymm _ _ h)
    have hD' : ∃ o ∈ pages.flatten, isAncestorOf D (d.keyToPath o.Key) = true := by
      obtain ⟨k, hk, hDk⟩ := hD
      obtain ⟨o, ho, rfl⟩ := List.mem_map.1 hk
      exact ⟨o, ho, hDk⟩
    have hnanc : isAncestorOf D frm = false := by
      by_contra hcon
      have h1 := ((isAncestorOf_iff D frm).1 (by simpa using hcon)).2.length_le
      have h2 := ((hasPrefix_iff _ _).1 hbelow).length_le
      unfold listPrefix at h2
      split at h2 <;> simp at h1 h2 <;> omega
    obtain ⟨X, Y, hE, hX, hY⟩ :=
      entriesFrom_dir_once d pages.flatten frm D hfrm hc hs hD' hne hnanc
    refine ⟨X.map (fun e => (e, none)), Y.map (fun e => (e, none)), ?_, ?_, ?_⟩
    · rw [hcalls, hE]; simp
    · intro c hc'
      rw [← List.map_append] at hc'
      obtain ⟨e, he, rfl⟩ := List.mem_map.1 hc'
      rintro ⟨h1, h2⟩
      have hmem : e ∈ d.entriesFrom frm pages.flatten := by
        rw [hE]
        rcases List.mem_append.1 he with h | h
        · exact List.mem_append_left _ h
        · exact List.mem_append_right _ (List.mem_cons_of_mem _ h)
      have := entry_isDir d _ frm e hmem h1
      simp only at h2
      rw [h2] at this
      rcases List.mem_append.1 he with h | h
      · exact (hX e h).1 this
      · exact hY e h this
    · intro c hc'
      obtain ⟨e, he, rfl⟩ := List.mem_map.1 hc'
      exact (hX e he).2

/-! ## Entries under a skipped directory -/

theorem pairwise_of_forall_right {α : Type} (R : α → α → Prop) (l : List α)
    (h : ∀ a ∈ l, ∀ b ∈ l, R a b) : l.Pairwise R := by
  induction l with
  | nil => exact List.Pairwise.nil
  | cons x l ih =>
    rw [List.pairwise_cons]
    exact ⟨fun b hb => h x (by simp) b (by simp [hb]),
      ih (fun a ha b hb => h a (by simp [ha]) b (by simp [hb]))⟩

/-- After a directory with prefix `D` has become `prevDir`, the entries built for
the rest of a sorted listing that have the prefix `D` come before those that do
not. -/
theorem entriesFrom_prefix_block (d : Driver) (D k0 : Str) (O : List S3Object)
    (hclean : ∀ o ∈ O, isCleanAbs (d.keyToPath o.Key) = true)
    (hsorted : (O.map (fun x => d.keyToPath x.Key)).Pairwise (fun a b => strLt b a = false))
    (hk0 : D <+: k0) (hlow : ∀ o ∈ O, strLt (d.keyToPath o.Key) k0 = false) :
    ∀ p, D <+: p →
      (d.entriesFrom p O).Pairwise (fun e e' => D <+: e'.Path → D <+: e.Path) := by
  induction O with
  | nil => intro p _; simp [Driver.entriesFrom]
  | cons o O ih =>
    intro p hp
    have hco : isCleanAbs (d.keyToPath o.Key) = true := hclean o (by simp)
    have hcO : ∀ x ∈ O, isCleanAbs (d.keyToPath x.Key) = true :=
      fun x hx => hclean x (by simp [hx])
    rw [List.map_cons, List.pairwise_cons] at hsorted
    -- an entry with the prefix puts the prefix on the path being read
    have hkey : ∀ e' ∈ d.entriesFrom p (o :: O), D <+: e'.Path → D <+: d.keyToPath o.Key := by
      intro e' he' hP
      obtain ⟨x, hx, hpre⟩ := entry_path_pre d (o :: O) hclean p e' he'
      rcases List.mem_cons.1 hx with rfl | hx
      · exact hP.trans hpre
      · exact prefix_of_between D k0 _ _ (hlow o (by simp))
          (hsorted.1 _ (List.mem_map_of_mem _ hx)) hk0 (hP.trans hpre)
    have hdirs : ∀ A ∈ dirsOf p (d.keyToPath o.Key), D <+: d.keyToPath o.Key → D <+: A := by
      intro A hA hk
      have hm := mem_dirsOf p _ A hco hA
      have hA' := (isAncestorOf_iff _ _).1 hm.1
      rcases prefix_or_ancestor A D _ hA'.2 hk with h | h
      · exact h
      · exfalso
        have : isAncestorOf A p = true := (isAncestorOf_iff _ _).2 ⟨hA'.1, h.trans hp⟩
        rw [hm.2.2] at this
        exact absurd this (by simp)
    have hhead : ∀ e ∈ (dirsOf p (d.keyToPath o.Key)).map dirInfo ++ [fileInfo (d.keyToPath o.Key) o],
        D <+: d.keyToPath o.Key → D <+: e.Path := by
      intro e he hk
      rcases List.mem_append.1 he with h | h
      · obtain ⟨A, hA, rfl⟩ := List.mem_map.1 h
        exact hdirs A hA hk
      · rw [List.mem_singleton.1 h]; exact hk
    have hE : d.entriesFrom p (o :: O) =
        ((dirsOf p (d.keyToPath o.Key)).map dirInfo ++ [fileInfo (d.keyToPath o.Key) o]) ++
          d.entriesFrom (nextPrevDir p (d.keyToPath o.Key)) O := by
      rw [Driver.entriesFrom]; simp
    rw [hE, List.pairwise_append]
    refine ⟨?_, ?_, ?_⟩
    · apply pairwise_of_forall_right
      intro a ha b hb hP
      exact hhead a ha (hkey b (by rw [hE]; exact List.mem_append_left _ hb) hP)
    · by_cases hex : ∃ e' ∈ d.entriesFrom (nextPrevDir p (d.keyToPath o.Key)) O, D <+: e'.Path
      · obtain ⟨e', he', hP⟩ := hex
        have hk := hkey e' (by rw [hE]; exact List.mem_append_right _ he') hP
        apply ih hcO hsorted.2 (fun x hx => hlow x (by simp [hx]))
        rcases nextPrevDir_eq_or_ancestor p _ hco with h | ⟨_, _, h⟩
        · rw [h]; exact hp
        · exact hdirs _ h hk
      · apply pairwise_of_forall_right
        intro a _ b hb hP
        exact absurd ⟨b, hb, hP⟩ hex
    · intro a ha b hb hP
      exact hhead a ha (hkey b (by rw [hE]; exact List.mem_append_right _ hb) hP)

/-- In the entries built for a sorted listing of clean paths, the entries that
follow a directory and have its path as a prefix come before those that do not. -/
theorem entriesFrom_dir_block (d : Driver) (O : List S3Object)
    (hclean : ∀ o ∈ O, isCleanAbs (d.keyToPath o.Key) = true)
    (hsorted : (O.map (fun x => d.keyToPath x.Key)).Pairwise (fun a b => strLt b a = false)) :
    ∀ p x Y, x :: Y <:+ d.entriesFrom p O → x.IsDir = true →
      x.Path ≠ [] ∧ Y.Pairwise (fun e e' => x.Path <+: e'.Path → x.Path <+: e.Path) := by
  induction O with
  | nil =>
    intro p x Y h
    simp [Driver.entriesFrom] at h
  | cons o O ih =>
    intro p
    have hco : isCleanAbs (d.keyToPath o.Key) = true := hclean o (by simp)
    have hcO : ∀ x ∈ O, isCleanAbs (d.keyToPath x.Key) = true :=
      fun x hx => hclean x (by simp [hx])
    have hsorted' := hsorted
    rw [List.map_cons, List.pairwise_cons] at hsorted'
    rw [Driver.entriesFrom]
    have hpw := pairwise_dirsOf p (d.keyToPath o.Key) hco
    have hmem : ∀ A ∈ dirsOf p (d.keyToPath o.Key), isAncestorOf A (d.keyToPath o.Key) = true :=
      fun A h => (mem_dirsOf p _ A hco h).1
    have hlast : ∀ A ∈ dirsOf p (d.keyToPath o.Key), A <+: nextPrevDir p (d.keyToPath o.Key) := by
      intro A hA
      rcases nextPrevDir_cases p (d.keyToPath o.Key) with ⟨h, _⟩ | ⟨init, h⟩
      · rw [h] at hA; simp at hA
      · have hpw2 := hpw
        rw [h, List.pairwise_append] at hpw2
        rw [h, List.mem_append] at hA
        rcases hA with hA | hA
        · exact (List.prefix_append A ['/']).trans (hpw2.2.2 A hA _ (by simp))
        · rw [List.mem_singleton.1 hA]
    -- go through the inferred directories of the first object, innermost last
    generalize dirsOf p (d.keyToPath o.Key) = dirs at hpw hmem hlast
    induction dirs with
    | nil =>
      intro x Y h hdir
      rw [List.map_nil, List.nil_append, List.suffix_cons_iff] at h
      rcases h with h | h
      · rw [(List.cons.inj h).1] at hdir
        simp [fileInfo] at hdir
      · exact ih hcO hsorted'.2 _ x Y h hdir
    | cons D dirs ihd =>
      intro x Y h hdir
      rw [List.map_cons, List.cons_append, List.suffix_cons_iff] at h
      rw [List.pairwise_cons] at hpw
      rcases h with h | h
      · obtain ⟨hx, hY⟩ := List.cons.inj h
        subst hx
        have hD := (isAncestorOf_iff _ _).1 (hmem D (by simp))
        refine ⟨hD.1, ?_⟩
        rw [hY]
        have e : dirs.map dirInfo ++ fileInfo (d.keyToPath o.Key) o ::
            d.entriesFrom (nextPrevDir p (d.keyToPath o.Key)) O =
            (dirs.map dirInfo ++ [fileInfo (d.keyToPath o.Key) o]) ++
            d.entriesFrom (nextPrevDir p (d.keyToPath o.Key)) O := by simp
        have hhead : ∀ e ∈ dirs.map dirInfo ++ [fileInfo (d.keyToPath o.Key) o],
            D <+: e.Path := by
          intro e he
          rcases List.mem_append.1 he with h | h
          · obtain ⟨A, hA, rfl⟩ := List.mem_map.1 h
            exact (List.prefix_append D ['/']).trans (hpw.1 A hA)
          · rw [List.mem_singleton.1 h]
            exact (List.prefix_append D ['/']).trans hD.2
        rw [e, List.pairwise_append]
        refine ⟨pairwise_of_forall_right _ _ (fun a ha _ _ _ => hhead a ha), ?_,
          fun a ha _ _ _ => hhead a ha⟩
        exact entriesFrom_prefix_block d D (d.keyToPath o.Key) O hcO hsorted'.2
          ((List.prefix_append D ['/']).trans hD.2)
          (fun x hx => hsorted'.1 _ (List.mem_map_of_mem _ hx)) _ (hlast D (by simp))
      · exact ihd hpw.2 (fun A hA => hmem A (by simp [hA])) (fun A hA => hlast A (by simp [hA]))
          x Y h hdir

/-- The second loop of the page callback calls the visitor on entries of the
page only. -/
theorem visit_calls_mem {σ : Type} (f : WalkFn σ) :
    ∀ (L : List FileInfo) (st : WalkState σ),
      ∃ new, (visitWalkInfos f st L).1.calls = st.calls ++ new ∧ ∀ c ∈ new, c.1 ∈ L := by
  intro L
  induction L with
  | nil => intro st; exact ⟨[], by simp [visit_nil], by simp⟩
  | cons e L ih =>
    intro st
    have step : ∀ st' : WalkState σ, st'.calls = st.calls ++ [(e, (f st.visitor e).2)] →
        ∃ new, (visitWalkInfos f st' L).1.calls = st.calls ++ new ∧ ∀ c ∈ new, c.1 ∈ e :: L := by
      intro st' hc
      obtain ⟨new, h1, h2⟩ := ih st'
      refine ⟨(e, (f st.visitor e).2) :: new, by rw [h1, hc]; simp, ?_⟩
      intro c hc'
      rcases List.mem_cons.1 hc' with rfl | h
      · simp
      · exact List.mem_cons_of_mem _ (h2 c h)
    by_cases hsk : st.prevSkipDir ≠ [] ∧ hasPrefix e.Path st.prevSkipDir = true
    · rw [visit_cons_skipped f st e L hsk]
      obtain ⟨new, h1, h2⟩ := ih st
      exact ⟨new, h1, fun c hc => List.mem_cons_of_mem _ (h2 c hc)⟩
    · cases hr : (f st.visitor e).2 with
      | none =>
        rw [visit_cons_nil f st e L hsk hr]
        exact step (st.called f e) rfl
      | some err =>
        by_cases hskip : err = .ErrSkipDir
        · subst hskip
          rw [visit_cons_skipDir f st e L hsk hr]
          exact step ((st.called f e).skipping e.Path) rfl
        · by_cases hstop : err = .ErrFilledBuffer
          · subst hstop
            rw [visit_cons_stop f st e L hsk hr]
            exact ⟨[(e, (f st.visitor e).2)], rfl, by simp⟩
          · rw [visit_cons_fail f st e L hsk err hr hskip hstop]
            exact ⟨[(e, (f st.visitor e).2)], rfl, by simp⟩

/-- While `prevSkipDir` is `D` and the entries with prefix `D` come first, no
entry with prefix `D` is passed to the visitor. -/
theorem visit_skipping {σ : Type} (f : WalkFn σ) (D : Str) (hD : D ≠ []) :
    ∀ (L : List FileInfo) (st : WalkState σ), st.prevSkipDir = D →
      L.Pairwise (fun e e' => D <+: e'.Path → D <+: e.Path) →
      ∃ new, (visitWalkInfos f st L).1.calls = st.calls ++ new ∧
        ∀ c ∈ new, hasPrefix c.1.Path D = false := by
  intro L
  induction L with
  | nil => intro st _ _; exact ⟨[], by simp [visit_nil], by simp⟩
  | cons e L ih =>
    intro st hst hpw
    rw [List.pairwise_cons] at hpw
    by_cases hP : D <+: e.Path
    · rw [visit_cons_skipped f st e L ⟨by rw [hst]; exact hD, by rw [hst, hasPrefix_iff]; exact hP⟩]
      exact ih st hst hpw.2
    · obtain ⟨new, h1, h2⟩ := visit_calls_mem f (e :: L) st
      refine ⟨new, h1, ?_⟩
      intro c hc
      rw [hasPrefix_eq_false_iff]
      rcases List.mem_cons.1 (h2 c hc) with h | h
      · rw [h]; exact hP
      · exact fun hc' => hP (hpw.1 _ h hc')

/-- On entries in which the subtree of every directory comes in one block, an
`ErrSkipDir` answer on a directory keeps every later entry with the directory's
path as a prefix from the visitor. -/
theorem visit_skip_subtree {σ : Type} (f : WalkFn σ) :
    ∀ (L : List FileInfo) (st : WalkState σ),
      (∀ x Y, x :: Y <:+ L → x.IsDir = true →
        x.Path ≠ [] ∧ Y.Pairwise (fun e e' => x.Path <+: e'.Path → x.Path <+: e.Path)) →
      ∃ new, (visitWalkInfos f st L).1.calls = st.calls ++ new ∧
        ∀ A c B, new = A ++ c :: B → c.1.IsDir = true → c.2 = some .ErrSkipDir →
          ∀ c' ∈ B, hasPrefix c'.1.Path c.1.Path = false := by
  intro L
  induction L with
  | nil =>
    intro st _
    refine ⟨[], by simp [visit_nil], ?_⟩
    intro A c B h
    simp at h
  | cons e L ih =>
    intro st hgood
    have hgood' : ∀ x Y, x :: Y <:+ L → x.IsDir = true →
        x.Path ≠ [] ∧ Y.Pairwise (fun e e' => x.Path <+: e'.Path → x.Path <+: e.Path) :=
      fun x Y h => hgood x Y (List.suffix_cons_iff.2 (Or.inr h))
    have step : ∀ (st' : WalkState σ) (new' : List (FileInfo × Option GoError)),
        (visitWalkInfos f st' L).1.calls = st.calls ++ (e, (f st.visitor e).2) :: new' →
        (∀ A c B, new' = A ++ c :: B → c.1.IsDir = true → c.2 = some .ErrSkipDir →
          ∀ c' ∈ B, hasPrefix c'.1.Path c.1.Path = false) →
        (e.IsDir = true → (f st.visitor e).2 = some .ErrSkipDir →
          ∀ c' ∈ new', hasPrefix c'.1.Path e.Path = false) →
        ∃ new, (visitWalkInfos f st' L).1.calls = st.calls ++ new ∧
          ∀ A c B, new = A ++ c :: B → c.1.IsDir = true → c.2 = some .ErrSkipDir →
            ∀ c' ∈ B, hasPrefix c'.1.Path c.1.Path = false := by
      intro st' new' hc hrest hhead
      refine ⟨_, hc, ?_⟩
      intro A c B hsplit hdir hskip
      cases A with
      | nil =>
        obtain ⟨h1, h2⟩ := List.cons.inj hsplit
        subst h1 h2
        exact hhead hdir hskip
      | cons a A =>
        obtain ⟨_, h2⟩ := List.cons.inj hsplit
        exact hrest A c B h2 hdir hskip
    by_cases hsk : st.prevSkipDir ≠ [] ∧ hasPrefix e.Path st.prevSkipDir = true
    · rw [visit_cons_skipped f st e L hsk]
      exact ih st hgood'
    · cases hr : (f st.visitor e).2 with
      | none =>
        rw [visit_cons_nil f st e L hsk hr]
        obtain ⟨new', h1, h2⟩ := ih (st.called f e) hgood'
        exact step (st.called f e) new' (by rw [h1]; simp [WalkState.called]) h2
          (by intro _ h; rw [hr] at h; simp at h)
      | some err =>
        by_cases hskip : err = .ErrSkipDir
        · subst hskip
          rw [visit_cons_skipDir f st e L hsk hr]
          obtain ⟨new', h1, h2⟩ := ih ((st.called f e).skipping e.Path) hgood'
          exact step ((st.called f e).skipping e.Path) new'
            (by rw [h1]; simp [WalkState.called, WalkState.skipping]) h2
            (by
              intro hdir _
              obtain ⟨hne, hpw⟩ := hgood e L (List.suffix_refl _) hdir
              obtain ⟨new2, h3, h4⟩ := visit_skipping f e.Path hne L
                ((st.called f e).skipping e.Path) rfl hpw
              have : new2 = new' := List.append_cancel_left (h3.symm.trans h1)
              rw [← this]
              exact h4)
        · have hsingle : ∀ A c B, [(e, some err)] = A ++ c :: B → c.1.IsDir = true →
              c.2 = some .ErrSkipDir → ∀ c' ∈ B, hasPrefix c'.1.Path c.1.Path = false := by
            intro A c B h _ hs
            cases A with
            | nil =>
              obtain ⟨h1, h2⟩ := List.cons.inj h
              rw [← h2]; simp
            | cons a A =>
              have := (List.cons.inj h).2
              simp at this
          by_cases hstop : err = .ErrFilledBuffer
          · subst hstop
            rw [visit_cons_stop f st e L hsk hr]
            exact ⟨[(e, some .ErrFilledBuffer)], by simp [WalkState.called, hr], hsingle⟩
          · rw [visit_cons_fail f st e L hsk err hr hskip hstop]
            exact ⟨[(e, some err)], by simp [WalkState.called, WalkState.failed, hr], hsingle⟩

/-- C3, as the claim states it, fails on a sorted listing with an empty path
segment: the visitor answers `ErrSkipDir` on the directory `/a/c` and then on the
file `/a//c/g`, and the directory `/a/c/x`, inferred after them, is passed to the
visitor although its path has `/a/c` as a prefix. -/
theorem Walk_skip_subtree_unclean :
    ((exampleDriver []).walkPaths [[⟨"a//c/g".toList, 1, 1⟩, ⟨"a//c/x/y".toList, 1, 1⟩]]).Pairwise
      (fun a b => strLt a b = true) ∧
    ((exampleDriver []).Walk [[⟨"a//c/g".toList, 1, 1⟩, ⟨"a//c/x/y".toList, 1, 1⟩]] none
      "/".toList (scriptedVisitor ["/a/c".toList, "/a//c/g".toList] [] []) ()).calls =
      [(dirInfo "/a".toList, none), (dirInfo "/a/c".toList, some .ErrSkipDir),
       (fileInfo "/a//c/g".toList ⟨"a//c/g".toList, 1, 1⟩, some .ErrSkipDir),
       (dirInfo "/a/c/x".toList, none),
       (fileInfo "/a//c/x/y".toList ⟨"a//c/x/y".toList, 1, 1⟩, none)] ∧
    hasPrefix (dirInfo "/a/c/x".toList).Path (dirInfo "/a/c".toList).Path = true := by
  decide

/-- C3, amended: over a sorted listing of clean absolute paths, when the visitor
answers `ErrSkipDir` on a directory, no entry whose path has the directory's path
as a prefix is passed to the visitor afterwards, on any page and whatever the
visitor answers in between. -/
theorem Walk_skip_subtree {σ : Type} (d : Driver) (pages : List (List S3Object))
    (storeErr : Option GoError) (frm : Str) (f : WalkFn σ) (v : σ)
    (hclean : ∀ k ∈ d.walkPaths pages, isCleanAbs k = true)
    (hsorted : (d.walkPaths pages).Pairwise (fun a b => strLt b a = false))
    (A B : List (FileInfo × Option GoError)) (e : FileInfo)
    (h : (d.Walk pages storeErr frm f v).calls = A ++ (e, some .ErrSkipDir) :: B)
    (hdir : e.IsDir = true) :
    ∀ c ∈ B, hasPrefix c.1.Path e.Path = false := by
  have hc : ∀ o ∈ pages.flatten, isCleanAbs (d.keyToPath o.Key) = true := by
    intro o ho
    exact hclean _ (List.mem_map_of_mem _ ho)
  unfold Driver.Walk at h
  rw [doWalk_calls, listPages_calls d f storeErr pages _ 0 hc] at h
  obtain ⟨new, h1, h2⟩ := visit_skip_subtree f (d.entriesFrom frm pages.flatten)
    (initState frm v) (entriesFrom_dir_block d pages.flatten hc hsorted frm)
  have hnew : new = A ++ (e, some .ErrSkipDir) :: B := by
    have := h1.symm.trans h
    simpa [initState] using this
  exact h2 A _ B hnew hdir rfl

theorem Walk_skip_subtree_witness :
    hasPrefix (fileInfo "/a/d".toList ⟨"a/d".toList, 5, 9⟩).Path (dirInfo "/a/b".toList).Path
      = false :=
  Walk_skip_subtree (exampleDriver [])
    [[⟨"a/b/x".toList, 3, 7⟩], [⟨"a/bc/f".toList, 4, 8⟩, ⟨"a/d".toList, 5, 9⟩]] none
    "/".toList (scriptedVisitor ["/a/b".toList] [] []) () (by decide) (by decide)
    [(dirInfo "/a".toList, none)] [(fileInfo "/a/d".toList ⟨"a/d".toList, 5, 9⟩, none)]
    (dirInfo "/a/b".toList) (by decide) (by decide)
    (fileInfo "/a/d".toList ⟨"a/d".toList, 5, 9⟩, none) (List.mem_singleton_self _)

/-- C4: after `ErrSkipDir` on `/a/b` the walk also drops the sibling directory
`/a/bc` and the file `/a/bc/f`, which are not in the subtree of `/a/b`: the only
calls are those on `/a` and `/a/b`. -/
theorem Walk_skip_drops_sibling :
    ((exampleDriver []).Walk [[⟨"a/b/x".toList, 3, 7⟩, ⟨"a/bc/f".toList, 4, 8⟩]] none
      "/".toList (scriptedVisitor ["/a/b".toList] [] []) ()).calls =
      [(dirInfo "/a".toList, none), (dirInfo "/a/b".toList, some .ErrSkipDir)] ∧
    ((exampleDriver []).Walk [[⟨"a/b/x".toList, 3, 7⟩, ⟨"a/bc/f".toList, 4, 8⟩]] none
      "/".toList (scriptedVisitor ["/a/b".toList] [] []) ()).result = some none ∧
    "/a/bc/f".toList ≠ "/a/b".toList ∧
    hasPrefix "/a/bc/f".toList "/a/b/".toList = false := by
  decide

theorem Walk_directories_once_witness :
    ((exampleDriver []).Walk [[⟨"a/b/x".toList, 3, 7⟩], [⟨"a/bc/f".toList, 4, 8⟩]]
      (none : Option GoError) "/a".toList (fun (s : Unit) (_ : FileInfo) => (s, none)) ()).result
        = some none ∧
    (∀ o ∈ [[(⟨"a/b/x".toList, 3, 7⟩ : S3Object)], [⟨"a/bc/f".toList, 4, 8⟩]].flatten,
      (fileInfo ((exampleDriver []).keyToPath o.Key) o, none) ∈
        ((exampleDriver []).Walk [[⟨"a/b/x".toList, 3, 7⟩], [⟨"a/bc/f".toList, 4, 8⟩]]
          (none : Option GoError) "/a".toList (fun (s : Unit) (_ : FileInfo) => (s, none))
          ()).calls) ∧
    ∀ D, (∃ k ∈ (exampleDriver []).walkPaths
        [[⟨"a/b/x".toList, 3, 7⟩], [⟨"a/bc/f".toList, 4, 8⟩]], isAncestorOf D k = true) →
      D ≠ "/a".toList → hasPrefix D (listPrefix "/a".toList) = true →
      ∃ X Y, ((exampleDriver []).Walk [[⟨"a/b/x".toList, 3, 7⟩], [⟨"a/bc/f".toList, 4, 8⟩]]
          (none : Option GoError) "/a".toList (fun (s : Unit) (_ : FileInfo) => (s, none))
          ()).calls = X ++ (dirInfo D, none) :: Y ∧
        (∀ c ∈ X ++ Y, ¬ (c.1.IsDir = true ∧ c.1.Path = D)) ∧
        (∀ c ∈ X, isAncestorOf D c.1.Path = false) :=
  Walk_directories_once (exampleDriver [])
    [[⟨"a/b/x".toList, 3, 7⟩], [⟨"a/bc/f".toList, 4, 8⟩]] none "/a".toList
    (fun s _ => (s, none)) () (by decide) (by decide) (by decide) (fun _ _ => rfl)

/-! ## `directoryDiff` on the listed examples and on empty arguments -/

/-- C13: `directoryDiff` returns the three results that the specification lists. -/
theorem directoryDiff_spec_examples :
    directoryDiff "/a/b".toList "/a/b/c/file".toList = some ["/a/b/c".toList] ∧
    directoryDiff "/a/x1".toList "/a/x2/file".toList = some ["/a/x2".toList] ∧
    directoryDiff "/".toList "/a/b/c/file".toList
      = some ["/a".toList, "/a/b".toList, "/a/b/c".toList] := by
  decide

/-- C14: with an empty `prev` or an empty `current`, `directoryDiff` returns the
empty list, whatever the other argument is. -/
theorem directoryDiff_empty (s : Str) :
    directoryDiff [] s = some [] ∧ directoryDiff s [] = some [] := by
  simp [directoryDiff]

/-! ## From a key back to the virtual path -/

theorem replaceFirst_at_start (old rest new : Str) (h : old ≠ []) :
    replaceFirst (old ++ rest) old new = new ++ rest := by
  cases old with
  | nil => exact absurd rfl h
  | cons c cs =>
    rw [List.cons_append, replaceFirst]
    have : hasPrefix (c :: (cs ++ rest)) (c :: cs) = true := by
      rw [hasPrefix_iff]
      exact ⟨rest, rfl⟩
    rw [if_pos this]
    simp

theorem replaceFirst_empty (s new : Str) : replaceFirst s [] new = new ++ s := by
  cases s with
  | nil => simp [replaceFirst]
  | cons c cs => simp [replaceFirst, hasPrefix]

theorem trimLeft_slash_of_head (q : Str) (h : q.head? ≠ some '/') : trimLeft q ['/'] = q := by
  cases q with
  | nil => rfl
  | cons c cs =>
    have hc : c ≠ '/' := by simpa using h
    simp [trimLeft, List.dropWhile_cons, hc]

/-- The key of a virtual path is the key of the root followed by the path, when
the root directory does not trim to nothing. -/
theorem s3Path_of_root (d : Driver) (p : Str) (h : trimRight d.RootDirectory ['/'] ≠ []) :
    d.s3Path [] ≠ [] ∧ d.s3Path p = d.s3Path [] ++ p := by
  unfold Driver.s3Path trimLeft
  rw [List.append_nil]
  have hlast := List.rdropWhile_last_not (fun c => decide (c ∈ ['/'])) d.RootDirectory h
  have hne : List.dropWhile (fun c => decide (c ∈ ['/'])) (trimRight d.RootDirectory ['/']) ≠ [] := by
    intro hnil
    rw [List.dropWhile_eq_nil_iff] at hnil
    exact hlast (hnil _ (List.getLast_mem h))
  refine ⟨hne, ?_⟩
  rw [List.dropWhile_append]
  have : (List.dropWhile (fun c => decide (c ∈ ['/'])) (trimRight d.RootDirectory ['/'])).isEmpty
      = false := by
    cases hh : List.dropWhile (fun c => decide (c ∈ ['/'])) (trimRight d.RootDirectory ['/']) with
    | nil => exact absurd hh hne
    | cons _ _ => rfl
  rw [this]
  simp

theorem s3Path_of_no_root (d : Driver) (p : Str) (h : trimRight d.RootDirectory ['/'] = []) :
    d.s3Path p = trimLeft p ['/'] := by
  unfold Driver.s3Path
  rw [h, List.nil_append]

/-- C12: for every root directory and every virtual path that begins with exactly
one `/`, replacing the first occurrence of `s3Path("")` in `s3Path(p)` by the list
prefix gives back `p`, which begins with `/`. -/
theorem keyToPath_s3Path (d : Driver) (p : Str) (h1 : p.head? = some '/')
    (h2 : p.tail.head? ≠ some '/') :
    replaceFirst (d.s3Path p) (d.s3Path []) (if d.s3Path [] = [] then ['/'] else []) = p ∧
    (replaceFirst (d.s3Path p) (d.s3Path []) (if d.s3Path [] = [] then ['/'] else [])).head?
      = some '/' := by
  have key : replaceFirst (d.s3Path p) (d.s3Path []) (if d.s3Path [] = [] then ['/'] else [])
      = p := by
    by_cases h : trimRight d.RootDirectory ['/'] = []
    · have e0 : d.s3Path [] = [] := by rw [s3Path_of_no_root d [] h]; rfl
      rw [e0, s3Path_of_no_root d p h, if_pos rfl, replaceFirst_empty]
      cases p with
      | nil => simp at h1
      | cons c q =>
        have hc : c = '/' := by simpa using h1
        subst hc
        have : trimLeft ('/' :: q) ['/'] = trimLeft q ['/'] := by
          simp [trimLeft, List.dropWhile_cons]
        rw [this, trimLeft_slash_of_head q (by simpa using h2)]
        rfl
    · obtain ⟨hne, e⟩ := s3Path_of_root d p h
      rw [e, if_neg hne, replaceFirst_at_start _ _ _ hne]
      rfl
  exact ⟨key, by rw [key]; exact h1⟩

theorem keyToPath_s3Path_witness :
    replaceFirst ((rootDriver "/registry/".toList (.ok (.ok []))).s3Path "/docker/x".toList)
      ((rootDriver "/registry/".toList (.ok (.ok []))).s3Path [])
      (if (rootDriver "/registry/".toList (.ok (.ok []))).s3Path [] = [] then ['/'] else [])
      = "/docker/x".toList ∧
    (replaceFirst ((rootDriver "/registry/".toList (.ok (.ok []))).s3Path "/docker/x".toList)
      ((rootDriver "/registry/".toList (.ok (.ok []))).s3Path [])
      (if (rootDriver "/registry/".toList (.ok (.ok []))).s3Path [] = [] then ['/'] else [])).head?
      = some '/' :=
  keyToPath_s3Path (rootDriver "/registry/".toList (.ok (.ok []))) "/docker/x".toList
    (by decide) (by decide)

/-! ## Reads: invalid ranges, store failures, pointer paths -/

theorem parseError_eq (path : Str) (err : GoError) :
    parseError path err = if err.hasCode noSuchKey = true then .PathNotFoundError path else err := by
  cases err <;> simp [parseError, GoError.hasCode, noSuchKey]

theorem ConvertPath_outside_prefix_eq (d : Driver) (p : Str)
    (hp : hasPrefix p managedPrefix = false) : d.ConvertPath p = .returned (p, none) := by
  simp [Driver.ConvertPath, hp]

/-- What `Reader` does once the path is translated, by the answer of the store. -/
theorem Reader_of_answer (d : Driver) (path key : Str) (offset : Int)
    (hconv : d.ConvertPath path = .returned (key, none)) :
    d.Reader path offset =
      ([⟨d.Bucket, d.s3Path key, offset⟩],
        match d.GetObject ⟨d.Bucket, d.s3Path key, offset⟩ with
        | .ok body => .returned (.ok body)
        | .error err =>
          if err.hasCode invalidRange = true then .returned (.ok (.ok []))
          else .returned (.error (parseError key err))) := by
  unfold Driver.Reader
  rw [hconv]
  simp only
  cases hg : d.GetObject ⟨d.Bucket, d.s3Path key, offset⟩ with
  | ok body => rfl
  | error err =>
    cases err with
    | awsError code msg =>
      simp only [GoError.hasCode, invalidRange, beq_iff_eq]
      by_cases h : code = "InvalidRange".toList
      · rw [if_pos h, if_pos h]
      · rw [if_neg h, if_neg h]
    | _ => simp [GoError.hasCode]

/-- A translated key is not under the managed prefix: its fourth byte is `/`. -/
theorem ConvertPath_key (d : Driver) (path key : Str)
    (hconv : d.ConvertPath path = .returned (key, none)) :
    d.ConvertPath key = .returned (key, none) := by
  unfold Driver.ConvertPath at hconv
  by_cases hp : hasPrefix path managedPrefix = true
  · simp only [hp, Bool.not_true, Bool.false_eq_true, if_false] at hconv
    generalize mapIndex d.ArtifactoryMetadata (trimPrefix path trimmedPrefix) = F at hconv
    unfold sha1path at hconv
    by_cases hlen : 2 ≤ F.length
    · simp only [hlen, if_true] at hconv
      have hk : key = '/' :: (F.take 2 ++ ['/'] ++ F) := by
        injection hconv with h
        exact (Prod.mk.inj h).1.symm
      have hnot : hasPrefix key managedPrefix = false := by
        rw [hk]
        match F, hlen with
        | a :: b :: F', _ =>
          rw [hasPrefix_eq_false_iff]
          intro h
          have : 'c' = '/' := by
            have h' := h
            simp [managedPrefix] at h'
          exact absurd this (by decide)
      simp [Driver.ConvertPath, hnot]
    · simp [hlen] at hconv
  · have hp' : hasPrefix path managedPrefix = false := by simpa using hp
    simp only [hp', Bool.not_false, if_true] at hconv
    have hk : key = path := by
      injection hconv with h
      exact (Prod.mk.inj h).1.symm
    rw [hk]
    simp [Driver.ConvertPath, hp']

/-- What `GetContent` does on a path that does not end in `link`, once the path is
translated: it is the read of the translated key from the start. -/
theorem GetContent_of_read (d : Driver) (path key : Str)
    (hconv : d.ConvertPath path = .returned (key, none))
    (hlink : hasSuffix path "link".toList = false) :
    d.GetContent path =
      ([⟨d.Bucket, d.s3Path key, 0⟩],
        match d.GetObject ⟨d.Bucket, d.s3Path key, 0⟩ with
        | .ok body => .returned body
        | .error err =>
          if err.hasCode invalidRange = true then .returned (.ok [])
          else .returned (.error (parseError key err))) := by
  unfold Driver.GetContent
  rw [hconv]
  simp only [hlink, Bool.false_eq_true, if_false]
  rw [Reader_of_answer d key key 0 (ConvertPath_key d path key hconv)]
  cases d.GetObject ⟨d.Bucket, d.s3Path key, 0⟩ with
  | ok body => rfl
  | error err =>
    simp only
    by_cases h : err.hasCode invalidRange = true
    · simp [h]
    · simp [h]

/-- C15: when the path is translated and the store answers the ranged read of the
translated key with an error whose code is `InvalidRange`, `Reader` returns a
reader that yields no bytes and no error, at every offset; and when the store
answers so at offset 0 and the path does not end in `link`, `GetContent` returns
the empty byte sequence and no error. -/
theorem Reader_invalidRange (d : Driver) (path key : Str) (offset : Int)
    (hconv : d.ConvertPath path = .returned (key, none)) :
    ((∃ err, d.GetObject ⟨d.Bucket, d.s3Path key, offset⟩ = .error err ∧
        err.hasCode invalidRange = true) →
      d.Reader path offset = ([⟨d.Bucket, d.s3Path key, offset⟩], .returned (.ok (.ok [])))) ∧
    ((∃ err, d.GetObject ⟨d.Bucket, d.s3Path key, 0⟩ = .error err ∧
        err.hasCode invalidRange = true) →
      hasSuffix path "link".toList = false →
      d.GetContent path = ([⟨d.Bucket, d.s3Path key, 0⟩], .returned (.ok []))) := by
  constructor
  · rintro ⟨err, h1, h2⟩
    rw [Reader_of_answer d path key offset hconv, h1]
    simp [h2]
  · rintro ⟨err, h1, h2⟩ hlink
    rw [GetContent_of_read d path key hconv hlink, h1]
    simp [h2]

theorem Reader_invalidRange_witness :
    (rootDriver [] (.error (.awsError invalidRange []))).Reader "/blobs/data".toList 4096 =
      ([⟨(rootDriver [] (.error (.awsError invalidRange []))).Bucket,
        (rootDriver [] (.error (.awsError invalidRange []))).s3Path "/blobs/data".toList, 4096⟩],
        .returned (.ok (.ok []))) ∧
    (rootDriver [] (.error (.awsError invalidRange []))).GetContent "/blobs/data".toList =
      ([⟨(rootDriver [] (.error (.awsError invalidRange []))).Bucket,
        (rootDriver [] (.error (.awsError invalidRange []))).s3Path "/blobs/data".toList, 0⟩],
        .returned (.ok [])) :=
  ⟨(Reader_invalidRange (rootDriver [] (.error (.awsError invalidRange [])))
      "/blobs/data".toList "/blobs/data".toList 4096 (by decide)).1 ⟨_, rfl, by decide⟩,
   (Reader_invalidRange (rootDriver [] (.error (.awsError invalidRange [])))
      "/blobs/data".toList "/blobs/data".toList 4096 (by decide)).2 ⟨_, rfl, by decide⟩
      (by decide)⟩

/-- C16, as the claim states it, fails: the store fails a read with the code
`AccessDenied`, which is not `NoSuchKey`, and `Reader` returns that very error,
which carries no path. -/
theorem Reader_failure_not_wrapped :
    (GoError.awsError "AccessDenied".toList "denied".toList).hasCode noSuchKey = false ∧
    ((rootDriver [] (.error (.awsError "AccessDenied".toList "denied".toList))).Reader
      "/blobs/data".toList 0).2
      = .returned (.error (.awsError "AccessDenied".toList "denied".toList)) ∧
    (GoError.awsError "AccessDenied".toList "denied".toList).pathOf = none :=
  ⟨by decide, rfl, rfl⟩

/-- The first list request of `List` fails: the failure goes through
`parseError` with the requested path. -/
theorem List_first_failure (d : Driver) (opath : Str) (err : GoError)
    (rest : List (Except GoError ListObjectsV2Output)) (hop : opath ≠ []) :
    (d.List (.error err :: rest) opath).2 = some (.returned (.error (parseError opath err))) := by
  unfold Driver.List
  rw [if_neg hop]

/-- C16, amended: a failure of the store on the read of `Reader` (other than
`InvalidRange`) is returned unchanged when its code is not `NoSuchKey`, and as a
`PathNotFoundError` carrying the path given to `Reader` when its code is
`NoSuchKey` and the path is outside the managed prefix; a failure of the store on
the first list request of `List`, whatever the reads of the store do, is returned
unchanged when its code is not `NoSuchKey`, and as a `PathNotFoundError` carrying
the requested path when its code is `NoSuchKey`. -/
theorem store_failure_returned (d : Driver) (path key : Str) (offset : Int)
    (readErr listErr : GoError) (opath : Str)
    (rest : List (Except GoError ListObjectsV2Output)) :
    (d.ConvertPath path = .returned (key, none) →
      d.GetObject ⟨d.Bucket, d.s3Path key, offset⟩ = .error readErr →
      readErr.hasCode invalidRange = false →
      (readErr.hasCode noSuchKey = false →
        (d.Reader path offset).2 = .returned (.error readErr)) ∧
      (readErr.hasCode noSuchKey = true → hasPrefix path managedPrefix = false →
        (d.Reader path offset).2 = .returned (.error (.PathNotFoundError path)))) ∧
    (opath ≠ [] →
      (listErr.hasCode noSuchKey = false →
        (d.List (.error listErr :: rest) opath).2 = some (.returned (.error listErr))) ∧
      (listErr.hasCode noSuchKey = true →
        (d.List (.error listErr :: rest) opath).2
          = some (.returned (.error (.PathNotFoundError opath))))) := by
  constructor
  · intro hconv hstore hrange
    have hR : (d.Reader path offset).2 = .returned (.error (parseError key readErr)) := by
      rw [Reader_of_answer d path key offset hconv, hstore]
      simp [hrange]
    rw [parseError_eq] at hR
    constructor
    · intro h
      rw [h] at hR
      exact hR
    · intro h hp
      rw [h] at hR
      have hk : key = path := by
        rw [ConvertPath_outside_prefix_eq d path hp] at hconv
        injection hconv with h'
        exact (Prod.mk.inj h').1.symm
      rw [hR, hk]
      rfl
  · intro hop
    have hL := List_first_failure d opath listErr rest hop
    rw [parseError_eq] at hL
    constructor
    · intro h
      rw [h] at hL
      exact hL
    · intro h
      rw [h] at hL
      exact hL

theorem store_failure_returned_witness :
    (((rootDriver [] (.error (.awsError "AccessDenied".toList []))).Reader
        "/blobs/data".toList 7).2 = .returned (.error (.awsError "AccessDenied".toList [])) ∧
      ((rootDriver [] (.error (.awsError noSuchKey []))).Reader "/blobs/data".toList 7).2
        = .returned (.error (.PathNotFoundError "/blobs/data".toList))) ∧
    (((rootDriver [] (.ok (.ok []))).List
        [.error (.awsError invalidRange [])] "/blobs".toList).2
        = some (.returned (.error (.awsError invalidRange []))) ∧
      ((rootDriver [] (.ok (.ok []))).List
        [.error (.awsError noSuchKey [])] "/blobs".toList).2
        = some (.returned (.error (.PathNotFoundError "/blobs".toList)))) :=
  ⟨⟨((store_failure_returned (rootDriver [] (.error (.awsError "AccessDenied".toList [])))
        "/blobs/data".toList "/blobs/data".toList 7 (.awsError "AccessDenied".toList [])
        (.awsError invalidRange []) "/blobs".toList []).1 (by decide) rfl (by decide)).1
        (by decide),
     ((store_failure_returned (rootDriver [] (.error (.awsError noSuchKey [])))
        "/blobs/data".toList "/blobs/data".toList 7 (.awsError noSuchKey [])
        (.awsError noSuchKey []) "/blobs".toList []).1 (by decide) rfl (by decide)).2
        (by decide) (by decide)⟩,
   ⟨((store_failure_returned (rootDriver [] (.ok (.ok [])))
        "/blobs/data".toList "/blobs/data".toList 7 (.awsError "AccessDenied".toList [])
        (.awsError invalidRange []) "/blobs".toList []).2 (by decide)).1 (by decide),
    ((store_failure_returned (rootDriver [] (.ok (.ok [])))
        "/blobs/data".toList "/blobs/data".toList 7 (.awsError "AccessDenied".toList [])
        (.awsError noSuchKey []) "/blobs".toList []).2 (by decide)).2 (by decide)⟩⟩

/-! ## The operations that are not implemented -/

/-- C17: `PutContent`, `Writer`, `Move` and `Delete` return the error
`not implemented` for every argument, issue no store request and leave the
driver as it was; `Writer` returns no writer. -/
theorem mutations_not_implemented (d : Driver) (path contents sourcePath destPath : Str)
    (appendParam : Bool) :
    d.PutContent path contents = ([], d, some (.errorString "not implemented".toList)) ∧
    d.Writer path appendParam = ([], d, none, some (.errorString "not implemented".toList)) ∧
    d.Move sourcePath destPath = ([], d, some (.errorString "not implemented".toList)) ∧
    d.Delete path = ([], d, some (.errorString "not implemented".toList)) :=
  ⟨rfl, rfl, rfl, rfl⟩

/-- C19: on the path `/docker/registry/v2/repositories/app/symlink`, whose last
component is `symlink` and not `link`, `GetContent` issues no read and returns
the synthesized `sha256:` string of the mapped fragment. -/
theorem GetContent_symlink_synthesized :
    hasSuffix "/docker/registry/v2/repositories/app/symlink".toList "/link".toList = false ∧
    (exampleDriver [("/repositories/app/symlink".toList, "3f9ac0".toList)]).GetContent
        "/docker/registry/v2/repositories/app/symlink".toList
      = ([], .returned (.ok "sha256:3f9ac0".toList)) :=
  ⟨by decide, rfl⟩

/-! ## Listing one level -/

theorem appendDirectories_cases (d : Driver) (cps : List Str) :
    ∀ dirs, (d.appendDirectories cps dirs = .panicked ∧ ∃ cp ∈ cps, cp = []) ∨
      ((∀ cp ∈ cps, cp ≠ []) ∧
        d.appendDirectories cps dirs =
          .returned (dirs ++ cps.map (fun cp => d.keyToPath cp.dropLast))) := by
  induction cps with
  | nil => intro dirs; right; simp [Driver.appendDirectories]
  | cons cp cps ih =>
    intro dirs
    by_cases h : cp = []
    · left
      subst h
      exact ⟨by simp [Driver.appendDirectories, dropLastByte], [], by simp, rfl⟩
    · have e : d.appendDirectories (cp :: cps) dirs
          = d.appendDirectories cps (dirs ++ [d.keyToPath cp.dropLast]) := by
        simp [Driver.appendDirectories, dropLastByte, h]
      rw [e]
      rcases ih (dirs ++ [d.keyToPath cp.dropLast]) with ⟨h1, x, hx, hx'⟩ | ⟨h1, h2⟩
      · exact Or.inl ⟨h1, x, List.mem_cons_of_mem _ hx, hx'⟩
      · right
        refine ⟨?_, by rw [h2]; simp⟩
        intro x hx
        rcases List.mem_cons.1 hx with rfl | hx
        · exact h
        · exact h1 x hx

theorem listLoop_panic (d : Driver) (path : Str) (p : ListObjectsV2Output)
    (answers : List (Except GoError ListObjectsV2Output)) (files dirs : List Str)
    (reqs : List ListObjectsV2Input)
    (h : d.appendDirectories p.CommonPrefixes dirs = .panicked) :
    d.listLoop path p answers files dirs reqs = (reqs, some .panicked) := by
  conv_lhs => unfold Driver.listLoop
  dsimp only
  split <;> simp_all

theorem listLoop_break (d : Driver) (path : Str) (p : ListObjectsV2Output)
    (answers : List (Except GoError ListObjectsV2Output)) (files dirs D : List Str)
    (reqs : List ListObjectsV2Input)
    (h : d.appendDirectories p.CommonPrefixes dirs = .returned D)
    (ht : p.IsTruncated = false) :
    d.listLoop path p answers files dirs reqs =
      (reqs, some (.returned (.ok
        (files ++ p.Contents.map (fun key => d.keyToPath key.Key), D)))) := by
  conv_lhs => unfold Driver.listLoop
  dsimp only
  split <;> simp_all

theorem listLoop_next (d : Driver) (path : Str) (p q : ListObjectsV2Output)
    (more : List (Except GoError ListObjectsV2Output)) (files dirs D : List Str)
    (reqs : List ListObjectsV2Input)
    (h : d.appendDirectories p.CommonPrefixes dirs = .returned D)
    (ht : p.IsTruncated = true) :
    d.listLoop path p (.ok q :: more) files dirs reqs =
      d.listLoop path q more (files ++ p.Contents.map (fun key => d.keyToPath key.Key)) D
        (reqs ++ [⟨d.Bucket, d.s3Path path, some ['/'], listMax, p.NextContinuationToken⟩]) := by
  conv_lhs => unfold Driver.listLoop
  dsimp only
  split <;> simp_all

/-- The loop of `List` over a sequence of pages: it panics on an empty common
prefix, and otherwise leaves the loop with the keys of all pages and then the
common prefixes of all pages, converted. -/
theorem listLoop_pages (d : Driver) (path : Str) :
    ∀ (more : List ListObjectsV2Output) (p : ListObjectsV2Output) (files dirs : List Str)
      (reqs : List ListObjectsV2Input), pageSequence (p :: more) = true →
      ((d.listLoop path p (more.map .ok) files dirs reqs).2 = some .panicked ∧
        ∃ cp ∈ pageCommonPrefixes (p :: more), cp = []) ∨
      ((∀ cp ∈ pageCommonPrefixes (p :: more), cp ≠ []) ∧
        (d.listLoop path p (more.map .ok) files dirs reqs).2 =
          some (.returned (.ok
            (files ++ (pageKeys (p :: more)).map d.keyToPath,
             dirs ++ (pageCommonPrefixes (p :: more)).map
               (fun cp => d.keyToPath cp.dropLast))))) := by
  intro more
  induction more with
  | nil =>
    intro p files dirs reqs hseq
    have ht : p.IsTruncated = false := by simpa [pageSequence] using hseq
    rcases appendDirectories_cases d p.CommonPrefixes dirs with ⟨h1, x, hx, hx'⟩ | ⟨h1, h2⟩
    · left
      rw [listLoop_panic d path p _ files dirs reqs h1]
      exact ⟨rfl, x, by simpa [pageCommonPrefixes] using hx, hx'⟩
    · right
      refine ⟨by simpa [pageCommonPrefixes] using h1, ?_⟩
      rw [listLoop_break d path p _ files dirs _ reqs h2 ht]
      simp [pageKeys, pageCommonPrefixes, List.map_map, Function.comp_def]
  | cons q more ih =>
    intro p files dirs reqs hseq
    have ht : p.IsTruncated = true ∧ pageSequence (q :: more) = true := by
      simpa [pageSequence] using hseq
    rcases appendDirectories_cases d p.CommonPrefixes dirs with ⟨h1, x, hx, hx'⟩ | ⟨h1, h2⟩
    · left
      rw [listLoop_panic d path p _ files dirs reqs h1]
      refine ⟨rfl, x, ?_, hx'⟩
      simp only [pageCommonPrefixes, List.flatMap_cons, List.mem_append]
      exact Or.inl hx
    · rw [List.map_cons, listLoop_next d path p q _ files dirs _ reqs h2 ht.1]
      rcases ih q (files ++ p.Contents.map (fun key => d.keyToPath key.Key))
        (dirs ++ p.CommonPrefixes.map (fun cp => d.keyToPath cp.dropLast))
        (reqs ++ [⟨d.Bucket, d.s3Path path, some ['/'], listMax, p.NextContinuationToken⟩])
        ht.2 with ⟨h3, x, hx, hx'⟩ | ⟨h3, h4⟩
      · left
        refine ⟨h3, x, ?_, hx'⟩
        simp only [pageCommonPrefixes, List.flatMap_cons, List.mem_append] at hx ⊢
        exact Or.inr hx
      · right
        constructor
        · intro x hx
          simp only [pageCommonPrefixes, List.flatMap_cons, List.mem_append] at hx
          rcases hx with hx | hx
          · exact h1 x hx
          · exact h3 x (by simpa [pageCommonPrefixes] using hx)
        · rw [h4]
          simp [pageKeys, pageCommonPrefixes, List.map_map, Function.comp_def,
            List.append_assoc]

/-- What `List` returns over a sequence of pages, for a non-empty path. -/
theorem List_pages (d : Driver) (pages : List ListObjectsV2Output) (opath : Str)
    (hseq : pageSequence pages = true) (hop : opath ≠ []) :
    ((d.List (pages.map .ok) opath).2 = some .panicked ∧
      ∃ cp ∈ pageCommonPrefixes pages, cp = []) ∨
    ((∀ cp ∈ pageCommonPrefixes pages, cp ≠ []) ∧
      (d.List (pages.map .ok) opath).2 =
        if opath ≠ ['/'] ∧ pageKeys pages = [] ∧ pageCommonPrefixes pages = [] then
          some (.returned (.error (.PathNotFoundError opath)))
        else some (.returned (.ok ((pageKeys pages).map d.keyToPath ++
          (pageCommonPrefixes pages).map (fun cp => d.keyToPath cp.dropLast))))) := by
  cases pages with
  | nil => simp [pageSequence] at hseq
  | cons p more =>
    unfold Driver.List
    rw [if_neg hop, List.map_cons]
    simp only
    generalize hpath : (if opath ≠ ['/'] ∧ opath.getLast? ≠ some '/' then opath ++ ['/']
      else opath) = path
    rcases listLoop_pages d path more p [] [] [⟨d.Bucket, d.s3Path path, some ['/'], listMax, none⟩]
      hseq with ⟨h1, hx⟩ | ⟨h1, h2⟩
    · left
      refine ⟨?_, hx⟩
      generalize d.listLoop path p (more.map .ok) [] []
        [⟨d.Bucket, d.s3Path path, some ['/'], listMax, none⟩] = r at h1
      obtain ⟨reqs, res⟩ := r
      simp only at h1
      subst h1
      rfl
    · right
      refine ⟨h1, ?_⟩
      generalize d.listLoop path p (more.map .ok) [] []
        [⟨d.Bucket, d.s3Path path, some ['/'], listMax, none⟩] = r at h2
      obtain ⟨reqs, res⟩ := r
      simp only at h2
      subst h2
      simp only [List.nil_append, List.length_eq_zero, List.map_eq_nil_iff]
      by_cases hc : opath ≠ ['/'] ∧ pageKeys (p :: more) = [] ∧ pageCommonPrefixes (p :: more) = []
      · rw [if_pos hc, if_pos hc]
      · rw [if_neg hc, if_neg hc]

theorem ne_nil_of_hasSuffix_slash (cp : Str) (h : hasSuffix cp ['/'] = true) : cp ≠ [] := by
  rintro rfl
  simp [hasSuffix] at h

/-- C11: for a non-empty path and a sequence of successful listing pages,
`List` returns the NotFound error for the requested path exactly when the path
is not `/` and the pages hold no object key and no common prefix; `List("/")`
over pages without keys and common prefixes returns the empty list and no error. -/
theorem List_not_found_iff (d : Driver) (pages : List ListObjectsV2Output) (opath : Str)
    (hseq : pageSequence pages = true) (hop : opath ≠ []) :
    ((d.List (pages.map .ok) opath).2 = some (.returned (.error (.PathNotFoundError opath))) ↔
      (opath ≠ ['/'] ∧ pageKeys pages = [] ∧ pageCommonPrefixes pages = [])) ∧
    (opath = ['/'] → pageKeys pages = [] → pageCommonPrefixes pages = [] →
      (d.List (pages.map .ok) opath).2 = some (.returned (.ok []))) := by
  rcases List_pages d pages opath hseq hop with ⟨h1, x, hx, hx'⟩ | ⟨_, h2⟩
  · refine ⟨⟨fun h => ?_, fun h => ?_⟩, fun _ _ h => ?_⟩
    · rw [h1] at h
      cases h
    · rw [h.2.2] at hx
      cases hx
    · rw [h] at hx
      cases hx
  · rw [h2]
    by_cases hc : opath ≠ ['/'] ∧ pageKeys pages = [] ∧ pageCommonPrefixes pages = []
    · rw [if_pos hc]
      exact ⟨⟨fun _ => hc, fun _ => rfl⟩, fun h => absurd h hc.1⟩
    · rw [if_neg hc]
      refine ⟨⟨fun h => ?_, fun h => absurd h hc⟩, fun _ hk hp => ?_⟩
      · cases h
      · rw [hk, hp]
        rfl

theorem List_not_found_iff_witness :
    ((rootDriver [] (.ok (.ok []))).List [.ok (examplePage [] [] false)] "/a".toList).2
        = some (.returned (.error (.PathNotFoundError "/a".toList))) ∧
    ((rootDriver [] (.ok (.ok []))).List [.ok (examplePage [] [] false)] "/".toList).2
        = some (.returned (.ok [])) :=
  ⟨(List_not_found_iff (rootDriver [] (.ok (.ok []))) [examplePage [] [] false] "/a".toList
      (by decide) (by decide)).1.2 ⟨by decide, rfl, rfl⟩,
   (List_not_found_iff (rootDriver [] (.ok (.ok []))) [examplePage [] [] false] "/".toList
      (by decide) (by decide)).2 rfl rfl rfl⟩

/-- C20, as the claim states it, fails: over one successful page without keys and common
prefixes, `List("/a")` does not return the empty list: it returns the NotFound
error of `/a`. -/
theorem List_empty_page_not_found :
    pageSequence [examplePage [] [] false] = true ∧
    ((rootDriver [] (.ok (.ok []))).List [.ok (examplePage [] [] false)] "/a".toList).2
      ≠ some (.returned (.ok [])) ∧
    ((rootDriver [] (.ok (.ok []))).List [.ok (examplePage [] [] false)] "/a".toList).2
      = some (.returned (.error (.PathNotFoundError "/a".toList))) := by
  have e : ((rootDriver [] (.ok (.ok []))).List [.ok (examplePage [] [] false)] "/a".toList).2
      = some (.returned (.error (.PathNotFoundError "/a".toList))) := rfl
  refine ⟨rfl, ?_, e⟩
  rw [e]
  intro h
  cases h

/-- C20, amended: for a sequence of successful listing pages whose common
prefixes end with `/`, when the path is `/` or the pages hold at least one key
or common prefix, `List` returns without error first every object key of every
page, in page order, converted to a virtual path, then every common prefix of
every page, in page order, converted to a virtual path with its trailing `/`
removed; the length of the result is the number of keys plus the number of
common prefixes. -/
theorem List_children (d : Driver) (pages : List ListObjectsV2Output) (opath : Str)
    (hseq : pageSequence pages = true) (hop : opath ≠ [])
    (hcp : ∀ cp ∈ pageCommonPrefixes pages, hasSuffix cp ['/'] = true)
    (hne : opath = ['/'] ∨ pageKeys pages ≠ [] ∨ pageCommonPrefixes pages ≠ []) :
    (d.List (pages.map .ok) opath).2 = some (.returned (.ok
      ((pageKeys pages).map d.keyToPath ++
        (pageCommonPrefixes pages).map (fun cp => d.keyToPath (withoutTrailingSlash cp))))) ∧
    ((pageKeys pages).map d.keyToPath ++
        (pageCommonPrefixes pages).map (fun cp => d.keyToPath (withoutTrailingSlash cp))).length
      = (pageKeys pages).length + (pageCommonPrefixes pages).length := by
  refine ⟨?_, by simp⟩
  have hmap : (pageCommonPrefixes pages).map (fun cp => d.keyToPath (withoutTrailingSlash cp))
      = (pageCommonPrefixes pages).map (fun cp => d.keyToPath cp.dropLast) := by
    apply List.map_congr_left
    intro cp hmem
    simp only [withoutTrailingSlash, hcp cp hmem, if_true]
  rcases List_pages d pages opath hseq hop with ⟨_, x, hx, hx'⟩ | ⟨_, h2⟩
  · exact absurd hx' (ne_nil_of_hasSuffix_slash x (hcp x hx))
  · rw [h2, hmap, if_neg]
    rintro ⟨h1, hk, hp⟩
    rcases hne with h | h | h
    · exact h1 h
    · exact h hk
    · exact h hp

theorem List_children_witness :
    ((rootDriver "/registry/".toList (.ok (.ok []))).List
      [.ok (examplePage ["registry/a/x".toList] ["registry/a/b/".toList] true),
       .ok (examplePage ["registry/a/y".toList] ["registry/a/c/".toList] false)] "/a".toList).2
      = some (.returned (.ok ["/a/x".toList, "/a/y".toList, "/a/b".toList, "/a/c".toList])) :=
  (List_children (rootDriver "/registry/".toList (.ok (.ok [])))
    [examplePage ["registry/a/x".toList] ["registry/a/b/".toList] true,
     examplePage ["registry/a/y".toList] ["registry/a/c/".toList] false] "/a".toList
    (by decide) (by decide) (by decide) (by decide)).1

/-! ## The calls of a walk under a visitor that always continues -/

theorem walkCallsSpec_some (d : Driver) :
    ∀ (objs : List S3Object) (p : Str) (E : List FileInfo), walkCallsSpec d p objs = some E →
      E = d.entriesFrom p objs ∧
      ∀ acc, pageWalkInfos d p objs acc = some (acc ++ E, d.prevDirAfter p objs) := by
  intro objs
  induction objs with
  | nil =>
    intro p E h
    simp only [walkCallsSpec, Option.some.injEq] at h
    subst h
    exact ⟨rfl, fun acc => by simp [pageWalkInfos, Driver.prevDirAfter]⟩
  | cons o os ih =>
    intro p E h
    rw [walkCallsSpec] at h
    cases hdd : directoryDiff p (d.keyToPath o.Key) with
    | none => rw [hdd] at h; cases h
    | some dirs =>
      rw [hdd] at h
      simp only at h
      cases hrec : walkCallsSpec d (dirs.getLastD p) os with
      | none => rw [hrec] at h; cases h
      | some rest =>
        rw [hrec] at h
        simp only [Option.some.injEq] at h
        subst h
        obtain ⟨h1, h2⟩ := ih _ _ hrec
        have hd : dirsOf p (d.keyToPath o.Key) = dirs := by simp [dirsOf, hdd]
        have hn : nextPrevDir p (d.keyToPath o.Key) = dirs.getLastD p := by
          simp [nextPrevDir, hd]
        refine ⟨?_, fun acc => ?_⟩
        · rw [Driver.entriesFrom, hd, hn, ← h1]
          rfl
        · rw [pageWalkInfos]
          simp only [hdd, foldl_dirs]
          rw [h2, Driver.prevDirAfter, hn]
          simp [fileInfo]

theorem walkCallsSpec_none (d : Driver) :
    ∀ (objs : List S3Object) (p : Str), walkCallsSpec d p objs = none →
      ∀ acc, pageWalkInfos d p objs acc = none := by
  intro objs
  induction objs with
  | nil => intro p h; simp [walkCallsSpec] at h
  | cons o os ih =>
    intro p h acc
    rw [walkCallsSpec] at h
    rw [pageWalkInfos]
    cases hdd : directoryDiff p (d.keyToPath o.Key) with
    | none => rfl
    | some dirs =>
      rw [hdd] at h
      simp only at h
      simp only [foldl_dirs]
      cases hrec : walkCallsSpec d (dirs.getLastD p) os with
      | none => exact ih _ hrec _
      | some rest => rw [hrec] at h; cases h

theorem walkCallsSpec_append (d : Driver) (B : List S3Object) :
    ∀ (A : List S3Object) (p : Str), walkCallsSpec d p (A ++ B) =
      (walkCallsSpec d p A).bind (fun E1 =>
        (walkCallsSpec d (d.prevDirAfter p A) B).map (fun E2 => E1 ++ E2)) := by
  intro A
  induction A with
  | nil =>
    intro p
    cases h : walkCallsSpec d p B <;> simp [walkCallsSpec, Driver.prevDirAfter, h]
  | cons o os ih =>
    intro p
    rw [List.cons_append, walkCallsSpec, walkCallsSpec]
    cases hdd : directoryDiff p (d.keyToPath o.Key) with
    | none => rfl
    | some dirs =>
      have hn : nextPrevDir p (d.keyToPath o.Key) = dirs.getLastD p := by
        simp [nextPrevDir, dirsOf, hdd]
      simp only
      rw [ih, Driver.prevDirAfter, hn]
      cases walkCallsSpec d (dirs.getLastD p) os with
      | none => rfl
      | some rest =>
        simp only [Option.some_bind]
        cases walkCallsSpec d (d.prevDirAfter (dirs.getLastD p) os) B with
        | none => rfl
        | some E2 => simp

theorem entriesFrom_files (d : Driver) :
    ∀ (objs : List S3Object) (p : Str),
      (d.entriesFrom p objs).filter (fun e => !e.IsDir) =
        objs.map (fun o => fileInfo (d.keyToPath o.Key) o) := by
  intro objs
  induction objs with
  | nil => intro p; rfl
  | cons o os ih =>
    intro p
    rw [Driver.entriesFrom, List.filter_append, List.filter_cons, ih]
    have h1 : ((dirsOf p (d.keyToPath o.Key)).map dirInfo).filter (fun e => !e.IsDir) = [] := by
      rw [List.filter_eq_nil_iff]
      intro e he
      obtain ⟨x, _, rfl⟩ := List.mem_map.1 he
      simp [dirInfo]
    rw [h1]
    simp [fileInfo]

/-- The pager under a visitor that always answers `nil`. -/
theorem listPages_continue_spec {σ : Type} (d : Driver) (f : WalkFn σ)
    (storeErr : Option GoError) (hcont : ∀ s e, (f s e).2 = none) :
    ∀ (pages : List (List S3Object)) (st : WalkState σ) (n : Nat), st.prevSkipDir = [] →
      (∀ E, walkCallsSpec d st.prevDir pages.flatten = some E →
        (listPages d f storeErr st pages n).1.calls = st.calls ++ E.map (fun e => (e, none)) ∧
        (listPages d f storeErr st pages n).2.2 = some storeErr ∧
        (listPages d f storeErr st pages n).1.retError = st.retError) ∧
      (walkCallsSpec d st.prevDir pages.flatten = none →
        (listPages d f storeErr st pages n).2.2 = none) := by
  intro pages
  induction pages with
  | nil =>
    intro st n _
    refine ⟨fun E h => ?_, fun h => ?_⟩
    · simp only [List.flatten_nil, walkCallsSpec, Option.some.injEq] at h
      subst h
      simp [listPages]
    · simp [walkCallsSpec] at h
  | cons page more ih =>
    intro st n hs
    rw [List.flatten_cons, walkCallsSpec_append]
    cases h1 : walkCallsSpec d st.prevDir page with
    | none =>
      refine ⟨fun E h => by simp at h, fun _ => ?_⟩
      have hw : walkPage d f st page = none := by
        rw [walkPage_eq, walkCallsSpec_none d page _ h1]
        rfl
      simp [listPages, hw]
    | some E1 =>
      obtain ⟨_, hp⟩ := walkCallsSpec_some d page _ E1 h1
      obtain ⟨v1, v2, v3, v4, v5⟩ :=
        visit_continue f hcont E1 (st.withPrevDir (d.prevDirAfter st.prevDir page)) hs
      have hw : walkPage d f st page =
          some ((visitWalkInfos f (st.withPrevDir (d.prevDirAfter st.prevDir page)) E1).1,
            true) := by
        rw [walkPage_eq, hp []]
        simp only [Option.map_some', List.nil_append, Option.some.injEq]
        exact Prod.ext rfl v1
      have hl : listPages d f storeErr st (page :: more) n =
          listPages d f storeErr
            (visitWalkInfos f (st.withPrevDir (d.prevDirAfter st.prevDir page)) E1).1 more
            (n + 1) := by
        simp [listPages, hw]
      obtain ⟨i1, i2⟩ := ih
        (visitWalkInfos f (st.withPrevDir (d.prevDirAfter st.prevDir page)) E1).1 (n + 1) v4
      rw [v5] at i1 i2
      change (∀ E, walkCallsSpec d (d.prevDirAfter st.prevDir page) more.flatten = some E → _)
        at i1
      change (walkCallsSpec d (d.prevDirAfter st.prevDir page) more.flatten = none → _) at i2
      rw [hl]
      simp only [Option.some_bind]
      refine ⟨fun E h => ?_, fun h => ?_⟩
      · obtain ⟨E2, hE2, rfl⟩ := Option.map_eq_some'.1 h
        obtain ⟨j1, j2, j3⟩ := i1 E2 hE2
        refine ⟨?_, j2, by rw [j3, v3]; rfl⟩
        rw [j1, v2]
        simp [WalkState.withPrevDir]
      · exact i2 (by simpa using h)

theorem doWalk_never {σ : Type} (d : Driver) (pages : List (List S3Object))
    (storeErr : Option GoError) (frm : Str) (f : WalkFn σ) (v : σ)
    (h : (listPages d f storeErr (initState frm v) pages 0).2.2 = none) :
    (d.doWalk pages storeErr frm f v).result = none := by
  rw [doWalk_eq]
  generalize listPages d f storeErr (initState frm v) pages 0 = x at h ⊢
  obtain ⟨st, n, le⟩ := x
  change le = none at h
  subst h
  rfl

/-- C18: with a visitor that always answers `nil`, whenever the sequence
worded by the specification exists (for each listed object in listing order, the
directory entries of `directoryDiff(prevDir, path)` in order, `prevDir` moving to
each emitted directory, starting at `from`, and then the file entry with the
object's virtual path, size and modification time), `Walk` returns the pager's
error and makes exactly these calls, over any split of the listing into pages; the
file entries among them are the listed objects, each once and in listing order.
The sequence exists when the virtual paths are clean absolute paths; when it does
not exist, `Walk` does not return. -/
theorem Walk_calls_continue {σ : Type} (d : Driver) (pages : List (List S3Object))
    (storeErr : Option GoError) (frm : Str) (f : WalkFn σ) (v : σ)
    (hcont : ∀ s e, (f s e).2 = none) :
    (∀ E, walkCallsSpec d frm pages.flatten = some E →
      (d.Walk pages storeErr frm f v).calls = E.map (fun e => (e, none)) ∧
      (d.Walk pages storeErr frm f v).result = some storeErr ∧
      E.filter (fun e => !e.IsDir) =
        pages.flatten.map (fun o => fileInfo (d.keyToPath o.Key) o)) ∧
    (walkCallsSpec d frm pages.flatten = none →
      (d.Walk pages storeErr frm f v).result = none) ∧
    ((∀ k ∈ d.walkPaths pages, isCleanAbs k = true) →
      (walkCallsSpec d frm pages.flatten).isSome = true) := by
  obtain ⟨h1, h2⟩ := listPages_continue_spec d f storeErr hcont pages (initState frm v) 0 rfl
  refine ⟨fun E hE => ?_, fun hn => ?_, fun hclean => ?_⟩
  · obtain ⟨c1, c2, c3⟩ := h1 E hE
    refine ⟨?_, ?_, ?_⟩
    · unfold Driver.Walk
      rw [doWalk_calls, c1]
      simp [initState]
    · unfold Driver.Walk
      rw [doWalk_result d pages storeErr frm f v storeErr c2, c3]
      simp [initState]
    · rw [(walkCallsSpec_some d _ _ E hE).1]
      exact entriesFrom_files d _ _
  · unfold Driver.Walk
    exact doWalk_never d pages storeErr frm f v (h2 hn)
  · cases hs : walkCallsSpec d frm pages.flatten with
    | some E => rfl
    | none =>
      have hc : ∀ o ∈ pages.flatten, isCleanAbs (d.keyToPath o.Key) = true :=
        fun o ho => hclean _ (List.mem_map_of_mem _ ho)
      have := walkCallsSpec_none d _ _ hs []
      rw [pageWalkInfos_clean d _ hc] at this
      cases this

theorem Walk_calls_continue_witness :
    ((exampleDriver []).Walk
        [[⟨"a/b/x".toList, 10, 20⟩], [⟨"a/c".toList, 30, 40⟩]] none "/".toList
        (scriptedVisitor [] [] []) ()).calls =
      [(dirInfo "/a".toList, none), (dirInfo "/a/b".toList, none),
       (⟨"/a/b/x".toList, 10, 20, false⟩, none), (⟨"/a/c".toList, 30, 40, false⟩, none)] ∧
    ((exampleDriver []).Walk
        [[⟨"a/b/x".toList, 10, 20⟩], [⟨"a/c".toList, 30, 40⟩]] none "/".toList
        (scriptedVisitor [] [] []) ()).result = some none :=
  ⟨((Walk_calls_continue (exampleDriver [])
      [[⟨"a/b/x".toList, 10, 20⟩], [⟨"a/c".toList, 30, 40⟩]] none "/".toList
      (scriptedVisitor [] [] []) () (fun _ _ => by simp [scriptedVisitor])).1
      [dirInfo "/a".toList, dirInfo "/a/b".toList, ⟨"/a/b/x".toList, 10, 20, false⟩,
        ⟨"/a/c".toList, 30, 40, false⟩] (by decide)).1,
   ((Walk_calls_continue (exampleDriver [])
      [[⟨"a/b/x".toList, 10, 20⟩], [⟨"a/c".toList, 30, 40⟩]] none "/".toList
      (scriptedVisitor [] [] []) () (fun _ _ => by simp [scriptedVisitor])).1
      [dirInfo "/a".toList, dirInfo "/a/b".toList, ⟨"/a/b/x".toList, 10, 20, false⟩,
        ⟨"/a/c".toList, 30, 40, false⟩] (by decide)).2.1⟩

/-! ## `directoryDiff` on the examples of its documentation -/

/-- C21: `directoryDiff` returns the results of its documentation when `prev` is
the path of a file. -/
theorem directoryDiff_doc_examples :
    directoryDiff "/path/to/folder/folder1/file".toList "/path/to/folder/folder2/file".toList
      = some ["/path/to/folder/folder2".toList] ∧
    directoryDiff "/path/to/folder/folder1/file".toList
        "/path/to/folder/folder2/folder1/file".toList
      = some ["/path/to/folder/folder2".toList, "/path/to/folder/folder2/folder1".toList] := by
  decide

/-! ## Construction from a parameter map -/

theorem boolParameter_error (parameters : List (Str × Param)) (name : Str) (default : Bool)
    (message : Str) (e : Errorf) (h : boolParameter parameters name default message = .error e) :
    e.format = message := by
  unfold boolParameter at h
  split at h
  · split at h
    · injection h with h; rw [← h]
    · cases h
  · cases h
  · cases h
  · injection h with h; rw [← h]

theorem getParameterAsInt64_error (rt : Runtime) (parameters : List (Str × Param)) (name : Str)
    (defaultt min max : Int) (e : Errorf)
    (h : getParameterAsInt64 rt parameters name defaultt min max = .error e) :
    e.format ≠ relativeMetadataPath := by
  unfold getParameterAsInt64 at h
  simp only [bind, Except.bind, pure, Except.pure, throw, throwThe, MonadExceptOf.throw] at h
  repeat' split at h
  all_goals first
    | (cases h; done)
    | (cases h; dsimp only; decide)

/-- When `FromParameters` returns the error on relative metadata paths, the map
holds the key `rootdirectory` with the empty string as its value. -/
theorem FromParameters_relative_error (rt : Runtime) (parameters : List (Str × Param))
    (h : FromParameters rt parameters = .error ⟨relativeMetadataPath, []⟩) :
    parameters.lookup "rootdirectory".toList = some (.str []) ∧
    hasPrefix (sprintfS (parameters.lookup "metadatapath".toList)) "../".toList = true := by
  unfold FromParameters at h
  simp only [bind, Except.bind, pure, Except.pure, throw, throwThe, MonadExceptOf.throw] at h
  repeat' split at h
  all_goals first
    | (cases h; done)
    | (injection h with h; subst h; rename_i hb
       exact absurd (boolParameter_error _ _ _ _ _ hb) (by decide))
    | (injection h with h; subst h; rename_i hb
       exact absurd rfl (getParameterAsInt64_error _ _ _ _ _ _ _ hb))
    | assumption


/-- C22: on a parameter map that is valid, has no key `rootdirectory` and has the
metadata path `../meta.json`, `FromParameters` does not return the error on
relative metadata paths: it goes on to `New` with an empty root directory and
that metadata path.  The same map with `rootdirectory` set to the empty string is
refused with that error. -/
theorem FromParameters_absent_rootdirectory (rt : Runtime) :
    exampleParameters.lookup "rootdirectory".toList = none ∧
    FromParameters rt exampleParameters = .ok
      { AccessKey := [], SecretKey := [], Bucket := "b".toList, Region := "us-east-1".toList,
        RegionEndpoint := "http://store:9000".toList, ForcePathStyle := true, Encrypt := false,
        KeyID := [], Secure := true, SkipVerify := false, V4Auth := true,
        ChunkSize := defaultChunkSize, MultipartCopyChunkSize := defaultMultipartCopyChunkSize,
        MultipartCopyMaxConcurrency := defaultMultipartCopyMaxConcurrency,
        MultipartCopyThresholdSize := defaultMultipartCopyThresholdSize,
        MultipartCombineSmallPart := true, RootDirectory := [],
        StorageClass := storageClassStandard, UserAgent := [], ObjectACL := "private".toList,
        SessionToken := "<nil>".toList, UseDualStack := false, Accelerate := false,
        MetadataPath := "../meta.json".toList } ∧
    FromParameters rt (("rootdirectory".toList, .str []) :: exampleParameters)
      = .error ⟨relativeMetadataPath, []⟩ :=
  ⟨rfl, rfl, rfl⟩

/-! ## `ConvertPath` on its own results -/

/-- C26: `ConvertPath` returns on a path exactly when the path is outside the
managed prefix or its fragment has at least two bytes; on the key it returns,
`ConvertPath` returns that key again, so `Reader` on the key does what `Reader`
on the path does. -/
theorem ConvertPath_idempotent (d : Driver) (path : Str) :
    ((∃ key, d.ConvertPath path = .returned (key, none)) ↔
      (hasPrefix path managedPrefix = false ∨
        2 ≤ (mapIndex d.ArtifactoryMetadata (trimPrefix path trimmedPrefix)).length)) ∧
    ∀ key, d.ConvertPath path = .returned (key, none) →
      d.ConvertPath key = .returned (key, none) ∧
      ∀ offset, d.Reader key offset = d.Reader path offset := by
  refine ⟨?_, fun key hconv => ⟨ConvertPath_key d path key hconv, fun offset => ?_⟩⟩
  · unfold Driver.ConvertPath sha1path
    by_cases hp : hasPrefix path managedPrefix = true
    · by_cases hlen : 2 ≤ (mapIndex d.ArtifactoryMetadata (trimPrefix path trimmedPrefix)).length
      · simp [hp, hlen]
      · simp [hp, hlen]
    · have hp' : hasPrefix path managedPrefix = false := by simpa using hp
      simp [hp']
  · rw [Reader_of_answer d key key offset (ConvertPath_key d path key hconv),
      Reader_of_answer d path key offset hconv]

theorem ConvertPath_idempotent_witness :
    (exampleDriver [("/repositories/app/_layers".toList, "3f9ac0".toList)]).ConvertPath
        "/3f/3f9ac0".toList = .returned ("/3f/3f9ac0".toList, none) ∧
    (exampleDriver [("/repositories/app/_layers".toList, "3f9ac0".toList)]).Reader
        "/3f/3f9ac0".toList 0 =
      (exampleDriver [("/repositories/app/_layers".toList, "3f9ac0".toList)]).Reader
        "/docker/registry/v2/repositories/app/_layers".toList 0 :=
  ⟨((ConvertPath_idempotent
      (exampleDriver [("/repositories/app/_layers".toList, "3f9ac0".toList)])
      "/docker/registry/v2/repositories/app/_layers".toList).2 "/3f/3f9ac0".toList
      (by decide)).1,
   ((ConvertPath_idempotent
      (exampleDriver [("/repositories/app/_layers".toList, "3f9ac0".toList)])
      "/docker/registry/v2/repositories/app/_layers".toList).2 "/3f/3f9ac0".toList
      (by decide)).2 0⟩

/-! ## `Stat` -/

/-- What `Stat` returns when the path is translated and the store answers the list
request. -/
theorem Stat_of_answer (d : Driver) (path key : Str) (resp : ListObjectsV2Output)
    (hconv : d.ConvertPath path = .returned (key, none)) :
    (d.Stat (.ok resp) path).2 =
      match resp.Contents with
      | [object] =>
        if object.Key ≠ d.s3Path key then .returned (.ok ⟨key, 0, 0, true⟩)
        else .returned (.ok ⟨key, object.Size, object.LastModified, false⟩)
      | _ =>
        if resp.CommonPrefixes.length = 1 then .returned (.ok ⟨key, 0, 0, true⟩)
        else .returned (.error (.PathNotFoundError key)) := by
  unfold Driver.Stat
  rw [hconv]
  simp only
  rcases resp.Contents with _ | ⟨o, _ | ⟨o2, os⟩⟩
  · simp only
    split <;> rfl
  · simp only
    split <;> rfl
  · simp only
    split <;> rfl

/-- With at most one key and common prefix in the answer, as `MaxKeys: 1` asks for,
`Stat` returns the NotFound error exactly when the answer holds neither. -/
theorem Stat_not_found_iff (d : Driver) (path key : Str) (resp : ListObjectsV2Output)
    (hconv : d.ConvertPath path = .returned (key, none))
    (hmax : resp.Contents.length + resp.CommonPrefixes.length ≤ 1) :
    (d.Stat (.ok resp) path).2 = .returned (.error (.PathNotFoundError key)) ↔
      resp.Contents = [] ∧ resp.CommonPrefixes = [] := by
  rw [Stat_of_answer d path key resp hconv]
  cases hc : resp.Contents with
  | nil =>
    cases hp : resp.CommonPrefixes with
    | nil => simp
    | cons cp cps =>
      rw [hc, hp] at hmax
      have : cps = [] := by
        cases cps with
        | nil => rfl
        | cons _ _ => simp at hmax
      subst this
      simp
  | cons o os =>
    rw [hc] at hmax
    have : os = [] := by
      cases os with
      | nil => rfl
      | cons _ _ => simp at hmax; omega
    subst this
    simp only
    split <;> simp

/-- C24: on the path `/a/b`, over a store whose one-key listing under `a/b` returns
the key `a/bc`, `Stat` returns a `FileInfo` with `IsDir` true, although that key
does not begin with `s3Path("/a/b")` followed by `/`. -/
theorem Stat_sibling_is_dir :
    (rootDriver [] (.ok (.ok []))).s3Path "/a/b".toList = "a/b".toList ∧
    hasPrefix "a/bc".toList ("a/b".toList ++ ['/']) = false ∧
    (rootDriver [] (.ok (.ok []))).Stat (.ok (examplePage ["a/bc".toList] [] false)) "/a/b".toList
      = ([⟨"b".toList, "a/b".toList, none, 1, none⟩],
          .returned (.ok ⟨"/a/b".toList, 0, 0, true⟩)) :=
  ⟨by decide, by decide, rfl⟩

/-! ## `URLFor` -/

theorem cleanLoop_nil (rooted : Bool) (fuel : Nat) (out : Str) (d : Nat) :
    cleanLoop rooted fuel [] out d = out := by
  cases fuel <;> rfl

theorem cleanLoop_slash (fuel : Nat) (cs out : Str) (d : Nat) :
    cleanLoop true (fuel + 1) ('/' :: cs) out d = cleanLoop true fuel cs out d := by
  conv_lhs => unfold cleanLoop
  simp

theorem cleanLoop_dot (fuel : Nat) (cs out : Str) (d : Nat)
    (h : cs = [] ∨ cs.head? = some '/') :
    cleanLoop true (fuel + 1) ('.' :: cs) out d = cleanLoop true fuel cs out d := by
  conv_lhs => unfold cleanLoop
  simp [h]

theorem cleanLoop_dotdot (fuel : Nat) (t out : Str) (d : Nat)
    (h : t = [] ∨ t.head? = some '/') :
    cleanLoop true (fuel + 1) ('.' :: '.' :: t) out d =
      if d < out.length then
        cleanLoop true fuel t (out.take (cleanBacktrack out d (out.length - 1))) d
      else cleanLoop true fuel t out d := by
  conv_lhs => unfold cleanLoop
  simp [h]

theorem cleanLoop_element (fuel : Nat) (c : Char) (cs out : Str) (d : Nat) (hc : c ≠ '/')
    (h1 : ¬ (c = '.' ∧ (cs = [] ∨ cs.head? = some '/')))
    (h2 : ¬ (c = '.' ∧ cs.head? = some '.' ∧ (cs.tail = [] ∨ cs.tail.head? = some '/'))) :
    cleanLoop true (fuel + 1) (c :: cs) out d =
      cleanLoop true fuel (cs.dropWhile (fun x => x != '/'))
        ((if out.length ≠ 1 then out ++ ['/'] else out) ++
          c :: cs.takeWhile (fun x => x != '/')) d := by
  conv_lhs => unfold cleanLoop
  simp only [hc, if_false, h1, h2]
  simp [List.takeWhile_cons, List.dropWhile_cons, hc]

theorem cleanBacktrack_bounds (out : Str) :
    ∀ w, 1 ≤ w → 1 ≤ cleanBacktrack out 1 w ∧ cleanBacktrack out 1 w ≤ w := by
  intro w
  induction w with
  | zero => intro h; omega
  | succ w ih =>
    intro _
    rw [cleanBacktrack]
    split
    · rename_i h
      have hw : 1 ≤ w := by omega
      have := ih hw
      omega
    · omega

theorem sum_map_take_le (w : Char → Nat) (l : Str) (k : Nat) :
    ((l.take k).map w).sum ≤ (l.map w).sum := by
  have h : (l.map w).sum = ((l.take k).map w).sum + ((l.drop k).map w).sum := by
    rw [← List.sum_append, ← List.map_append, List.take_append_drop]
  omega

theorem sum_takeWhile_dropWhile (w : Char → Nat) (p : Char → Bool) (l : Str) :
    ((l.takeWhile p).map w).sum + ((l.dropWhile p).map w).sum = (l.map w).sum := by
  rw [← List.sum_append, ← List.map_append, List.takeWhile_append_dropWhile]

theorem head_take_of_pos {α : Type} (l : List α) (k : Nat) (hk : 1 ≤ k) :
    (l.take k).head? = l.head? := by
  cases l with
  | nil => simp
  | cons a t =>
    obtain ⟨j, rfl⟩ : ∃ j, k = j + 1 := ⟨k - 1, by omega⟩
    simp

theorem dropWhile_head_slash (cs : Str) (c : Char) (t : Str)
    (h : cs.dropWhile (fun x => x != '/') = c :: t) : c = '/' := by
  have := List.head_dropWhile_not (fun x => x != '/') cs (by rw [h]; simp)
  simpa [h] using this

theorem getLast_dropWhile_slash (cs : Str) (h : cs.getLast? = some '/') :
    (cs.dropWhile (fun x => x != '/')).getLast? = some '/' := by
  induction cs with
  | nil => simp at h
  | cons a t ih =>
    rw [List.dropWhile_cons]
    by_cases ha : a = '/'
    · simp [ha] at h ⊢
      exact h
    · simp only [bne_iff_ne, ne_eq, ha, not_false_eq_true, decide_True, if_true]
      cases t with
      | nil =>
        simp at h
        exact absurd h ha
      | cons b t' =>
        apply ih
        simpa [List.getLast?_cons_cons] using h

/-- The loop of `filepath.Clean` on a rooted path, for any weight of the bytes
that gives the separator the weight 1 (the length, the number of separators):
the buffer keeps its leading separator, and the weight of the result is at most
that of the buffer and the unread input together, with one to spare when the
input ends in a separator. -/
theorem cleanLoop_rooted (w : Char → Nat) (hw : w '/' = 1) :
    ∀ (fuel : Nat) (rest out : Str) (N : Nat), rest.length ≤ fuel → out.head? = some '/' →
      (out.map w).sum + (rest.map w).sum ≤ N →
      (∀ c cs, rest = c :: cs → c ≠ '/' → out.length ≠ 1 →
        (out.map w).sum + (rest.map w).sum + 1 ≤ N) →
      (cleanLoop true fuel rest out 1).head? = some '/' ∧
      ((cleanLoop true fuel rest out 1).map w).sum ≤ N ∧
      (rest.getLast? = some '/' → ((cleanLoop true fuel rest out 1).map w).sum + 1 ≤ N) := by
  intro fuel
  induction fuel with
  | zero =>
    intro rest out N hf hh hs _
    have : rest = [] := List.length_eq_zero.1 (by omega)
    subst this
    rw [cleanLoop_nil]
    exact ⟨hh, by simpa using hs, by simp⟩
  | succ fuel ih =>
    intro rest out N hf hh hs hslack
    cases rest with
    | nil =>
      rw [cleanLoop_nil]
      exact ⟨hh, by simpa using hs, by simp⟩
    | cons c cs =>
      simp only [List.length_cons] at hf
      simp only [List.map_cons, List.sum_cons] at hs
      by_cases hc : c = '/'
      · subst hc
        rw [cleanLoop_slash]
        rw [hw] at hs
        obtain ⟨r1, r2, r3⟩ := ih cs out N (by omega) hh (by omega)
          (fun _ _ _ _ _ => by omega)
        refine ⟨r1, r2, fun hl => ?_⟩
        cases cs with
        | nil =>
          rw [cleanLoop_nil]
          simp at hs
          omega
        | cons b t => exact r3 (by simpa [List.getLast?_cons_cons] using hl)
      · by_cases h1 : c = '.' ∧ (cs = [] ∨ cs.head? = some '/')
        · obtain ⟨rfl, h1⟩ := h1
          rw [cleanLoop_dot _ _ _ _ h1]
          obtain ⟨r1, r2, r3⟩ := ih cs out N (by omega) hh (by omega) (by
            intro c' cs' e hc' _
            subst e
            rcases h1 with h | h
            · cases h
            · simp at h
              exact absurd h hc')
          refine ⟨r1, r2, fun hl => ?_⟩
          cases cs with
          | nil =>
            simp at hl
          | cons b t => exact r3 (by simpa [List.getLast?_cons_cons] using hl)
        · by_cases h2 : c = '.' ∧ cs.head? = some '.' ∧
              (cs.tail = [] ∨ cs.tail.head? = some '/')
          · obtain ⟨rfl, h2, h3⟩ := h2
            cases cs with
            | nil => simp at h2
            | cons b t =>
              have hb : b = '.' := by simpa using h2
              subst hb
              simp only [List.tail_cons] at h3
              simp only [List.length_cons] at hf
              simp only [List.map_cons, List.sum_cons] at hs
              rw [cleanLoop_dotdot _ _ _ _ h3]
              have hvac : ∀ c' cs', t = c' :: cs' → c' ≠ '/' → True := fun _ _ _ _ => trivial
              have hlast : (('.' : Char) :: '.' :: t).getLast? = some '/' →
                  t.getLast? = some '/' := by
                intro hl
                cases t with
                | nil => simp at hl
                | cons x t' => simpa [List.getLast?_cons_cons] using hl
              have hslk : ∀ (o : Str) (c' : Char) (cs' : Str), t = c' :: cs' → c' ≠ '/' →
                  o.length ≠ 1 → (o.map w).sum + (t.map w).sum + 1 ≤ N := by
                intro o c' cs' e hc' _
                subst e
                rcases h3 with h | h
                · cases h
                · simp at h
                  exact absurd h hc'
              split
              · rename_i hlt
                have hb := cleanBacktrack_bounds out (out.length - 1) (by omega)
                have hle := sum_map_take_le w out (cleanBacktrack out 1 (out.length - 1))
                obtain ⟨r1, r2, r3⟩ := ih t
                  (out.take (cleanBacktrack out 1 (out.length - 1))) N (by omega)
                  (by rw [head_take_of_pos _ _ hb.1]; exact hh) (by omega)
                  (hslk _)
                exact ⟨r1, r2, fun hl => r3 (hlast hl)⟩
              · obtain ⟨r1, r2, r3⟩ := ih t out N (by omega) hh (by omega) (hslk _)
                exact ⟨r1, r2, fun hl => r3 (hlast hl)⟩
          · rw [cleanLoop_element _ _ _ _ _ hc h1 h2]
            have hsum := sum_takeWhile_dropWhile w (fun x => x != '/') cs
            have hlen : (cs.dropWhile (fun x => x != '/')).length ≤ cs.length :=
              (List.dropWhile_suffix _).length_le
            have hout : ((if out.length ≠ 1 then out ++ ['/'] else out) ++
                c :: cs.takeWhile (fun x => x != '/')).head? = some '/' := by
              cases out with
              | nil => simp at hh
              | cons a o =>
                simp at hh
                subst hh
                split <;> simp
            have hbound : (((if out.length ≠ 1 then out ++ ['/'] else out) ++
                c :: cs.takeWhile (fun x => x != '/')).map w).sum +
                ((cs.dropWhile (fun x => x != '/')).map w).sum ≤ N := by
              by_cases hl : out.length ≠ 1
              · have := hslack c cs rfl hc hl
                simp only [List.map_cons, List.sum_cons] at this
                simp only [hl, if_true, ne_eq, not_false_eq_true, List.map_append, List.map_cons,
                  List.sum_append, List.sum_cons, List.map_nil, List.sum_nil, hw]
                omega
              · simp only [hl, if_false, List.map_append, List.map_cons, List.sum_append,
                  List.sum_cons]
                omega
            obtain ⟨r1, r2, r3⟩ := ih (cs.dropWhile (fun x => x != '/')) _ N (by omega) hout
              hbound (by
                intro c' cs' e hc' _
                exact absurd (dropWhile_head_slash cs c' cs' e) hc')
            refine ⟨r1, r2, fun hl => r3 ?_⟩
            apply getLast_dropWhile_slash
            cases cs with
            | nil =>
              simp at hl
              exact absurd hl hc
            | cons b t => simpa [List.getLast?_cons_cons] using hl

theorem filepathClean_rooted (w : Char → Nat) (hw : w '/' = 1) (cs : Str) :
    (filepathClean ('/' :: cs)).head? = some '/' ∧
    ((filepathClean ('/' :: cs)).map w).sum ≤ 1 + (cs.map w).sum ∧
    (cs.getLast? = some '/' →
      ((filepathClean ('/' :: cs)).map w).sum + 1 ≤ 1 + (cs.map w).sum) := by
  obtain ⟨r1, r2, r3⟩ := cleanLoop_rooted w hw (cs.length + 1) cs ['/'] (1 + (cs.map w).sum)
    (by omega) rfl (by simp [hw]) (fun _ _ _ _ h => absurd rfl h)
  have e : filepathClean ('/' :: cs) = cleanLoop true (cs.length + 1) cs ['/'] 1 := by
    unfold filepathClean
    simp only [if_true, List.length_cons]
    split
    · rename_i h0
      rw [List.length_eq_zero.1 h0] at r1
      simp at r1
    · rfl
  rw [e]
  exact ⟨r1, r2, r3⟩

/-- The argument of `filepath.Clean` in `filepath.Dir` of a rooted path: the path
up to its last separator. -/
theorem rdropWhile_rooted (p : Str) (hp : p.head? = some '/') :
    ∃ cs, p.rdropWhile (fun x => x != '/') = '/' :: cs ∧ (cs = [] ∨ cs.getLast? = some '/') ∧
      ('/' :: cs) <+: p := by
  have hpre : p.rdropWhile (fun x => x != '/') <+: p := List.rdropWhile_prefix _ _
  have hne : p.rdropWhile (fun x => x != '/') ≠ [] := by
    intro h
    rw [List.rdropWhile_eq_nil_iff] at h
    cases p with
    | nil => simp at hp
    | cons a t =>
      have ha : a = '/' := by simpa using hp
      have := h a (by simp)
      simp [ha] at this
  have hlast := List.rdropWhile_last_not (fun x => x != '/') p hne
  generalize p.rdropWhile (fun x => x != '/') = q at hpre hne hlast
  cases q with
  | nil => exact absurd rfl hne
  | cons a cs =>
    have ha : a = '/' := by
      obtain ⟨t, ht⟩ := hpre
      rw [← ht] at hp
      simpa using hp
    subst ha
    refine ⟨cs, rfl, ?_, hpre⟩
    cases cs with
    | nil => exact Or.inl rfl
    | cons b t =>
      right
      have : ('/' :: b :: t).getLast hne = '/' := by simpa using hlast
      rw [List.getLast_cons (by simp)] at this
      rw [List.getLast?_eq_getLast _ (by simp), this]

theorem sum_map_le_of_pre (w : Char → Nat) (q p : Str) (h : q <+: p) :
    (q.map w).sum ≤ (p.map w).sum := by
  obtain ⟨t, rfl⟩ := h
  simp

/-- On a rooted path, `filepath.Dir` returns a rooted path, which is `/` or weighs
less than the path, for any weight of the bytes that gives the separator the
weight 1. -/
theorem filepathDir_rooted (w : Char → Nat) (hw : w '/' = 1) (p : Str)
    (hp : p.head? = some '/') :
    (filepathDir p).head? = some '/' ∧
    (filepathDir p = ['/'] ∨ ((filepathDir p).map w).sum + 1 ≤ (p.map w).sum) := by
  obtain ⟨cs, hq, hcs, hpre⟩ := rdropWhile_rooted p hp
  obtain ⟨r1, _, r3⟩ := filepathClean_rooted w hw cs
  unfold filepathDir
  rw [hq]
  refine ⟨r1, ?_⟩
  rcases hcs with rfl | hl
  · left
    rfl
  · right
    have := sum_map_le_of_pre w _ _ hpre
    simp only [List.map_cons, List.sum_cons, hw] at this
    have := r3 hl
    omega

theorem sum_map_one (l : Str) : (l.map (fun _ => 1)).sum = l.length := by
  induction l with
  | nil => rfl
  | cons a t ih => simp [ih]; omega

theorem sum_map_slash (l : Str) :
    (l.map (fun c => if c = '/' then 1 else 0)).sum = l.count '/' := by
  induction l with
  | nil => rfl
  | cons a t ih =>
    rw [List.map_cons, List.sum_cons, ih, List.count_cons]
    by_cases h : a = '/'
    · simp [h]; omega
    · simp [h]

theorem filepathDir_shorter (p : Str) (hp : p.head? = some '/') (hne : p ≠ ['/']) :
    (filepathDir p).head? = some '/' ∧ (filepathDir p).length < p.length := by
  obtain ⟨r1, r2⟩ := filepathDir_rooted (fun _ => 1) rfl p hp
  refine ⟨r1, ?_⟩
  rcases r2 with h | h
  · rw [h]
    cases p with
    | nil => simp at hp
    | cons a t =>
      have ha : a = '/' := by simpa using hp
      subst ha
      cases t with
      | nil => exact absurd rfl hne
      | cons b t' => simp
  · rw [sum_map_one, sum_map_one] at h
    omega

theorem filepathDir_count (p : Str) (hp : p.head? = some '/') :
    (filepathDir p).head? = some '/' ∧
    (filepathDir p = ['/'] ∨ (filepathDir p).count '/' + 1 ≤ p.count '/') := by
  obtain ⟨r1, r2⟩ := filepathDir_rooted (fun c => if c = '/' then 1 else 0) (by simp) p hp
  refine ⟨r1, ?_⟩
  rcases r2 with h | h
  · exact Or.inl h
  · rw [sum_map_slash, sum_map_slash] at h
    exact Or.inr h

theorem count_pos_of_rooted (p : Str) (hp : p.head? = some '/') : 1 ≤ p.count '/' := by
  cases p with
  | nil => simp at hp
  | cons a t =>
    have ha : a = '/' := by simpa using hp
    subst ha
    simp

/-! ## `directoryDiff` on a rooted path -/

/-- The loop of `directoryDiff` from a rooted path ends, whatever `prev` is, after
fewer rounds than the path has separators, and what it appends does not depend on
the fuel. -/
theorem directoryDiffLoop_rooted (prev : Str) :
    ∀ (n : Nat) (parent : Str), parent.head? = some '/' → parent.count '/' ≤ n →
      ∃ l : List Str, l.length + 1 ≤ parent.count '/' ∧
        ∀ (fuel : Nat) (paths : List Str), parent.count '/' ≤ fuel →
          directoryDiffLoop prev fuel parent paths = some (paths ++ l) := by
  intro n
  induction n with
  | zero =>
    intro parent hp hn
    have := count_pos_of_rooted parent hp
    omega
  | succ n ih =>
    intro parent hp hn
    have hpos := count_pos_of_rooted parent hp
    obtain ⟨h1, h2⟩ := filepathDir_count parent hp
    by_cases hstop : filepathDir parent = ['/'] ∨ filepathDir parent = prev ∨
        hasPrefix (prev ++ ['/']) (filepathDir parent ++ ['/']) = true
    · refine ⟨[], by simpa using hpos, fun fuel paths hf => ?_⟩
      obtain ⟨f, rfl⟩ : ∃ f, fuel = f + 1 := ⟨fuel - 1, by omega⟩
      rw [directoryDiffLoop]
      simp only [hstop, if_true, List.append_nil]
    · have hlt : (filepathDir parent).count '/' + 1 ≤ parent.count '/' := by
        rcases h2 with h | h
        · exact absurd (Or.inl h) hstop
        · exact h
      obtain ⟨l, hl, hloop⟩ := ih (filepathDir parent) h1 (by omega)
      refine ⟨filepathDir parent :: l, by simp only [List.length_cons]; omega,
        fun fuel paths hf => ?_⟩
      obtain ⟨f, rfl⟩ : ∃ f, fuel = f + 1 := ⟨fuel - 1, by omega⟩
      rw [directoryDiffLoop]
      simp only [hstop, if_false]
      rw [hloop f _ (by omega)]
      simp

theorem directoryDiff_rooted (prev current : Str) (h : current.head? = some '/') :
    ∃ l, directoryDiff prev current = some l ∧ l.length < current.count '/' ∧
      (prev ≠ [] → ∀ fuel, current.count '/' ≤ fuel →
        directoryDiffLoop prev fuel current [] = some l.reverse) := by
  have hpos := count_pos_of_rooted current h
  by_cases hprev : prev = []
  · exact ⟨[], by simp [directoryDiff, hprev], by simpa using hpos, fun hne => absurd hprev hne⟩
  · obtain ⟨l, hl, hloop⟩ := directoryDiffLoop_rooted prev _ current h (le_refl _)
    have hcur : current ≠ [] := by
      rintro rfl
      simp at h
    refine ⟨l.reverse, ?_, by simp only [List.length_reverse]; omega, fun _ fuel hf => ?_⟩
    · unfold directoryDiff
      rw [if_neg (by simp [hprev, hcur]),
        hloop (current.length + 2) [] (by have := List.count_le_length '/' current; omega)]
      simp
    · rw [hloop fuel [] hf]
      simp

/-- C27: for every `prev` and every `current` that begins with `/`, `directoryDiff`
returns, and the loop ends with any fuel that is at least the number of separators
of `current`; the list returned has fewer elements than `current` has separators;
and `filepath.Dir` takes every rooted path other than `/` to a rooted path that is
strictly shorter. -/
theorem directoryDiff_terminates (prev current : Str) (h : current.head? = some '/') :
    (∃ l, directoryDiff prev current = some l ∧ l.length ≤ current.count '/' ∧
      (prev ≠ [] → ∀ fuel, current.count '/' ≤ fuel →
        directoryDiffLoop prev fuel current [] = some l.reverse)) ∧
    ∀ p : Str, p.head? = some '/' → p ≠ ['/'] →
      (filepathDir p).head? = some '/' ∧ (filepathDir p).length < p.length := by
  obtain ⟨l, h1, h2, h3⟩ := directoryDiff_rooted prev current h
  exact ⟨⟨l, h1, by omega, h3⟩, fun p hp hne => filepathDir_shorter p hp hne⟩

theorem directoryDiff_terminates_witness :
    (∃ l, directoryDiff "/x".toList "/a//b/../c/./d".toList = some l ∧
      l.length ≤ "/a//b/../c/./d".toList.count '/' ∧
      ("/x".toList ≠ [] → ∀ fuel, "/a//b/../c/./d".toList.count '/' ≤ fuel →
        directoryDiffLoop "/x".toList fuel "/a//b/../c/./d".toList [] = some l.reverse)) ∧
    (filepathDir "/a//b/../c/./d".toList).length < "/a//b/../c/./d".toList.length :=
  ⟨(directoryDiff_terminates "/x".toList "/a//b/../c/./d".toList rfl).1,
   ((directoryDiff_terminates "/x".toList "/a//b/../c/./d".toList rfl).2
      "/a//b/../c/./d".toList rfl (by decide)).2⟩

/-! ## The walk does not depend on the page boundaries -/

theorem walkCallsSpec_rooted (d : Driver) :
    ∀ (objs : List S3Object) (p : Str),
      (∀ o ∈ objs, (d.keyToPath o.Key).head? = some '/') →
      ∃ E, walkCallsSpec d p objs = some E := by
  intro objs
  induction objs with
  | nil => intro p _; exact ⟨[], rfl⟩
  | cons o os ih =>
    intro p h
    obtain ⟨dirs, hd, _⟩ := directoryDiff_rooted p (d.keyToPath o.Key) (h o (by simp))
    obtain ⟨E, hE⟩ := ih (dirs.getLastD p) (fun x hx => h x (by simp [hx]))
    rw [walkCallsSpec, hd]
    simp only [hE]
    exact ⟨_, rfl⟩

theorem doWalk_visitor {σ : Type} (d : Driver) (pages : List (List S3Object))
    (storeErr : Option GoError) (frm : Str) (f : WalkFn σ) (v : σ) :
    (d.doWalk pages storeErr frm f v).visitor =
      (listPages d f storeErr (initState frm v) pages 0).1.visitor := by
  rw [doWalk_eq]
  obtain ⟨st, n, le⟩ := listPages d f storeErr (initState frm v) pages 0
  cases le with
  | none => rfl
  | some e => simp only; split <;> [rfl; (split <;> rfl)]

/-- The pager, whatever the visitor answers: when `directoryDiff` returns on every
listed path, the calls, the visitor's state, `retError` and the pager's result are
those of the second loop of the page callback run once over the entries of the
whole listing. -/
theorem listPages_visit {σ : Type} (d : Driver) (f : WalkFn σ) (storeErr : Option GoError) :
    ∀ (pages : List (List S3Object)) (st : WalkState σ) (n : Nat) (E : List FileInfo),
      walkCallsSpec d st.prevDir pages.flatten = some E →
      (listPages d f storeErr st pages n).1.calls = (visitWalkInfos f st E).1.calls ∧
      (listPages d f storeErr st pages n).1.visitor = (visitWalkInfos f st E).1.visitor ∧
      (listPages d f storeErr st pages n).1.retError = (visitWalkInfos f st E).1.retError ∧
      (listPages d f storeErr st pages n).2.2 =
        some (if (visitWalkInfos f st E).2 = true then storeErr else none) := by
  intro pages
  induction pages with
  | nil =>
    intro st n E h
    simp only [List.flatten_nil, walkCallsSpec, Option.some.injEq] at h
    subst h
    simp [listPages, visit_nil]
  | cons page more ih =>
    intro st n E h
    rw [List.flatten_cons, walkCallsSpec_append] at h
    cases h1 : walkCallsSpec d st.prevDir page with
    | none => rw [h1] at h; simp at h
    | some E1 =>
      rw [h1] at h
      simp only [Option.some_bind] at h
      obtain ⟨E2, hE2, rfl⟩ := Option.map_eq_some'.1 h
      obtain ⟨_, hp⟩ := walkCallsSpec_some d page _ E1 h1
      have hw : walkPage d f st page =
          some ((visitWalkInfos f st E1).1.withPrevDir (d.prevDirAfter st.prevDir page),
            (visitWalkInfos f st E1).2) := by
        rw [walkPage_eq, hp []]
        simp only [Option.map_some', List.nil_append, visit_withPrevDir]
      rw [visit_append]
      cases hb : (visitWalkInfos f st E1).2 with
      | true =>
        rw [hb] at hw
        have hl : listPages d f storeErr st (page :: more) n =
            listPages d f storeErr
              ((visitWalkInfos f st E1).1.withPrevDir (d.prevDirAfter st.prevDir page)) more
              (n + 1) := by
          simp [listPages, hw]
        obtain ⟨i1, i2, i3, i4⟩ := ih
          ((visitWalkInfos f st E1).1.withPrevDir (d.prevDirAfter st.prevDir page)) (n + 1) E2
          hE2
        rw [visit_withPrevDir] at i1 i2 i3 i4
        simp only [if_true]
        rw [hl]
        exact ⟨i1, i2, i3, i4⟩
      | false =>
        rw [hb] at hw
        have hl : listPages d f storeErr st (page :: more) n =
            ((visitWalkInfos f st E1).1.withPrevDir (d.prevDirAfter st.prevDir page), n + 1,
              some none) := by
          simp [listPages, hw]
        rw [hl]
        simp [WalkState.withPrevDir, hb]

/-- The run of a walk when `directoryDiff` returns on every listed path. -/
theorem Walk_visit {σ : Type} (d : Driver) (pages : List (List S3Object))
    (storeErr : Option GoError) (frm : Str) (f : WalkFn σ) (v : σ) (E : List FileInfo)
    (h : walkCallsSpec d frm pages.flatten = some E) :
    (d.Walk pages storeErr frm f v).calls = (visitWalkInfos f (initState frm v) E).1.calls ∧
    (d.Walk pages storeErr frm f v).visitor = (visitWalkInfos f (initState frm v) E).1.visitor ∧
    (d.Walk pages storeErr frm f v).result =
      some (if (visitWalkInfos f (initState frm v) E).1.retError.isSome = true then
          (visitWalkInfos f (initState frm v) E).1.retError
        else if (visitWalkInfos f (initState frm v) E).2 = true then storeErr else none) := by
  obtain ⟨h1, h2, h3, h4⟩ := listPages_visit d f storeErr pages (initState frm v) 0 E h
  unfold Driver.Walk
  refine ⟨by rw [doWalk_calls, h1], by rw [doWalk_visitor, h2], ?_⟩
  rw [doWalk_result d pages storeErr frm f v _ h4, h3]

/-- C25: over listings whose virtual paths begin with `/`, as those of the keys
under the prefix of `from` do, two ways of splitting the same sequence of objects
into pages give the same visitor calls in the same order, the same final state of
the visitor and the same result, for every visitor; and the walk returns. -/
theorem Walk_page_split {σ : Type} (d : Driver) (pagesA pagesB : List (List S3Object))
    (storeErr : Option GoError) (frm : Str) (f : WalkFn σ) (v : σ)
    (hsame : pagesA.flatten = pagesB.flatten)
    (habs : ∀ k ∈ d.walkPaths pagesA, k.head? = some '/') :
    (d.Walk pagesA storeErr frm f v).calls = (d.Walk pagesB storeErr frm f v).calls ∧
    (d.Walk pagesA storeErr frm f v).visitor = (d.Walk pagesB storeErr frm f v).visitor ∧
    (d.Walk pagesA storeErr frm f v).result = (d.Walk pagesB storeErr frm f v).result ∧
    (d.Walk pagesA storeErr frm f v).result ≠ none := by
  obtain ⟨E, hE⟩ := walkCallsSpec_rooted d pagesA.flatten frm
    (fun o ho => habs _ (List.mem_map_of_mem _ ho))
  obtain ⟨a1, a2, a3⟩ := Walk_visit d pagesA storeErr frm f v E hE
  obtain ⟨b1, b2, b3⟩ := Walk_visit d pagesB storeErr frm f v E (hsame ▸ hE)
  exact ⟨by rw [a1, b1], by rw [a2, b2], by rw [a3, b3], by rw [a3]; simp⟩

theorem Walk_page_split_witness :
    ((exampleDriver []).Walk
        [[⟨"a/b/x".toList, 10, 20⟩], [⟨"a/b/y".toList, 11, 21⟩, ⟨"a/c".toList, 30, 40⟩]] none
        "/".toList (scriptedVisitor ["/a/b".toList] ["/a/c".toList] []) ()).calls =
      ((exampleDriver []).Walk
        [[⟨"a/b/x".toList, 10, 20⟩, ⟨"a/b/y".toList, 11, 21⟩], [], [⟨"a/c".toList, 30, 40⟩]] none
        "/".toList (scriptedVisitor ["/a/b".toList] ["/a/c".toList] []) ()).calls ∧
    ((exampleDriver []).Walk
        [[⟨"a/b/x".toList, 10, 20⟩], [⟨"a/b/y".toList, 11, 21⟩, ⟨"a/c".toList, 30, 40⟩]] none
        "/".toList (scriptedVisitor ["/a/b".toList] ["/a/c".toList] []) ()).result =
      ((exampleDriver []).Walk
        [[⟨"a/b/x".toList, 10, 20⟩, ⟨"a/b/y".toList, 11, 21⟩], [], [⟨"a/c".toList, 30, 40⟩]] none
        "/".toList (scriptedVisitor ["/a/b".toList] ["/a/c".toList] []) ()).result :=
  ⟨(Walk_page_split (exampleDriver [])
      [[⟨"a/b/x".toList, 10, 20⟩], [⟨"a/b/y".toList, 11, 21⟩, ⟨"a/c".toList, 30, 40⟩]]
      [[⟨"a/b/x".toList, 10, 20⟩, ⟨"a/b/y".toList, 11, 21⟩], [], [⟨"a/c".toList, 30, 40⟩]]
      none "/".toList (scriptedVisitor ["/a/b".toList] ["/a/c".toList] []) () rfl
      (by decide)).1,
   (Walk_page_split (exampleDriver [])
      [[⟨"a/b/x".toList, 10, 20⟩], [⟨"a/b/y".toList, 11, 21⟩, ⟨"a/c".toList, 30, 40⟩]]
      [[⟨"a/b/x".toList, 10, 20⟩, ⟨"a/b/y".toList, 11, 21⟩], [], [⟨"a/c".toList, 30, 40⟩]]
      none "/".toList (scriptedVisitor ["/a/b".toList] ["/a/c".toList] []) () rfl
      (by decide)).2.2.1⟩

end S3Driver
